import Mathlib

/-!
# Content-aware pagination: ink-density profile and dynamic-programming cut optimizer

A shallow embedding of `cap-c/src/core.c` (`rgb_to_gray`, `compute_integral_image`,
`get_rect_sum`, `compute_ink_density`, `is_unsafe_cut_fn`, `find_optimal_cuts_dp`).

Modelling conventions.

* C `int` values are unbounded (`Nat` for row / column indices and sizes, `Int` wherever the
  source can produce or receive a negative number).  32-bit wrap-around is modelled
  separately, for the integral image only, by the definitions whose names end in `32`.
* A C `double` is the rational number it denotes (`ℚ`); infinities and NaN are not modelled.
  In `find_optimal_cuts_dp` and in the luminance expression of `rgb_to_gray` every arithmetic
  operation on doubles (`+`, `*`, `/`) is the exact operation followed by `fl64`, IEEE 754
  binary64 rounding to nearest, ties to even, with gradual underflow; the operations are
  rounded one by one in the order of the source (no fused multiply-add, no extended
  precision).  Comparisons are exact.  A decimal literal (`0.01`, `0.299`, ...) is the double
  nearest to it.  The cast `(int)d` is truncation toward zero (`cTrunc`).
* In `compute_ink_density` the two quotients `(double)sum / area` and
  `(double)row_ink_pixels / width` are kept as exact rationals.
* A C array that is only read (`ink_profile`, `image_data`, `gray`) is a function of the index.
  An array that a loop fills once and later code reads (`smoothed`, `is_gap`) is the function
  giving the value written at each index.  Arrays whose contents are the point of the algorithm
  (`candidates`, `dp`, `parent`, `integral`, the returned `cuts`) are built by explicit loops.
* `while` / `for` loops whose trip count is not syntactically bounded run on fuel; each such
  loop is given the fuel the source guarantees to be enough, and stability lemmas show that
  more fuel does not change the result.
* `malloc` / `realloc` / `free` are not modelled (allocation is assumed to succeed).
-/

namespace CAP

/-! ## Scalars -/

/-- C conversion `(int)d` of a double: truncation toward zero. -/
def cTrunc (q : ℚ) : Int := if 0 ≤ q then ⌊q⌋ else ⌈q⌉

/-! ## IEEE 754 binary64 rounding -/

/-- The power `2 ^ t` for an integer exponent. -/
def pow2 (t : Int) : ℚ :=
  if 0 ≤ t then ((2 ^ t.toNat : Nat) : ℚ) else 1 / ((2 ^ (-t).toNat : Nat) : ℚ)

/-- Number of halvings that bring `n` below 2, on fuel. -/
def log2Fuel : Nat → Nat → Nat
  | 0, _ => 0
  | fuel + 1, n => if n < 2 then 0 else log2Fuel fuel (n / 2) + 1

/-- Floor of the binary logarithm of a positive natural number. -/
def natLog2 (n : Nat) : Nat := log2Fuel n n

/-- Floor of the binary logarithm of a positive rational: the `e` with `2^e ≤ x < 2^(e+1)`. -/
def ilog2 (x : ℚ) : Int :=
  let e0 : Int := (natLog2 x.num.natAbs : Int) - (natLog2 x.den : Int)
  if pow2 e0 ≤ x then e0 else e0 - 1

/-- Rounding of a rational to the nearest integer, ties to the even neighbour. -/
def roundHalfEven (q : ℚ) : Int :=
  let f := ⌊q⌋
  let d := q - (f : ℚ)
  if d < 1 / 2 then f else if 1 / 2 < d then f + 1 else if f % 2 = 0 then f else f + 1

/-- Rounding of `x` to the nearest multiple of `2 ^ t`, ties to the even multiple. -/
def roundTo (t : Int) (x : ℚ) : ℚ := (roundHalfEven (x / pow2 t) : ℚ) * pow2 t

/-- Exponent of the unit in the last place of the binary64 format at a positive `x`: 52 below
the binary exponent of `x`, which is at least `-1022` (below that the format is subnormal). -/
def ulpExp (x : ℚ) : Int := max (ilog2 x) (-1022) - 52

/-- Half-width of the exponent range covered by the binary search of `binExp`. -/
def expBias : Nat := 2048

/-- Binary search for the binary exponent of `n / d`, shifted by `expBias`: from a lower
bound `lo` with `2^(lo - 2048) ≤ n / d < 2^(lo + 2^s - 2048)` down to a window of width
one. -/
def expSearch (n d : Nat) : Nat → Nat → Nat
  | 0, lo => lo
  | s + 1, lo =>
    if d * 2 ^ (lo + 2 ^ s) ≤ n * 2 ^ expBias then expSearch n d s (lo + 2 ^ s)
    else expSearch n d s lo

/-- Binary exponent of the positive rational `n / d`: by binary search when
`2^-2048 ≤ n / d < 2^2048`, by `ilog2` otherwise. -/
def binExp (n d : Nat) : Int :=
  if d ≤ n * 2 ^ expBias ∧ n * 2 ^ expBias < d * 2 ^ (2 * expBias) then
    (expSearch n d 12 0 : Int) - (expBias : Int)
  else ilog2 ((n : ℚ) / (d : ℚ))

/-- The quotient `N / D` rounded to the nearest natural number, ties to the even one. -/
def roundDiv (N D : Nat) : Nat :=
  if 2 * (N % D) < D then N / D
  else if D < 2 * (N % D) then N / D + 1
  else if (N / D) % 2 = 0 then N / D else N / D + 1

/-- Binary64 rounding of the positive rational `n / d`, in integer arithmetic: with
`t = max e (-1022) - 52` for the binary exponent `e`, the nearest multiple of `2^t`. -/
def fl64mag (n d : Nat) : ℚ :=
  let t := max (binExp n d) (-1022) - 52
  if 0 ≤ t then ((roundDiv n (d * 2 ^ t.toNat) * 2 ^ t.toNat : Nat) : ℚ)
  else mkRat (roundDiv (n * 2 ^ (-t).toNat) d) (2 ^ (-t).toNat)

/-- IEEE 754 binary64 rounding to nearest, ties to even: the double that a C operation
returns when its exact result is `x`.  For `x > 0` this is `roundTo (ulpExp x) x`, and the
function is odd.  Overflow to infinity is not modelled. -/
def fl64 (x : ℚ) : ℚ :=
  if x.num = 0 then 0
  else if 0 < x.num then fl64mag x.num.natAbs x.den
  else - fl64mag x.num.natAbs x.den

/-- The sentinel `1e9` that initialises every `dp[k]`. -/
def DP_INF : ℚ := 1000000000

/-- The bound `1e8` tested by `if (dp[curr] >= 1e8)`. -/
def DP_UNREACHABLE : ℚ := 100000000

/-- The local `double gap_thresh = 0.01`: the double nearest to 1/100, which is
`5764607523034235 / 2^59`. -/
def gap_thresh : ℚ := 5764607523034235 / 576460752303423488

/-- The local `int band_size = 200`. -/
def band_size : Nat := 200

/-- The local `int smooth_radius = 10`. -/
def smooth_radius : Nat := 10

/-- The enum `CutMode` of `core.h`. -/
inductive CutMode where
  | CUT_MODE_WHITESPACE
  | CUT_MODE_FIXED_HEIGHT_SNAP
  deriving DecidableEq, Repr

/-! ## Smoothing (core.c 140-153) -/

/-- Accumulation `for (k = start; k < start + n; ++k) sum += a[k]` in a `double`, starting
from `sum = 0`; every addition is rounded. -/
def boxSum (a : Nat → ℚ) (start : Nat) : Nat → ℚ
  | 0 => 0
  | n + 1 => fl64 (boxSum a start n + a (start + n))

/-- The value stored in `smoothed[i]`: box filter of radius 10, clipped to `[0, height)`.
`start = MAX(0, i - 10)` is truncated subtraction, `end = MIN(height, i + 11)`, and `count`
is the number of loop iterations `end - start`; the quotient `sum / count` is rounded. -/
def smoothed (ink_profile : Nat → ℚ) (height i : Nat) : ℚ :=
  let start := i - smooth_radius
  let stop := min height (i + smooth_radius + 1)
  let count := stop - start
  if count > 0 then fl64 (boxSum ink_profile start count / (count : ℚ)) else 0

/-! ## Gap detection (core.c 190-211) -/

/-- The value stored in `is_gap[i]`. -/
def is_gap (ink_profile : Nat → ℚ) (i : Nat) : Bool := decide (ink_profile i ≤ gap_thresh)

/-- Inner loop `while (i < height && is_gap[i]) i++;`, returning the final `i`. -/
def gapRunEnd (ink_profile : Nat → ℚ) (height : Nat) : Nat → Nat → Nat
  | 0, i => i
  | fuel + 1, i =>
    if i < height ∧ is_gap ink_profile i = true then gapRunEnd ink_profile height fuel (i + 1)
    else i

/-- Outer loop `while (i < height) { ... }` of the gap detection; returns the midpoints pushed
onto `candidates`, in push order. -/
def gapLoop (ink_profile : Nat → ℚ) (height : Nat) (min_gap_rows : Int) : Nat → Nat → List Nat
  | 0, _ => []
  | fuel + 1, i =>
    if i < height then
      if is_gap ink_profile i = true then
        let start := i
        let i' := gapRunEnd ink_profile height (height - i) i
        let len := i' - start
        if (len : Int) ≥ min_gap_rows then
          (start + len / 2) :: gapLoop ink_profile height min_gap_rows fuel i'
        else gapLoop ink_profile height min_gap_rows fuel i'
      else gapLoop ink_profile height min_gap_rows fuel (i + 1)
    else []

/-- Midpoints of the qualifying whitespace gaps. -/
def gapCandidates (ink_profile : Nat → ℚ) (height : Nat) (min_gap_rows : Int) : List Nat :=
  gapLoop ink_profile height min_gap_rows height 0

/-! ## Band minima (core.c 218-236) -/

/-- State `(local_min_idx, local_min_val)` after the loop
`for (r = start_row; r < start_row + n; ++r) if (smoothed[r] < local_min_val) ...`,
starting from `(-1, 1.0)`. -/
def bandScan (sm : Nat → ℚ) (start_row : Nat) : Nat → Int × ℚ
  | 0 => (-1, 1)
  | n + 1 =>
    let st := bandScan sm start_row n
    if sm (start_row + n) < st.2 then ((start_row + n : Nat), sm (start_row + n)) else st

/-- Loop `for (start_row = p; start_row < height; start_row += band_size)`; returns the rows
pushed onto `candidates`. -/
def bandLoop (sm : Nat → ℚ) (height : Nat) : Nat → Nat → List Nat
  | 0, _ => []
  | fuel + 1, start_row =>
    if start_row < height then
      let end_row := min (start_row + band_size) height
      let local_min_idx := (bandScan sm start_row (end_row - start_row)).1
      if local_min_idx ≠ -1 then
        local_min_idx.toNat :: bandLoop sm height fuel (start_row + band_size)
      else bandLoop sm height fuel (start_row + band_size)
    else []

/-- Band-minimum candidates. -/
def bandCandidates (sm : Nat → ℚ) (height : Nat) : List Nat :=
  bandLoop sm height height 0

/-! ## Safety test and fixed-height snap (core.c 118-128, 239-252) -/

/-- Loop `for (i = start; i < start + n; ++i) if (ink_profile[i] < min_ink) min_ink = ...`,
starting from `min_ink = 1.0`. -/
def minInk (ink_profile : Nat → ℚ) (start : Nat) : Nat → ℚ
  | 0 => 1
  | n + 1 =>
    let m := minInk ink_profile start n
    if ink_profile (start + n) < m then ink_profile (start + n) else m

/-- The function `is_unsafe_cut_fn`. -/
def is_unsafe_cut_fn (ink_profile : Nat → ℚ) (height cut_row : Nat) (radius : Int)
    (threshold : ℚ) : Bool :=
  if cut_row = 0 ∨ cut_row ≥ height then false
  else
    let start : Int := max 0 ((cut_row : Int) - radius)
    let stop : Int := min (height : Int) ((cut_row : Int) + radius + 1)
    decide (minInk ink_profile start.toNat (stop - start).toNat > threshold)

/-- Loop `for (r = snap_s; r < snap_s + n; ++r) if (!is_unsafe_cut_fn(...)) push r`. -/
def snapWindow (ink_profile : Nat → ℚ) (height : Nat) (radius : Int) (threshold : ℚ)
    (snap_s : Nat) (n : Nat) : List Nat :=
  (List.range' snap_s n).filter
    (fun r => !is_unsafe_cut_fn ink_profile height r radius threshold)

/-- Loop `while (ideal < height) { ...; ideal += target_height_px; }`. -/
def snapLoop (ink_profile : Nat → ℚ) (height target_height_px : Nat) (snap_px : Int)
    (radius : Int) (threshold : ℚ) : Nat → Nat → List Nat
  | 0, _ => []
  | fuel + 1, ideal =>
    if ideal < height then
      let snap_s : Int := max 0 ((ideal : Int) - snap_px)
      let snap_e : Int := min (height : Int) ((ideal : Int) + snap_px + 1)
      snapWindow ink_profile height radius threshold snap_s.toNat (snap_e - snap_s).toNat
        ++ snapLoop ink_profile height target_height_px snap_px radius threshold fuel
             (ideal + target_height_px)
    else []

/-- Rows pushed by the `if (cut_mode == CUT_MODE_FIXED_HEIGHT_SNAP)` block. -/
def snapCandidates (ink_profile : Nat → ℚ) (height target_height_px : Nat) (cut_mode : CutMode)
    (snap_px : Int) (radius : Int) (threshold : ℚ) : List Nat :=
  if cut_mode = CutMode.CUT_MODE_FIXED_HEIGHT_SNAP then
    snapLoop ink_profile height target_height_px snap_px radius threshold height
      target_height_px
  else []

/-! ## Sort and unique (core.c 254-263) -/

/-- Loop body of the duplicate removal: keep `candidates[k]` iff it differs from
`candidates[k-1]` (`prev`). -/
def uniqueFrom (prev : Nat) : List Nat → List Nat
  | [] => []
  | c :: cs => if c ≠ prev then c :: uniqueFrom c cs else uniqueFrom c cs

/-- Duplicate removal `if (k == 0 || candidates[k] != candidates[k-1]) keep`. -/
def uniqueSorted : List Nat → List Nat
  | [] => []
  | c :: cs => c :: uniqueFrom c cs

/-- The array `candidates` as pushed, before `qsort`. -/
def rawCandidates (ink_profile : Nat → ℚ) (height target_height_px : Nat) (min_gap_rows : Int)
    (cut_mode : CutMode) (snap_px : Int) (radius : Int) (threshold : ℚ) : List Nat :=
  [0, height]
    ++ gapCandidates ink_profile height min_gap_rows
    ++ bandCandidates (smoothed ink_profile height) height
    ++ snapCandidates ink_profile height target_height_px cut_mode snap_px radius threshold

/-- The array `candidates` after `qsort` (ascending, by `compare_ints`) and duplicate
removal. -/
def candidates (ink_profile : Nat → ℚ) (height target_height_px : Nat) (min_gap_rows : Int)
    (cut_mode : CutMode) (snap_px : Int) (radius : Int) (threshold : ℚ) : List Nat :=
  uniqueSorted (List.insertionSort (· ≤ ·)
    (rawCandidates ink_profile height target_height_px min_gap_rows cut_mode snap_px radius
      threshold))

/-! ## Dynamic program (core.c 266-315) -/

/-- The local `curr_ink_cost` for a cut at row `cut_curr`: the rounded sum of
`smoothed[s .. e-1]` divided by `e - s`, rounded. -/
def inkCost (sm : Nat → ℚ) (height cut_curr : Nat) : ℚ :=
  if cut_curr < height then
    let s := cut_curr - 2
    let e := min height (cut_curr + 3)
    if e > s then fl64 (boxSum sm s (e - s) / ((e - s : Nat) : ℚ)) else 0
  else 0

/-- The local `height_cost` of an admitted edge of page height `dh`:
`(double)abs(dh - target_height_px) / target_height_px`, rounded. -/
def heightCost (target_height_px : Nat) (is_last : Bool) (dh : Int) : ℚ :=
  if is_last then 0
  else fl64 (((|dh - target_height_px| : Int) : ℚ) / (target_height_px : ℚ))

/-- The two `continue` tests of the inner loop: `dh < 50` on the terminal candidate,
`abs(dh - target_height_px) > max_window` otherwise. -/
def skipsEdge (target_height_px : Nat) (max_window : Int) (is_last : Bool) (dh : Int) : Bool :=
  if is_last then decide (dh < 50)
  else decide (|dh - (target_height_px : Int)| > max_window)

/-- The local `trans_cost = w_ink * curr_ink_cost + w_height * height_cost` with
`w_ink = w_height = 1.0`: two rounded products and a rounded sum. -/
def transCost (curr_ink_cost height_cost : ℚ) : ℚ :=
  fl64 (fl64 (1 * curr_ink_cost) + fl64 (1 * height_cost))

/-- Inner loop `for (prev = n - 1; prev >= 0; --prev)` over the state `(dp[k], parent[k])`,
with its `break` and `continue` statements; `total = dp[prev] + trans_cost` is rounded. -/
def scanPrev (cands : List Nat) (dp : List ℚ) (target_height_px : Nat) (max_window : Int)
    (cut_curr : Nat) (is_last : Bool) (curr_ink_cost : ℚ) : Nat → ℚ × Int → ℚ × Int
  | 0, st => st
  | prev + 1, st =>
    let cut_prev := cands.getD prev 0
    let dh : Int := (cut_curr : Int) - (cut_prev : Int)
    if dh > (target_height_px : Int) + max_window then st
    else if skipsEdge target_height_px max_window is_last dh = true then
      scanPrev cands dp target_height_px max_window cut_curr is_last curr_ink_cost prev st
    else
      let trans_cost := transCost curr_ink_cost (heightCost target_height_px is_last dh)
      let total := fl64 (dp.getD prev 0 + trans_cost)
      if total < st.1 then
        scanPrev cands dp target_height_px max_window cut_curr is_last curr_ink_cost prev
          (total, (prev : Int))
      else
        scanPrev cands dp target_height_px max_window cut_curr is_last curr_ink_cost prev st

/-- The pair `(dp[k], parent[k])` computed by iteration `k` of the outer loop, given the
entries `dp[0..k-1]`. -/
def dpStep (sm : Nat → ℚ) (height : Nat) (cands : List Nat) (target_height_px : Nat)
    (max_window : Int) (dp : List ℚ) (k : Nat) : ℚ × Int :=
  let cut_curr := cands.getD k 0
  scanPrev cands dp target_height_px max_window cut_curr (decide (cut_curr = height))
    (inkCost sm height cut_curr) k (DP_INF, -1)

/-- The arrays `(dp[0..k], parent[0..k])` after the outer loop has run up to index `k`. -/
def dpTable (sm : Nat → ℚ) (height : Nat) (cands : List Nat) (target_height_px : Nat)
    (max_window : Int) : Nat → List ℚ × List Int
  | 0 => ([0], [-1])
  | k + 1 =>
    let t := dpTable sm height cands target_height_px max_window k
    let r := dpStep sm height cands target_height_px max_window t.1 (k + 1)
    (t.1 ++ [r.1], t.2 ++ [r.2])

/-! ## Reconstruction and fallback (core.c 317-367) -/

/-- Loop `while (curr != -1) { path_idx[path_len++] = candidates[curr]; curr = parent[curr]; }`. -/
def tracePath (cands : List Nat) (parent : List Int) : Nat → Int → List Nat
  | 0, _ => []
  | fuel + 1, curr =>
    if curr = -1 then []
    else cands.getD curr.toNat 0 :: tracePath cands parent fuel (parent.getD curr.toNat (-1))

/-- Loop `while (p < height) { fallback_cuts[count++] = p; p += target_height_px; }`. -/
def fallbackFill (height target_height_px : Nat) : Nat → Nat → List Nat
  | 0, _ => []
  | fuel + 1, p =>
    if p < height then p :: fallbackFill height target_height_px fuel (p + target_height_px)
    else []

/-- The fallback branch: the grid, then `height`, then the "fix last" step. -/
def fallbackCuts (height target_height_px : Nat) : List Nat :=
  let cuts := fallbackFill height target_height_px height 0 ++ [height]
  let count := cuts.length
  if cuts.getD (count - 1) 0 = cuts.getD (count - 2) 0 then cuts.take (count - 1)
  else if cuts.getD (count - 1) 0 > height then cuts.set (count - 1) height
  else cuts

/-- The local `max_window = (int)(target_height_px * window_frac)`: the product is computed
in `double` (rounded) and then truncated. -/
def maxWindow (target_height_px : Nat) (window_frac : ℚ) : Int :=
  cTrunc (fl64 ((target_height_px : ℚ) * window_frac))

/-- The value `dp[n_cand - 1]` tested after the DP loop. -/
def terminalCost (ink_profile : Nat → ℚ) (height target_height_px : Nat) (window_frac : ℚ)
    (min_gap_rows : Int) (cut_mode : CutMode) (snap_px : Int) (unsafe_window_radius : Int)
    (unsafe_ink_threshold : ℚ) : ℚ :=
  let cands := candidates ink_profile height target_height_px min_gap_rows cut_mode snap_px
    unsafe_window_radius unsafe_ink_threshold
  let n_cand := cands.length
  let t := dpTable (smoothed ink_profile height) height cands target_height_px
    (maxWindow target_height_px window_frac) (n_cand - 1)
  t.1.getD (n_cand - 1) 0

/-- The function `find_optimal_cuts_dp`; the result is the returned `CutList`
(`cuts[0..count-1]`). -/
def find_optimal_cuts_dp (ink_profile : Nat → ℚ) (height target_height_px : Nat)
    (window_frac : ℚ) (min_gap_rows : Int) (cut_mode : CutMode) (snap_px : Int)
    (unsafe_window_radius : Int) (unsafe_ink_threshold : ℚ) : List Nat :=
  let cands := candidates ink_profile height target_height_px min_gap_rows cut_mode snap_px
    unsafe_window_radius unsafe_ink_threshold
  let n_cand := cands.length
  let t := dpTable (smoothed ink_profile height) height cands target_height_px
    (maxWindow target_height_px window_frac) (n_cand - 1)
  if t.1.getD (n_cand - 1) 0 ≥ DP_UNREACHABLE then fallbackCuts height target_height_px
  else (tracePath cands t.2 n_cand ((n_cand : Int) - 1)).reverse

/-! ## Grayscale, integral image and ink density (core.c 12-114) -/

/-- The function `rgb_to_gray`: the value stored in `gray[i]`.  The floating-point expression
`0.299*r + 0.587*g + 0.114*b`, truncated by the cast, is kept abstract as `lum r g b`; the
store into an `unsigned char` keeps the low 8 bits. -/
def rgb_to_gray (lum : Nat → Nat → Nat → Nat) (image_data : Nat → Nat) (channels : Nat)
    (i : Nat) : Nat :=
  if channels = 3 then
    lum (image_data (i * 3 + 0)) (image_data (i * 3 + 1)) (image_data (i * 3 + 2)) % 256
  else image_data i % 256

/-- The luminance expression `(unsigned char)(0.299*r + 0.587*g + 0.114*b)` in `double`
arithmetic: the three literals are the nearest doubles, every product and sum is rounded,
and the cast truncates. -/
def luminance (r g b : Nat) : Nat :=
  (cTrunc (fl64 (fl64 (fl64 (fl64 (299 / 1000) * (r : ℚ)) + fl64 (fl64 (587 / 1000) * (g : ℚ)))
    + fl64 (fl64 (114 / 1000) * (b : ℚ))))).toNat

/-- Inner loop `for (x = 0; x < n; ++x)` of `compute_integral_image` on row `y`; the state is
`(integral, row_sum)`. -/
def integralRow (gray : Nat → Nat) (width y : Nat) (integral : Nat → Int) :
    Nat → (Nat → Int) × Int
  | 0 => (integral, 0)
  | n + 1 =>
    let st := integralRow gray width y integral n
    let row_sum : Int := st.2 + (gray (y * width + n) : Int)
    (Function.update st.1 (y * width + n)
        (if y = 0 then row_sum else st.1 ((y - 1) * width + n) + row_sum),
      row_sum)

/-- The function `compute_integral_image`: the array `integral` after the outer loop has
processed the rows `0 .. height-1`. -/
def compute_integral_image (gray : Nat → Nat) (width : Nat) : Nat → (Nat → Int)
  | 0 => fun _ => 0
  | y + 1 => (integralRow gray width y (compute_integral_image gray width y) width).1

/-- The function `get_rect_sum`. -/
def get_rect_sum (integral : Nat → Int) (width height : Nat) (x0 y0 x1 y1 : Int) : Int :=
  let x0 : Int := max 0 x0
  let y0 : Int := max 0 y0
  let x1 : Int := min ((width : Int) - 1) x1
  let y1 : Int := min ((height : Int) - 1) y1
  if x0 > x1 ∨ y0 > y1 then 0
  else
    let A : Int := if x0 > 0 ∧ y0 > 0 then integral ((y0 - 1) * width + (x0 - 1)).toNat else 0
    let B : Int := if y0 > 0 then integral ((y0 - 1) * width + x1).toNat else 0
    let C : Int := if x0 > 0 then integral (y1 * width + (x0 - 1)).toNat else 0
    let D : Int := integral (y1 * width + x1).toNat
    D - B - C + A

/-- The local `int half_block = block_size / 2` with `block_size = 11`. -/
def half_block : Int := 11 / 2

/-- The local `area` of `compute_ink_density` at pixel `(x, y)`. -/
def windowArea (width height x y : Nat) : Int :=
  let actual_x0 : Int := max 0 ((x : Int) - half_block)
  let actual_y0 : Int := max 0 ((y : Int) - half_block)
  let actual_x1 : Int := min ((width : Int) - 1) ((x : Int) + half_block)
  let actual_y1 : Int := min ((height : Int) - 1) ((y : Int) + half_block)
  (actual_x1 - actual_x0 + 1) * (actual_y1 - actual_y0 + 1)

/-- The local `thresh = (int)(mean - C)` of `compute_ink_density` at pixel `(x, y)`, with
`mean = (double)sum / area` and `C = 2`. -/
def inkThresh (integral : Nat → Int) (width height x y : Nat) : Int :=
  let sum := get_rect_sum integral width height ((x : Int) - half_block)
    ((y : Int) - half_block) ((x : Int) + half_block) ((y : Int) + half_block)
  let mean : ℚ := (sum : ℚ) / (windowArea width height x y : ℚ)
  cTrunc (mean - 2)

/-- The test `gray[y*width + x] < thresh` that counts pixel `(x, y)` as ink. -/
def isInk (gray : Nat → Nat) (integral : Nat → Int) (width height x y : Nat) : Bool :=
  decide ((gray (y * width + x) : Int) < inkThresh integral width height x y)

/-- The local `row_ink_pixels` after the loop `for (x = 0; x < n; ++x)` on row `y`. -/
def rowInkPixels (gray : Nat → Nat) (integral : Nat → Int) (width height y : Nat) : Nat → Nat
  | 0 => 0
  | n + 1 =>
    let c := rowInkPixels gray integral width height y n
    if isInk gray integral width height n y = true then c + 1 else c

/-- The function `compute_ink_density`; the result is the returned array
`ink_profile[0..height-1]`. -/
def compute_ink_density (lum : Nat → Nat → Nat → Nat) (image_data : Nat → Nat)
    (width height channels : Nat) : List ℚ :=
  let gray := rgb_to_gray lum image_data channels
  let integral := compute_integral_image gray width height
  (List.range height).map
    (fun y => (rowInkPixels gray integral width height y width : ℚ) / (width : ℚ))

/-! ## Reference notions used to state the properties -/

/-- Brute-force sum of the gray values of the pixels of the `width × height` image that lie in
the rectangle `[x0, x1] × [y0, y1]`. -/
def rectSumBrute (gray : Nat → Nat) (width height : Nat) (x0 y0 x1 y1 : Int) : Int :=
  ∑ y ∈ Finset.range height, ∑ x ∈ Finset.range width,
    if x0 ≤ (x : Int) ∧ (x : Int) ≤ x1 ∧ y0 ≤ (y : Int) ∧ (y : Int) ≤ y1
    then (gray (y * width + x) : Int) else 0

/-- Number of pixels of the `width × height` image that lie in `[x0, x1] × [y0, y1]`. -/
def rectCount (width height : Nat) (x0 y0 x1 y1 : Int) : Int :=
  ∑ y ∈ Finset.range height, ∑ x ∈ Finset.range width,
    if x0 ≤ (x : Int) ∧ (x : Int) ≤ x1 ∧ y0 ≤ (y : Int) ∧ (y : Int) ≤ y1 then 1 else 0

/-- Exact mean of the gray values over the 11 × 11 window centred at `(x, y)`, clipped to the
image. -/
def localMean (gray : Nat → Nat) (width height x y : Nat) : ℚ :=
  (rectSumBrute gray width height ((x : Int) - 5) ((y : Int) - 5) ((x : Int) + 5)
      ((y : Int) + 5) : ℚ)
    / (rectCount width height ((x : Int) - 5) ((y : Int) - 5) ((x : Int) + 5)
      ((y : Int) + 5) : ℚ)

/-- Admission rule of the optimizer for an edge from row `a` to row `b`. -/
def edgeOK (height target_height_px : Nat) (max_window : Int) (a b : Nat) : Prop :=
  a < b ∧
    if b = height then
      (50 : Int) ≤ (b : Int) - (a : Int) ∧
        (b : Int) - (a : Int) ≤ (target_height_px : Int) + max_window
    else |(b : Int) - (a : Int) - (target_height_px : Int)| ≤ max_window

/-- The value of `trans_cost` that the optimizer computes for the edge from row `a` to row
`b`. -/
def edgeCost (sm : Nat → ℚ) (height target_height_px : Nat) (a b : Nat) : ℚ :=
  transCost (inkCost sm height b)
    (heightCost target_height_px (decide (b = height)) ((b : Int) - (a : Int)))

/-- The value that the optimizer accumulates along a cut sequence: starting from `acc`, one
rounded addition `total = acc + trans_cost` per edge. -/
def accCost (sm : Nat → ℚ) (height target_height_px : Nat) : List Nat → ℚ → ℚ
  | a :: b :: rest, acc =>
    accCost sm height target_height_px (b :: rest)
      (fl64 (acc + edgeCost sm height target_height_px a b))
  | _, acc => acc

/-- A candidate path: a sequence of candidates from `0` to `height` all of whose edges are
admitted (hence strictly increasing). -/
def AdmissiblePath (cands : List Nat) (height target_height_px : Nat) (max_window : Int)
    (path : List Nat) : Prop :=
  path.head? = some 0 ∧ path.getLast? = some height ∧ (∀ r ∈ path, r ∈ cands) ∧
    List.Chain' (edgeOK height target_height_px max_window) path

/-- The uniform grid: the multiples of `target_height_px` below `height`, then `height`. -/
def uniformGrid (height target_height_px : Nat) : List Nat :=
  (List.range ((height + target_height_px - 1) / target_height_px)).map
    (fun i => i * target_height_px) ++ [height]

/-- Final value of `dp[j]`. -/
def dpAt (sm : Nat → ℚ) (height : Nat) (cands : List Nat) (target_height_px : Nat)
    (max_window : Int) (j : Nat) : ℚ :=
  (dpTable sm height cands target_height_px max_window j).1.getD j 0

/-- Final value of `parent[j]`. -/
def parAt (sm : Nat → ℚ) (height : Nat) (cands : List Nat) (target_height_px : Nat)
    (max_window : Int) (j : Nat) : Int :=
  (dpTable sm height cands target_height_px max_window j).2.getD j (-1)

/-- The test that lets the inner loop use predecessor page height `dh`: no `break`, no
`continue`. -/
def admits (target_height_px : Nat) (max_window : Int) (is_last : Bool) (dh : Int) : Prop :=
  dh ≤ (target_height_px : Int) + max_window ∧
    if is_last = true then (50 : Int) ≤ dh else |dh - (target_height_px : Int)| ≤ max_window

/-- Facts about a strictly increasing list of rows that contains `0` and `H` and is bounded
by `H`: the shape of the candidate array the optimizer works on. -/
structure CandShape (c : List Nat) (H : Nat) : Prop where
  sorted : List.Sorted (· < ·) c
  first : c.getD 0 0 = 0
  last : c.getD (c.length - 1) 0 = H
  two : 2 ≤ c.length
  le : ∀ x ∈ c, x ≤ H

/-- A path found by following `parent` pointers down from index `j`: it starts at row `0`,
ends at `candidates[j]`, uses admitted edges only, and the cost accumulated along it is
`dp[j]`. -/
structure GoodPath (sm : Nat → ℚ) (H : Nat) (c : List Nat) (T : Nat) (mw : Int) (j : Nat)
    (P : List Nat) : Prop where
  head : P.head? = some 0
  last : P.getLast? = some (c.getD j 0)
  mem : ∀ r ∈ P, r ∈ c
  chain : List.Chain' (edgeOK H T mw) P
  cost : accCost sm H T P 0 = dpAt sm H c T mw j

/-- Sum of the gray values over the rows `0 .. y-1` and columns `0 .. x-1` (exclusive
bounds). -/
def prefixSum (gray : Nat → Nat) (width y x : Nat) : Int :=
  ∑ j ∈ Finset.range y, ∑ i ∈ Finset.range x, (gray (j * width + i) : Int)

/-- A 3 × 2 single-channel example image, row-major: `10 20 30 / 40 50 60`. -/
def sampleImage : Nat → Nat := fun i => [10, 20, 30, 40, 50, 60].getD i 0

/-- A 2 × 1 single-channel example image: `0 5`. -/
def twoPixelImage : Nat → Nat := fun i => [0, 5].getD i 0

/-! ## Example profiles -/

/-- A profile that is clean (density 0) except for the value `v` at row `row`. -/
def spikeProfile (row : Nat) (v : ℚ) : Nat → ℚ := fun i => if i = row then v else 0

/-- The all-ink profile: density 1 on every row. -/
def allInkProfile : Nat → ℚ := fun _ => 1

/-- Density 1/2 on every row except density 0 on the 20 rows `490 .. 509`. -/
def whitespaceRunProfile : Nat → ℚ := fun i => if 490 ≤ i ∧ i < 510 then 0 else 1 / 2

/-! ## Further notions: local mean, rule-based scan, spec-side safety, whitespace runs -/

/-- The local `mean = (double)sum / area` of `compute_ink_density` at pixel `(x, y)`. -/
def windowMean (integral : Nat → Int) (width height x y : Nat) : ℚ :=
  let sum := get_rect_sum integral width height ((x : Int) - half_block)
    ((y : Int) - half_block) ((x : Int) + half_block) ((y : Int) + half_block)
  (sum : ℚ) / (windowArea width height x y : ℚ)

/-- Edge rules as the specification words them: a terminal edge is allowed when `dh >= 50`,
a non-terminal edge when `|dh - target_height| <= max_window`. -/
def edgeRule (target_height_px : Nat) (max_window : Int) (is_last : Bool) (dh : Int) : Bool :=
  if is_last then decide (50 ≤ dh) else decide (|dh - (target_height_px : Int)| ≤ max_window)

/-- Edge rules with the bound of the cutoff made explicit: the rule of `edgeRule` together
with `dh <= target_height + max_window`. -/
def edgeRuleBounded (target_height_px : Nat) (max_window : Int) (is_last : Bool) (dh : Int) :
    Bool :=
  edgeRule target_height_px max_window is_last dh &&
    decide (dh ≤ (target_height_px : Int) + max_window)

/-- Predecessor scan without early termination: every earlier candidate is tried, and an edge
is used exactly when `rule` allows its page height `dh`; the update is the one of the
source (`if (total < dp[k])`). -/
def scanPrevRule (rule : Bool → Int → Bool) (cands : List Nat) (dp : List ℚ)
    (target_height_px : Nat) (cut_curr : Nat) (is_last : Bool) (curr_ink_cost : ℚ) :
    Nat → ℚ × Int → ℚ × Int
  | 0, st => st
  | prev + 1, st =>
    let cut_prev := cands.getD prev 0
    let dh : Int := (cut_curr : Int) - (cut_prev : Int)
    if rule is_last dh = true then
      let trans_cost := transCost curr_ink_cost (heightCost target_height_px is_last dh)
      let total := fl64 (dp.getD prev 0 + trans_cost)
      if total < st.1 then
        scanPrevRule rule cands dp target_height_px cut_curr is_last curr_ink_cost prev
          (total, (prev : Int))
      else scanPrevRule rule cands dp target_height_px cut_curr is_last curr_ink_cost prev st
    else scanPrevRule rule cands dp target_height_px cut_curr is_last curr_ink_cost prev st

/-- Iteration `k` of the outer DP loop with the rule-based scan. -/
def dpStepRule (rule : Bool → Int → Bool) (sm : Nat → ℚ) (height : Nat) (cands : List Nat)
    (target_height_px : Nat) (dp : List ℚ) (k : Nat) : ℚ × Int :=
  let cut_curr := cands.getD k 0
  scanPrevRule rule cands dp target_height_px cut_curr (decide (cut_curr = height))
    (inkCost sm height cut_curr) k (DP_INF, -1)

/-- The arrays `(dp[0..k], parent[0..k])` computed with the rule-based scan. -/
def dpTableRule (rule : Bool → Int → Bool) (sm : Nat → ℚ) (height : Nat) (cands : List Nat)
    (target_height_px : Nat) : Nat → List ℚ × List Int
  | 0 => ([0], [-1])
  | k + 1 =>
    let t := dpTableRule rule sm height cands target_height_px k
    let r := dpStepRule rule sm height cands target_height_px t.1 (k + 1)
    (t.1 ++ [r.1], t.2 ++ [r.2])

/-- The optimizer with the rule-based scan in place of the scan with early termination;
everything else is as in `find_optimal_cuts_dp`. -/
def find_optimal_cuts_dp_rule (rule : Nat → Int → Bool → Int → Bool) (ink_profile : Nat → ℚ)
    (height target_height_px : Nat) (window_frac : ℚ) (min_gap_rows : Int) (cut_mode : CutMode)
    (snap_px : Int) (unsafe_window_radius : Int) (unsafe_ink_threshold : ℚ) : List Nat :=
  let cands := candidates ink_profile height target_height_px min_gap_rows cut_mode snap_px
    unsafe_window_radius unsafe_ink_threshold
  let n_cand := cands.length
  let t := dpTableRule (rule target_height_px (maxWindow target_height_px window_frac))
    (smoothed ink_profile height) height cands target_height_px (n_cand - 1)
  if t.1.getD (n_cand - 1) 0 ≥ DP_UNREACHABLE then fallbackCuts height target_height_px
  else (tracePath cands t.2 n_cand ((n_cand : Int) - 1)).reverse

/-- Row `r` is safe in the wording of the specification: the minimum raw density within
`radius` rows of `r` (inside the image) exceeds the threshold, that is, every such row has a
density above the threshold. -/
def specSafe (ink_profile : Nat → ℚ) (height r : Nat) (radius : Int) (threshold : ℚ) : Prop :=
  ∀ i : Nat, i < height → (r : Int) - radius ≤ (i : Int) → (i : Int) ≤ (r : Int) + radius →
    threshold < ink_profile i

/-- Row `r` lies in the snap window of the ideal row `ideal`: within `snap_px` rows of it and
inside the image. -/
def inSnapWindow (height : Nat) (snap_px : Int) (ideal r : Nat) : Prop :=
  r < height ∧ (ideal : Int) - snap_px ≤ (r : Int) ∧ (r : Int) ≤ (ideal : Int) + snap_px

/-- The rows `s .. e-1` form a maximal run of rows of the image whose raw density is at or
below the gap threshold. -/
def MaxRun (ink_profile : Nat → ℚ) (height s e : Nat) : Prop :=
  s < e ∧ e ≤ height ∧ (∀ i, s ≤ i → i < e → ink_profile i ≤ gap_thresh) ∧
    (s = 0 ∨ ¬ ink_profile (s - 1) ≤ gap_thresh) ∧
    (e = height ∨ ¬ ink_profile e ≤ gap_thresh)

/-- The rows of band `j`: `200 j ≤ r < min (200 (j + 1)) height`. -/
def inBand (height j r : Nat) : Prop :=
  band_size * j ≤ r ∧ r < band_size * (j + 1) ∧ r < height

/-- A three-channel example image in which every pixel carries the triple (200, 100, 50). -/
def uniformRgbImage : Nat → Nat := fun n => [200, 100, 50].getD (n % 3) 0

/-! ## 32-bit variant of the integral image (C `int` as two's-complement with wraparound) -/

/-- Reduction of an integer to the 32-bit two's-complement range `[-2^31, 2^31)`. -/
def wrap32 (z : Int) : Int := (z + 2147483648) % 4294967296 - 2147483648

/-- The `int` expression `y * width + x` used as an array index, with each operation wrapped. -/
def idx32 (y : Int) (width : Nat) (x : Int) : Nat :=
  (wrap32 (wrap32 (y * (width : Int)) + x)).toNat

/-- Inner loop of `compute_integral_image` on row `y` with 32-bit `int` arithmetic; the state
is `(integral, row_sum)`. -/
def integralRow32 (gray : Nat → Nat) (width y : Nat) (integral : Nat → Int) :
    Nat → (Nat → Int) × Int
  | 0 => (integral, 0)
  | n + 1 =>
    let st := integralRow32 gray width y integral n
    let row_sum : Int := wrap32 (st.2 + (gray (idx32 y width n) : Int))
    (Function.update st.1 (idx32 y width n)
        (if y = 0 then row_sum
         else wrap32 (st.1 (idx32 (wrap32 ((y : Int) - 1)) width n) + row_sum)),
      row_sum)

/-- The function `compute_integral_image` with 32-bit `int` arithmetic. -/
def compute_integral_image32 (gray : Nat → Nat) (width : Nat) : Nat → (Nat → Int)
  | 0 => fun _ => 0
  | y + 1 => (integralRow32 gray width y (compute_integral_image32 gray width y) width).1

/-- The function `get_rect_sum` with 32-bit `int` arithmetic. -/
def get_rect_sum32 (integral : Nat → Int) (width height : Nat) (x0 y0 x1 y1 : Int) : Int :=
  let x0 : Int := max 0 x0
  let y0 : Int := max 0 y0
  let x1 : Int := min (wrap32 ((width : Int) - 1)) x1
  let y1 : Int := min (wrap32 ((height : Int) - 1)) y1
  if x0 > x1 ∨ y0 > y1 then 0
  else
    let A : Int :=
      if x0 > 0 ∧ y0 > 0 then integral (idx32 (wrap32 (y0 - 1)) width (wrap32 (x0 - 1))) else 0
    let B : Int := if y0 > 0 then integral (idx32 (wrap32 (y0 - 1)) width x1) else 0
    let C : Int := if x0 > 0 then integral (idx32 y1 width (wrap32 (x0 - 1))) else 0
    let D : Int := integral (idx32 y1 width x1)
    wrap32 (wrap32 (wrap32 (D - B) - C) + A)

/-- The window sum of `compute_ink_density` at pixel `(x, y)` with 32-bit `int` arithmetic:
`get_rect_sum(integral, width, height, x - 5, y - 5, x + 5, y + 5)`. -/
def windowSum32 (integral : Nat → Int) (width height x y : Nat) : Int :=
  get_rect_sum32 integral width height (wrap32 ((x : Int) - half_block))
    (wrap32 ((y : Int) - half_block)) (wrap32 ((x : Int) + half_block))
    (wrap32 ((y : Int) + half_block))

/-- The all-white single-channel image: every gray value is 255. -/
def whiteImage : Nat → Nat := fun _ => 255

/-- The table `tab32` holds, at every index, the 32-bit reduction of the entry of `tab`. -/
def Wraps (tab32 tab : Nat → Int) : Prop := ∀ i, tab32 i = wrap32 (tab i)

/-- The local `int fallback_alloc = height / target_height_px + 2` of the fallback branch. -/
def fallback_alloc (height target_height_px : Nat) : Nat := height / target_height_px + 2

/-- The fallback array as written by the loop and the store of `height` after it, before the
"fix last" step: `fallback_cuts[0 .. count-1]`. -/
def fallbackWritten (height target_height_px : Nat) : List Nat :=
  fallbackFill height target_height_px height 0 ++ [height]

/-! ## Costs in the wording of the specification -/

/-- The rows of the window of radius `r` centred at row `i`, clipped to the image:
`max(0, i - r) .. min(height - 1, i + r)`, in increasing order. -/
def windowRows (height i r : Nat) : List Nat :=
  List.range' (i - r) (min (height - 1) (i + r) + 1 - (i - r))

/-- Smoothed density of row `i` in exact arithmetic: the arithmetic mean of the raw profile
over the window of radius 10, clipped, the divisor being the number of rows of the window. -/
def specSmoothed (p : Nat → ℚ) (height i : Nat) : ℚ :=
  ((windowRows height i 10).map p).sum / ((windowRows height i 10).length : ℚ)

/-- Ink cost of landing a cut at row `b` in exact arithmetic: the mean smoothed density over
the window of radius 2, clipped, centred at `b`. -/
def specInkCost (p : Nat → ℚ) (height b : Nat) : ℚ :=
  ((windowRows height b 2).map (specSmoothed p height)).sum
    / ((windowRows height b 2).length : ℚ)

/-- Height cost of the edge from row `a` to row `b` in exact arithmetic: 0 on the terminal
edge, `|dh - target_height| / target_height` otherwise. -/
def specHeightCost (height target_height_px a b : Nat) : ℚ :=
  if b = height then 0
  else (|(b : ℚ) - (a : ℚ) - (target_height_px : ℚ)|) / (target_height_px : ℚ)

/-- Total edge cost in exact arithmetic: ink cost plus height cost, both with weight 1. -/
def specEdgeCost (p : Nat → ℚ) (height target_height_px a b : Nat) : ℚ :=
  1 * specInkCost p height b + 1 * specHeightCost height target_height_px a b

/-- Total summed edge cost of a cut sequence in exact arithmetic. -/
def specPathCost (p : Nat → ℚ) (height target_height_px : Nat) : List Nat → ℚ
  | a :: b :: rest =>
    specEdgeCost p height target_height_px a b
      + specPathCost p height target_height_px (b :: rest)
  | _ => 0

/-- Sum of a list of doubles accumulated from the left, every addition rounded. -/
def flSum (l : List ℚ) : ℚ := l.foldl (fun acc v => fl64 (acc + v)) 0

/-- Smoothed density of row `i` as specified, evaluated in `double` arithmetic: the rounded
sum of the window divided by its number of rows, rounded. -/
def roundedSmoothed (p : Nat → ℚ) (height i : Nat) : ℚ :=
  fl64 (flSum ((windowRows height i 10).map p) / ((windowRows height i 10).length : ℚ))

/-- Ink cost of landing a cut at row `b` as specified, evaluated in `double` arithmetic. -/
def roundedInkCost (p : Nat → ℚ) (height b : Nat) : ℚ :=
  fl64 (flSum ((windowRows height b 2).map (roundedSmoothed p height))
    / ((windowRows height b 2).length : ℚ))

/-- Height cost of the edge from row `a` to row `b` as specified, evaluated in `double`
arithmetic. -/
def roundedHeightCost (height target_height_px a b : Nat) : ℚ :=
  if b = height then 0
  else fl64 ((|(b : ℚ) - (a : ℚ) - (target_height_px : ℚ)|) / (target_height_px : ℚ))

/-- Total edge cost as specified, evaluated in `double` arithmetic (the products by the
weights 1.0 are exact). -/
def roundedEdgeCost (p : Nat → ℚ) (height target_height_px a b : Nat) : ℚ :=
  fl64 (roundedInkCost p height b + roundedHeightCost height target_height_px a b)

/-- Total summed edge cost of a cut sequence as specified, evaluated in `double`
arithmetic: the edge costs are added from the first edge to the last, starting from
`acc`, every addition rounded. -/
def roundedPathCostFrom (p : Nat → ℚ) (height target_height_px : Nat) : List Nat → ℚ → ℚ
  | a :: b :: rest, acc =>
    roundedPathCostFrom p height target_height_px (b :: rest)
      (fl64 (acc + roundedEdgeCost p height target_height_px a b))
  | _, acc => acc

/-- Total summed edge cost of a cut sequence as specified, evaluated in `double`
arithmetic, starting from cost 0 at row 0. -/
def roundedPathCost (p : Nat → ℚ) (height target_height_px : Nat) (path : List Nat) : ℚ :=
  roundedPathCostFrom p height target_height_px path 0

/-! ## Further example profiles -/

/-- Density 1 on every row except density 0 on the rows `lo .. hi-1`. -/
def gapProfile (lo hi : Nat) : Nat → ℚ := fun i => if lo ≤ i ∧ i < hi then 0 else 1

/-- The constant profile whose density is the double nearest to 0.7 on every row. -/
def constProfile : Nat → ℚ := fun _ => 3152519739159347 / 4503599627370496

/-- Density 1/2 on every row, except density 0 on the rows 59 and 61 and density
`1/2 + 2^-53` (the double next above 1/2) on row 72. -/
def nearTieProfile : Nat → ℚ := fun i =>
  if i = 59 ∨ i = 61 then 0
  else if i = 72 then 4503599627370497 / 9007199254740992
  else 1 / 2

/-- The window sum `a[start] + ... + a[start + n - 1]` in exact arithmetic. -/
def exactBoxSum (a : Nat → ℚ) (start : Nat) : Nat → ℚ
  | 0 => 0
  | n + 1 => exactBoxSum a start n + a (start + n)

/-- The value stored in `smoothed[i]` when the window sum incurs no rounding: the exact
window sum divided by the number of rows, rounded. -/
def smoothedOfExactSum (ink_profile : Nat → ℚ) (height i : Nat) : ℚ :=
  let start := i - smooth_radius
  let stop := min height (i + smooth_radius + 1)
  let count := stop - start
  if count > 0 then fl64 (exactBoxSum ink_profile start count / (count : ℚ)) else 0

/-! ## Binary64 rounding: powers of two and the binary exponent -/

theorem pow2_eq (t : Int) : pow2 t = (2 : ℚ) ^ t := by
  unfold pow2
  split_ifs with h
  · obtain ⟨n, rfl⟩ := Int.eq_ofNat_of_zero_le h
    simp
  · obtain ⟨n, hn⟩ : ∃ n : Nat, t = -(n : Int) := ⟨(-t).toNat, by omega⟩
    subst hn
    simp [zpow_neg]

theorem pow2_pos (t : Int) : 0 < pow2 t := by
  rw [pow2_eq]; exact zpow_pos (by norm_num) t

theorem pow2_add (a b : Int) : pow2 (a + b) = pow2 a * pow2 b := by
  rw [pow2_eq, pow2_eq, pow2_eq, zpow_add₀ (by norm_num)]

theorem pow2_natCast (n : Nat) : pow2 (n : Int) = (2 : ℚ) ^ n := by
  rw [pow2_eq, zpow_natCast]

theorem pow2_zero : pow2 0 = 1 := by
  rw [pow2_eq, zpow_zero]

theorem pow2_le_pow2 {a b : Int} (h : a ≤ b) : pow2 a ≤ pow2 b := by
  rw [pow2_eq, pow2_eq]
  exact zpow_le_zpow_right₀ (by norm_num) h

theorem pow2_lt_pow2 {a b : Int} (h : a < b) : pow2 a < pow2 b := by
  rw [pow2_eq, pow2_eq]
  exact zpow_lt_zpow_right₀ (by norm_num) h

theorem lt_of_pow2_lt_pow2 {a b : Int} (h : pow2 a < pow2 b) : a < b := by
  by_contra hcon
  exact absurd (pow2_le_pow2 (not_lt.mp hcon)) (not_le.mpr h)

theorem pow2_succ (a : Int) : pow2 (a + 1) = 2 * pow2 a := by
  rw [pow2_add, show pow2 1 = 2 by rw [pow2_eq]; norm_num, mul_comm]

theorem pow2_53 : pow2 53 = (2 : ℚ) ^ 53 := by
  rw [pow2_eq]; norm_cast

theorem log2Fuel_spec (fuel n : Nat) (hn : 1 ≤ n) (hf : n ≤ fuel) :
    2 ^ log2Fuel fuel n ≤ n ∧ n < 2 ^ (log2Fuel fuel n + 1) := by
  induction fuel generalizing n with
  | zero => omega
  | succ f ih =>
    simp only [log2Fuel]
    split_ifs with h
    · have : n = 1 := by omega
      subst this
      simp
    · obtain ⟨h1, h2⟩ := ih (n / 2) (by omega) (by omega)
      have e1 : 2 ^ (log2Fuel f (n / 2) + 1) = 2 * 2 ^ log2Fuel f (n / 2) := by ring
      have e2 : 2 ^ (log2Fuel f (n / 2) + 1 + 1) = 2 * 2 ^ (log2Fuel f (n / 2) + 1) := by ring
      rw [e2]
      rw [e1] at h2 ⊢
      omega

theorem natLog2_spec (n : Nat) (hn : 1 ≤ n) :
    2 ^ natLog2 n ≤ n ∧ n < 2 ^ (natLog2 n + 1) :=
  log2Fuel_spec n n hn le_rfl

theorem ilog2_spec (x : ℚ) (hx : 0 < x) : pow2 (ilog2 x) ≤ x ∧ x < pow2 (ilog2 x + 1) := by
  have hnum : 0 < x.num := Rat.num_pos.mpr hx
  have hden : 0 < x.den := x.den_pos
  obtain ⟨a1, a2⟩ := natLog2_spec x.num.natAbs (by omega)
  obtain ⟨b1, b2⟩ := natLog2_spec x.den (by omega)
  have hxe : x = (x.num.natAbs : ℚ) / (x.den : ℚ) := by
    have h1 : ((x.num.natAbs : Int) : ℚ) = (x.num : ℚ) := by
      rw [Int.natAbs_of_nonneg hnum.le]
    have h2 : ((x.num.natAbs : Nat) : ℚ) = ((x.num.natAbs : Int) : ℚ) :=
      (Int.cast_natCast _).symm
    rw [h2, h1]
    exact (Rat.num_div_den x).symm
  have hdq : (0 : ℚ) < (x.den : ℚ) := by exact_mod_cast hden
  have A1 : (2 : ℚ) ^ natLog2 x.num.natAbs ≤ (x.num.natAbs : ℚ) := by exact_mod_cast a1
  have A2 : (x.num.natAbs : ℚ) < (2 : ℚ) ^ (natLog2 x.num.natAbs + 1) := by exact_mod_cast a2
  have B1 : (2 : ℚ) ^ natLog2 x.den ≤ (x.den : ℚ) := by exact_mod_cast b1
  have B2 : (x.den : ℚ) < (2 : ℚ) ^ (natLog2 x.den + 1) := by exact_mod_cast b2
  set a := natLog2 x.num.natAbs with ha
  set b := natLog2 x.den with hb
  have hpa : pow2 ((a : Int) - (b : Int)) * (2 : ℚ) ^ b = (2 : ℚ) ^ a := by
    rw [← pow2_natCast, ← pow2_natCast, ← pow2_add]
    congr 1; omega
  have hpb : (0 : ℚ) < (2 : ℚ) ^ b := by positivity
  -- upper bound: x < 2^(e0+1)
  have hup : x < pow2 ((a : Int) - (b : Int) + 1) := by
    rw [pow2_succ, hxe, div_lt_iff₀ hdq]
    calc (x.num.natAbs : ℚ) < (2 : ℚ) ^ (a + 1) := A2
      _ = 2 * (pow2 ((a : Int) - (b : Int)) * (2 : ℚ) ^ b) := by rw [hpa]; ring
      _ ≤ 2 * pow2 ((a : Int) - (b : Int)) * (x.den : ℚ) := by
        have := mul_le_mul_of_nonneg_left B1 (pow2_pos ((a : Int) - (b : Int))).le
        linarith
  -- lower bound: 2^(e0-1) < x
  have hlo : pow2 ((a : Int) - (b : Int) - 1) < x := by
    have h2 : pow2 ((a : Int) - (b : Int)) = 2 * pow2 ((a : Int) - (b : Int) - 1) := by
      rw [← pow2_succ]; congr 1; omega
    rw [hxe, lt_div_iff₀ hdq]
    have h3 : pow2 ((a : Int) - (b : Int) - 1) * (2 : ℚ) ^ (b + 1) = (2 : ℚ) ^ a := by
      rw [← hpa, h2]; ring
    calc pow2 ((a : Int) - (b : Int) - 1) * (x.den : ℚ)
        < pow2 ((a : Int) - (b : Int) - 1) * (2 : ℚ) ^ (b + 1) :=
          mul_lt_mul_of_pos_left B2 (pow2_pos _)
      _ = (2 : ℚ) ^ a := h3
      _ ≤ (x.num.natAbs : ℚ) := A1
  unfold ilog2
  simp only
  rw [← ha, ← hb]
  split_ifs with h
  · exact ⟨h, hup⟩
  · refine ⟨hlo.le, ?_⟩
    rw [show (a : Int) - (b : Int) - 1 + 1 = (a : Int) - (b : Int) by omega]
    exact not_le.mp h

theorem ilog2_lt_of_lt_pow2 {x : ℚ} {k : Int} (hx : 0 < x) (h : x < pow2 k) : ilog2 x < k :=
  lt_of_pow2_lt_pow2 (lt_of_le_of_lt (ilog2_spec x hx).1 h)

theorem le_ilog2_of_pow2_le {x : ℚ} {k : Int} (hx : 0 < x) (h : pow2 k ≤ x) : k ≤ ilog2 x := by
  have := lt_of_pow2_lt_pow2 (lt_of_le_of_lt h (ilog2_spec x hx).2)
  omega

theorem ilog2_mono {x y : ℚ} (hx : 0 < x) (hxy : x ≤ y) : ilog2 x ≤ ilog2 y :=
  le_ilog2_of_pow2_le (lt_of_lt_of_le hx hxy) (le_trans (ilog2_spec x hx).1 hxy)

theorem ulpExp_mono {x y : ℚ} (hx : 0 < x) (hxy : x ≤ y) : ulpExp x ≤ ulpExp y := by
  have := ilog2_mono hx hxy
  unfold ulpExp
  omega

/-! ## Binary64 rounding: rounding to a grid -/

theorem roundHalfEven_intCast (k : Int) : roundHalfEven (k : ℚ) = k := by
  unfold roundHalfEven
  simp only [Int.floor_intCast, sub_self]
  rw [if_pos (by norm_num)]

theorem roundHalfEven_bounds (q : ℚ) : ⌊q⌋ ≤ roundHalfEven q ∧ roundHalfEven q ≤ ⌊q⌋ + 1 := by
  unfold roundHalfEven
  simp only
  split_ifs <;> constructor <;> omega

theorem roundHalfEven_err (q : ℚ) : |((roundHalfEven q : Int) : ℚ) - q| ≤ 1 / 2 := by
  have h1 := Int.floor_le q
  have h2 := Int.lt_floor_add_one q
  unfold roundHalfEven
  simp only
  rw [abs_le]
  split_ifs with a b c
  · constructor <;> linarith
  · push_cast; constructor <;> linarith
  · constructor <;> linarith
  · push_cast; constructor <;> linarith

theorem roundHalfEven_mono {a b : ℚ} (h : a ≤ b) : roundHalfEven a ≤ roundHalfEven b := by
  have hf : ⌊a⌋ ≤ ⌊b⌋ := Int.floor_le_floor h
  rcases lt_or_eq_of_le hf with hlt | heq
  · have := (roundHalfEven_bounds a).2
    have := (roundHalfEven_bounds b).1
    omega
  · unfold roundHalfEven
    simp only
    rw [heq]
    have hd : a - (⌊b⌋ : ℚ) ≤ b - (⌊b⌋ : ℚ) := by linarith
    split_ifs <;> first | omega | (exfalso; linarith)

theorem roundTo_mono (t : Int) {x y : ℚ} (h : x ≤ y) : roundTo t x ≤ roundTo t y := by
  unfold roundTo
  have hp := pow2_pos t
  have : x / pow2 t ≤ y / pow2 t := div_le_div_of_nonneg_right h hp.le
  have := roundHalfEven_mono this
  exact mul_le_mul_of_nonneg_right (by exact_mod_cast this) hp.le

theorem roundTo_fix (t : Int) (k : Int) : roundTo t ((k : ℚ) * pow2 t) = (k : ℚ) * pow2 t := by
  unfold roundTo
  rw [mul_div_assoc, div_self (pow2_pos t).ne', mul_one, roundHalfEven_intCast]

theorem roundTo_fix_of_le (t j : Int) (k : Int) (h : t ≤ j) :
    roundTo t ((k : ℚ) * pow2 j) = (k : ℚ) * pow2 j := by
  obtain ⟨n, hn⟩ : ∃ n : Nat, j = t + (n : Int) := ⟨(j - t).toNat, by omega⟩
  have : (k : ℚ) * pow2 j = ((k * 2 ^ n : Int) : ℚ) * pow2 t := by
    rw [hn, pow2_add, pow2_natCast]; push_cast; ring
  rw [this, roundTo_fix]

theorem roundTo_err (t : Int) (x : ℚ) : |roundTo t x - x| ≤ pow2 t / 2 := by
  unfold roundTo
  have hp := pow2_pos t
  have h := roundHalfEven_err (x / pow2 t)
  have e : ((roundHalfEven (x / pow2 t) : Int) : ℚ) * pow2 t - x
      = (((roundHalfEven (x / pow2 t) : Int) : ℚ) - x / pow2 t) * pow2 t := by
    field_simp
  rw [e, abs_mul, abs_of_pos hp]
  calc |((roundHalfEven (x / pow2 t) : Int) : ℚ) - x / pow2 t| * pow2 t
      ≤ 1 / 2 * pow2 t := mul_le_mul_of_nonneg_right h hp.le
    _ = pow2 t / 2 := by ring

theorem roundTo_nonneg (t : Int) {x : ℚ} (h : 0 ≤ x) : 0 ≤ roundTo t x := by
  have := roundTo_mono t h
  have h0 : roundTo t 0 = 0 := by
    have := roundTo_fix t 0
    simpa using this
  rw [h0] at this
  exact this

/-! ## Binary64 rounding: the rounding function -/

theorem ilog2_unique {x : ℚ} {e : Int} (hx : 0 < x) (h1 : pow2 e ≤ x) (h2 : x < pow2 (e + 1)) :
    e = ilog2 x := by
  have := le_ilog2_of_pow2_le hx h1
  have := ilog2_lt_of_lt_pow2 hx h2
  omega

theorem expSearch_spec (n d : Nat) (s lo : Nat) (h1 : d * 2 ^ lo ≤ n * 2 ^ expBias)
    (h2 : n * 2 ^ expBias < d * 2 ^ (lo + 2 ^ s)) :
    d * 2 ^ expSearch n d s lo ≤ n * 2 ^ expBias ∧
      n * 2 ^ expBias < d * 2 ^ (expSearch n d s lo + 1) := by
  induction s generalizing lo with
  | zero =>
    simp only [expSearch]
    exact ⟨h1, h2⟩
  | succ s ih =>
    simp only [expSearch]
    split_ifs with h
    · refine ih _ h ?_
      have : lo + 2 ^ s + 2 ^ s = lo + 2 ^ (s + 1) := by ring
      rw [this]; exact h2
    · exact ih _ h1 (not_le.mp h)

theorem binExp_eq (n d : Nat) (hn : 0 < n) (hd : 0 < d) :
    binExp n d = ilog2 ((n : ℚ) / (d : ℚ)) := by
  unfold binExp
  split_ifs with h
  · have hw : 0 + 2 ^ 12 = 2 * expBias := by decide
    obtain ⟨h1, h2⟩ := expSearch_spec n d 12 0 (by rw [pow_zero, mul_one]; exact h.1)
      (by rw [hw]; exact h.2)
    have hdq : (0 : ℚ) < (d : ℚ) := by exact_mod_cast hd
    have hx : (0 : ℚ) < (n : ℚ) / (d : ℚ) := div_pos (by exact_mod_cast hn) hdq
    generalize expSearch n d 12 0 = r at h1 h2 ⊢
    generalize expBias = W at h1 h2 ⊢
    have q1 : (d : ℚ) * 2 ^ r ≤ (n : ℚ) * 2 ^ W := by exact_mod_cast h1
    have q2 : (n : ℚ) * 2 ^ W < (d : ℚ) * 2 ^ (r + 1) := by exact_mod_cast h2
    have e1 : pow2 ((r : Int) - (W : Int)) * 2 ^ W = (2 : ℚ) ^ r := by
      rw [← pow2_natCast W, ← pow2_add, ← pow2_natCast]
      congr 1; ring
    have e2 : pow2 ((r : Int) - (W : Int) + 1) * 2 ^ W = (2 : ℚ) ^ (r + 1) := by
      rw [← pow2_natCast W, ← pow2_add, ← pow2_natCast]
      congr 1; push_cast; ring
    have hp : (0 : ℚ) < 2 ^ W := by positivity
    refine (ilog2_unique hx ?_ ?_).symm ▸ rfl
    · rw [le_div_iff₀ hdq]
      have : pow2 ((r : Int) - (W : Int)) * (d : ℚ) * 2 ^ W ≤ (n : ℚ) * 2 ^ W := by
        calc pow2 ((r : Int) - (W : Int)) * (d : ℚ) * 2 ^ W
            = (d : ℚ) * (pow2 ((r : Int) - (W : Int)) * 2 ^ W) := by ring
          _ = (d : ℚ) * 2 ^ r := by rw [e1]
          _ ≤ (n : ℚ) * 2 ^ W := q1
      exact le_of_mul_le_mul_right this hp
    · rw [div_lt_iff₀ hdq]
      have : (n : ℚ) * 2 ^ W < pow2 ((r : Int) - (W : Int) + 1) * (d : ℚ) * 2 ^ W := by
        calc (n : ℚ) * 2 ^ W < (d : ℚ) * 2 ^ (r + 1) := q2
          _ = (d : ℚ) * (pow2 ((r : Int) - (W : Int) + 1) * 2 ^ W) := by rw [e2]
          _ = pow2 ((r : Int) - (W : Int) + 1) * (d : ℚ) * 2 ^ W := by ring
      exact lt_of_mul_lt_mul_right this hp.le
  · rfl

theorem roundDiv_eq (N D : Nat) (hD : 0 < D) :
    ((roundDiv N D : Nat) : Int) = roundHalfEven ((N : ℚ) / (D : ℚ)) := by
  have hDq : (0 : ℚ) < (D : ℚ) := by exact_mod_cast hD
  have hfloor : ⌊(N : ℚ) / (D : ℚ)⌋ = ((N / D : Nat) : Int) := by
    rw [Int.floor_eq_iff]
    constructor
    · rw [le_div_iff₀ hDq]
      have := Nat.div_mul_le_self N D
      exact_mod_cast this
    · rw [div_lt_iff₀ hDq]
      have := Nat.lt_div_mul_add hD (a := N)
      have h2 : N < (N / D + 1) * D := by
        rw [Nat.add_mul, Nat.one_mul]; exact this
      push_cast
      exact_mod_cast h2
  have hfrac : (N : ℚ) / (D : ℚ) - ((N / D : Nat) : ℚ) = ((N % D : Nat) : ℚ) / (D : ℚ) := by
    have := Nat.div_add_mod N D
    have h2 : (N : ℚ) = (D : ℚ) * ((N / D : Nat) : ℚ) + ((N % D : Nat) : ℚ) := by
      exact_mod_cast this.symm
    field_simp
    linarith
  have c1 : ((N % D : Nat) : ℚ) / (D : ℚ) < 1 / 2 ↔ 2 * (N % D) < D := by
    rw [div_lt_iff₀ hDq]
    constructor
    · intro h
      have : (2 : ℚ) * ((N % D : Nat) : ℚ) < (D : ℚ) := by linarith
      exact_mod_cast this
    · intro h
      have : (2 : ℚ) * ((N % D : Nat) : ℚ) < (D : ℚ) := by exact_mod_cast h
      linarith
  have c2 : (1 : ℚ) / 2 < ((N % D : Nat) : ℚ) / (D : ℚ) ↔ D < 2 * (N % D) := by
    rw [lt_div_iff₀ hDq]
    constructor
    · intro h
      have : (D : ℚ) < (2 : ℚ) * ((N % D : Nat) : ℚ) := by linarith
      exact_mod_cast this
    · intro h
      have : (D : ℚ) < (2 : ℚ) * ((N % D : Nat) : ℚ) := by exact_mod_cast h
      linarith
  unfold roundHalfEven roundDiv
  simp only
  rw [hfloor]
  have hcast : (((N / D : Nat) : Int) : ℚ) = ((N / D : Nat) : ℚ) := Int.cast_natCast _
  rw [hcast, hfrac]
  by_cases a : 2 * (N % D) < D
  · rw [if_pos a, if_pos (c1.mpr a)]
  · rw [if_neg a, if_neg (fun h => a (c1.mp h))]
    by_cases b : D < 2 * (N % D)
    · rw [if_pos b, if_pos (c2.mpr b)]; push_cast; rfl
    · rw [if_neg b, if_neg (fun h => b (c2.mp h))]
      have hpar : ((N / D : Nat) : Int) % 2 = 0 ↔ (N / D) % 2 = 0 := by omega
      by_cases c : (N / D) % 2 = 0
      · rw [if_pos c, if_pos (hpar.mpr c)]
      · rw [if_neg c, if_neg (fun h => c (hpar.mp h))]; push_cast; rfl

theorem fl64mag_eq (n d : Nat) (hn : 0 < n) (hd : 0 < d) :
    fl64mag n d = roundTo (ulpExp ((n : ℚ) / (d : ℚ))) ((n : ℚ) / (d : ℚ)) := by
  have hdq : (0 : ℚ) < (d : ℚ) := by exact_mod_cast hd
  unfold fl64mag
  simp only
  rw [binExp_eq n d hn hd]
  have ht : max (ilog2 ((n : ℚ) / (d : ℚ))) (-1022) - 52 = ulpExp ((n : ℚ) / (d : ℚ)) := rfl
  rw [ht]
  generalize ulpExp ((n : ℚ) / (d : ℚ)) = t
  unfold roundTo
  by_cases h : 0 ≤ t
  · rw [if_pos h]
    obtain ⟨k, hk⟩ : ∃ k : Nat, t = (k : Int) := ⟨t.toNat, by omega⟩
    rw [hk, Int.toNat_ofNat, pow2_natCast]
    have hpos : 0 < d * 2 ^ k := by positivity
    have e : (n : ℚ) / (d : ℚ) / 2 ^ k = (n : ℚ) / ((d * 2 ^ k : Nat) : ℚ) := by
      push_cast; rw [div_div]
    rw [e, ← roundDiv_eq n (d * 2 ^ k) hpos]
    push_cast
    rfl
  · rw [if_neg h]
    obtain ⟨k, hk⟩ : ∃ k : Nat, t = -(k : Int) := ⟨(-t).toNat, by omega⟩
    rw [hk, neg_neg, Int.toNat_ofNat]
    have hp : pow2 (-(k : Int)) = 1 / (2 : ℚ) ^ k := by
      rw [pow2_eq, zpow_neg, zpow_natCast, one_div]
    have e : (n : ℚ) / (d : ℚ) / pow2 (-(k : Int)) = ((n * 2 ^ k : Nat) : ℚ) / (d : ℚ) := by
      rw [hp]; push_cast; field_simp
    rw [e, ← roundDiv_eq (n * 2 ^ k) d hd, hp, Rat.mkRat_eq_div]
    push_cast
    ring

theorem rat_num_den_pos {x : ℚ} (hx : 0 < x) :
    0 < x.num.natAbs ∧ ((x.num.natAbs : Nat) : ℚ) / (x.den : ℚ) = x := by
  have hnum : 0 < x.num := Rat.num_pos.mpr hx
  refine ⟨by omega, ?_⟩
  have h1 : ((x.num.natAbs : Int) : ℚ) = (x.num : ℚ) := by
    rw [Int.natAbs_of_nonneg hnum.le]
  have h2 : ((x.num.natAbs : Nat) : ℚ) = ((x.num.natAbs : Int) : ℚ) :=
    (Int.cast_natCast _).symm
  rw [h2, h1]
  exact Rat.num_div_den x

theorem fl64_zero : fl64 0 = 0 := by
  unfold fl64; simp

theorem fl64_of_pos {x : ℚ} (h : 0 < x) : fl64 x = roundTo (ulpExp x) x := by
  obtain ⟨h1, h2⟩ := rat_num_den_pos h
  have hnum : 0 < x.num := Rat.num_pos.mpr h
  unfold fl64
  rw [if_neg hnum.ne', if_pos hnum, fl64mag_eq _ _ h1 x.den_pos, h2]

theorem fl64_neg (x : ℚ) : fl64 (-x) = - fl64 x := by
  have hden : (-x).den = x.den := Rat.den_neg_eq_den x
  have hnum : (-x).num = - x.num := Rat.num_neg_eq_neg_num x
  unfold fl64
  rw [hden, hnum, Int.natAbs_neg]
  rcases lt_trichotomy x.num 0 with h | h | h
  · rw [if_neg (by omega), if_pos (by omega), if_neg (by omega), if_neg (by omega), neg_neg]
  · rw [if_pos (by omega), if_pos h]; simp
  · rw [if_neg (by omega), if_neg (by omega), if_neg (by omega), if_pos h]

theorem fl64_nonneg {x : ℚ} (h : 0 ≤ x) : 0 ≤ fl64 x := by
  rcases eq_or_lt_of_le h with h0 | h0
  · rw [← h0, fl64_zero]
  · rw [fl64_of_pos h0]; exact roundTo_nonneg _ h

theorem fl64_mono_pos {x y : ℚ} (hx : 0 < x) (hxy : x ≤ y) : fl64 x ≤ fl64 y := by
  have hy : 0 < y := lt_of_lt_of_le hx hxy
  rw [fl64_of_pos hx, fl64_of_pos hy]
  rcases lt_or_eq_of_le (ulpExp_mono hx hxy) with hlt | heq
  · -- the boundary `2 ^ ilog2 y` separates the two binades
    have hey : -1022 < ilog2 y := by
      unfold ulpExp at hlt
      omega
    have hexy : ilog2 x < ilog2 y := by
      unfold ulpExp at hlt
      omega
    have hB1 : x ≤ pow2 (ilog2 y) :=
      le_trans (ilog2_spec x hx).2.le (pow2_le_pow2 (by omega))
    have hB2 : pow2 (ilog2 y) ≤ y := (ilog2_spec y hy).1
    have f1 : roundTo (ulpExp x) (pow2 (ilog2 y)) = pow2 (ilog2 y) := by
      have := roundTo_fix_of_le (ulpExp x) (ilog2 y) 1 (by unfold ulpExp; omega)
      simpa using this
    have f2 : roundTo (ulpExp y) (pow2 (ilog2 y)) = pow2 (ilog2 y) := by
      have := roundTo_fix_of_le (ulpExp y) (ilog2 y) 1 (by unfold ulpExp; omega)
      simpa using this
    calc roundTo (ulpExp x) x ≤ roundTo (ulpExp x) (pow2 (ilog2 y)) := roundTo_mono _ hB1
      _ = pow2 (ilog2 y) := f1
      _ = roundTo (ulpExp y) (pow2 (ilog2 y)) := f2.symm
      _ ≤ roundTo (ulpExp y) y := roundTo_mono _ hB2
  · rw [heq]; exact roundTo_mono _ hxy

theorem fl64_mono {x y : ℚ} (hxy : x ≤ y) : fl64 x ≤ fl64 y := by
  rcases lt_trichotomy 0 x with hx | hx | hx
  · exact fl64_mono_pos hx hxy
  · rw [← hx, fl64_zero]; exact fl64_nonneg (by linarith)
  · rcases le_or_lt 0 y with hy | hy
    · have := fl64_nonneg hy
      have h2 := fl64_nonneg (by linarith : (0 : ℚ) ≤ -x)
      rw [fl64_neg] at h2
      linarith
    · have := fl64_mono_pos (by linarith : (0 : ℚ) < -y) (by linarith : -y ≤ -x)
      rw [fl64_neg, fl64_neg] at this
      linarith

theorem fl64_exact_pos {x : ℚ} (hx : 0 < x) (k j : Int) (hxk : x = (k : ℚ) * pow2 j)
    (hk : (k : ℚ) < 2 ^ 53) (hj : -1074 ≤ j) : fl64 x = x := by
  rw [fl64_of_pos hx]
  have hlt : x < pow2 (j + 53) := by
    rw [pow2_add, hxk, mul_comm (pow2 j), pow2_53]
    exact mul_lt_mul_of_pos_right hk (pow2_pos j)
  have he := ilog2_lt_of_lt_pow2 hx hlt
  have ht : ulpExp x ≤ j := by unfold ulpExp; omega
  have h1 : roundTo (ulpExp x) x = roundTo (ulpExp x) ((k : ℚ) * pow2 j) := by rw [← hxk]
  rw [h1, roundTo_fix_of_le _ _ _ ht, ← hxk]

theorem fl64_exact {x : ℚ} (k j : Int) (hxk : x = (k : ℚ) * pow2 j)
    (hk : |(k : ℚ)| ≤ 2 ^ 53) (hj : -1074 ≤ j) : fl64 x = x := by
  -- reduce to a positive `x` with `k < 2^53`
  have key : ∀ (y : ℚ) (k : Int), 0 < y → y = (k : ℚ) * pow2 j → (k : ℚ) ≤ 2 ^ 53 →
      fl64 y = y := by
    intro y k hy hyk hk
    rcases lt_or_eq_of_le hk with h | h
    · exact fl64_exact_pos hy k j hyk h hj
    · refine fl64_exact_pos hy (2 ^ 52) (j + 1) ?_ (by norm_num) (by omega)
      rw [hyk, h, pow2_succ]; push_cast; ring
  rcases lt_trichotomy 0 x with hx | hx | hx
  · exact key x k hx hxk (le_trans (le_abs_self _) hk)
  · rw [← hx, fl64_zero]
  · have h1 : -x = ((-k : Int) : ℚ) * pow2 j := by rw [hxk]; push_cast; ring
    have h2 : ((-k : Int) : ℚ) ≤ 2 ^ 53 := by
      push_cast; exact le_trans (neg_le_abs _) hk
    have := key (-x) (-k) (by linarith) h1 h2
    rw [fl64_neg] at this
    linarith

theorem fl64_natCast (n : Nat) (h : n ≤ 2 ^ 53) : fl64 (n : ℚ) = (n : ℚ) := by
  refine fl64_exact (n : Int) 0 (by rw [pow2_zero]; push_cast; ring) ?_ (by omega)
  rw [Int.cast_natCast, abs_of_nonneg (Nat.cast_nonneg _)]
  exact_mod_cast h

theorem fl64_intCast (n : Int) (h : |n| ≤ 2 ^ 53) : fl64 (n : ℚ) = (n : ℚ) := by
  refine fl64_exact n 0 (by rw [pow2_zero]; ring) ?_ (by omega)
  exact_mod_cast h

theorem fl64_one : fl64 1 = 1 := by
  have := fl64_natCast 1 (by norm_num)
  simpa using this

/-- Every value of `fl64` is a double: an integer of magnitude at most `2^53` times a power
of two not below `2^-1074`. -/
theorem fl64_repr (x : ℚ) :
    ∃ k j : Int, fl64 x = (k : ℚ) * pow2 j ∧ |(k : ℚ)| ≤ 2 ^ 53 ∧ -1074 ≤ j := by
  have key : ∀ y : ℚ, 0 < y →
      ∃ k j : Int, fl64 y = (k : ℚ) * pow2 j ∧ |(k : ℚ)| ≤ 2 ^ 53 ∧ -1074 ≤ j := by
    intro y hy
    refine ⟨roundHalfEven (y / pow2 (ulpExp y)), ulpExp y, ?_, ?_, by unfold ulpExp; omega⟩
    · rw [fl64_of_pos hy]; rfl
    · have hp := pow2_pos (ulpExp y)
      have hq : 0 ≤ y / pow2 (ulpExp y) := (div_pos hy hp).le
      have hlt : y / pow2 (ulpExp y) ≤ ((2 ^ 53 : Int) : ℚ) := by
        rw [div_le_iff₀ hp]
        have h1 := (ilog2_spec y hy).2
        have h2 : pow2 (ilog2 y + 1) ≤ pow2 (ulpExp y + 53) :=
          pow2_le_pow2 (by unfold ulpExp; omega)
        rw [pow2_add (ulpExp y) 53, pow2_53] at h2
        push_cast
        linarith [mul_comm (pow2 (ulpExp y)) ((2 : ℚ) ^ 53)]
      have h0 : (0 : Int) ≤ roundHalfEven (y / pow2 (ulpExp y)) := by
        have := roundHalfEven_mono hq
        rw [show (0 : ℚ) = ((0 : Int) : ℚ) by norm_num, roundHalfEven_intCast] at this
        exact this
      have h1 : roundHalfEven (y / pow2 (ulpExp y)) ≤ 2 ^ 53 := by
        have := roundHalfEven_mono hlt
        rw [roundHalfEven_intCast] at this
        exact this
      rw [abs_of_nonneg (by exact_mod_cast h0)]
      exact_mod_cast h1
  rcases lt_trichotomy 0 x with hx | hx | hx
  · exact key x hx
  · exact ⟨0, 0, by rw [← hx, fl64_zero]; simp, by simp, by omega⟩
  · obtain ⟨k, j, h1, h2, h3⟩ := key (-x) (by linarith)
    refine ⟨-k, j, ?_, ?_, h3⟩
    · rw [fl64_neg] at h1
      push_cast
      linarith
    · push_cast; rw [abs_neg]; exact h2

theorem fl64_idem (x : ℚ) : fl64 (fl64 x) = fl64 x := by
  obtain ⟨k, j, h1, h2, h3⟩ := fl64_repr x
  exact fl64_exact k j h1 h2 h3

theorem fl64_one_mul (x : ℚ) : fl64 (1 * fl64 x) = fl64 x := by
  rw [one_mul, fl64_idem]

/-- Absolute rounding error below a power of two. -/
theorem fl64_err_abs {x : ℚ} (k : Int) (hx : 0 ≤ x) (hk : x < pow2 k) (hk' : -1021 ≤ k) :
    |fl64 x - x| ≤ pow2 (k - 54) := by
  rcases eq_or_lt_of_le hx with h0 | h0
  · rw [← h0, fl64_zero]; simp [(pow2_pos _).le]
  · rw [fl64_of_pos h0]
    have he := ilog2_lt_of_lt_pow2 h0 hk
    have ht : ulpExp x ≤ k - 53 := by unfold ulpExp; omega
    have h1 := roundTo_err (ulpExp x) x
    have h2 : pow2 (ulpExp x) ≤ pow2 (k - 53) := pow2_le_pow2 ht
    have h3 : pow2 (k - 53) = 2 * pow2 (k - 54) := by
      rw [← pow2_succ]; congr 1; omega
    linarith

/-- Relative rounding error in the normal range. -/
theorem fl64_err_rel {x : ℚ} (hx : pow2 (-1022) ≤ x) : |fl64 x - x| ≤ x * pow2 (-53) := by
  have h0 : 0 < x := lt_of_lt_of_le (pow2_pos _) hx
  rw [fl64_of_pos h0]
  have he := le_ilog2_of_pow2_le h0 hx
  have ht : ulpExp x = ilog2 x + (-52) := by unfold ulpExp; omega
  have h1 := roundTo_err (ulpExp x) x
  have h2 := (ilog2_spec x h0).1
  have h3 : pow2 (ulpExp x) = 2 * (pow2 (ilog2 x) * pow2 (-53)) := by
    rw [ht, ← pow2_add, ← pow2_succ]; congr 1; omega
  have h4 : pow2 (ilog2 x) * pow2 (-53) ≤ x * pow2 (-53) :=
    mul_le_mul_of_nonneg_right h2 (pow2_pos _).le
  rw [h3] at h1
  linarith


/-! ## Candidate generation: bounds -/

theorem gapRunEnd_ge (p : Nat → ℚ) (H : Nat) (fuel i : Nat) :
    i ≤ gapRunEnd p H fuel i := by
  induction fuel generalizing i with
  | zero => simp [gapRunEnd]
  | succ f ih =>
    simp only [gapRunEnd]
    split_ifs with h
    · exact Nat.le_of_succ_le (ih (i + 1))
    · exact le_rfl

theorem gapRunEnd_le (p : Nat → ℚ) (H : Nat) (fuel i : Nat) (hi : i ≤ H) :
    gapRunEnd p H fuel i ≤ H := by
  induction fuel generalizing i with
  | zero => simpa [gapRunEnd] using hi
  | succ f ih =>
    simp only [gapRunEnd]
    split_ifs with h
    · exact ih (i + 1) h.1
    · exact hi

theorem gapRunEnd_gt (p : Nat → ℚ) (H : Nat) (i : Nat) (hi : i < H)
    (hg : is_gap p i = true) : i < gapRunEnd p H (H - i) i := by
  obtain ⟨f, hf⟩ : ∃ f, H - i = f + 1 := ⟨H - i - 1, by omega⟩
  rw [hf]
  simp only [gapRunEnd, hi, hg, and_self, if_true]
  exact gapRunEnd_ge p H f (i + 1)

theorem gapLoop_lt (p : Nat → ℚ) (H : Nat) (m : Int) (fuel i : Nat) :
    ∀ r ∈ gapLoop p H m fuel i, r < H := by
  induction fuel generalizing i with
  | zero => simp [gapLoop]
  | succ f ih =>
    intro r hr
    simp only [gapLoop] at hr
    split_ifs at hr with h1 h2 h3
    · have hgt := gapRunEnd_gt p H i h1 h2
      have hle := gapRunEnd_le p H (H - i) i h1.le
      rcases List.mem_cons.mp hr with h | h
      · subst h
        have : (gapRunEnd p H (H - i) i - i) / 2 < gapRunEnd p H (H - i) i - i :=
          Nat.div_lt_self (by omega) (by decide)
        omega
      · exact ih _ r h
    · exact ih _ r hr
    · exact ih _ r hr
    · simp at hr

theorem bandScan_idx (sm : Nat → ℚ) (s n : Nat) :
    (bandScan sm s n).1 = -1 ∨
      ∃ r : Nat, (bandScan sm s n).1 = (r : Int) ∧ s ≤ r ∧ r < s + n := by
  induction n with
  | zero => left; rfl
  | succ n ih =>
    simp only [bandScan]
    split_ifs with h
    · right; exact ⟨s + n, rfl, by omega, by omega⟩
    · rcases ih with h1 | ⟨r, h1, h2, h3⟩
      · left; exact h1
      · right; exact ⟨r, h1, h2, by omega⟩

theorem bandLoop_lt (sm : Nat → ℚ) (H : Nat) (fuel s : Nat) :
    ∀ r ∈ bandLoop sm H fuel s, r < H := by
  induction fuel generalizing s with
  | zero => simp [bandLoop]
  | succ f ih =>
    intro r hr
    simp only [bandLoop] at hr
    split_ifs at hr with h1 h2
    · rcases List.mem_cons.mp hr with h | h
      · rcases bandScan_idx sm s (min (s + band_size) H - s) with h3 | ⟨q, h3, h4, h5⟩
        · exact absurd h3 h2
        · rw [h3] at h
          simp at h
          omega
      · exact ih _ r h
    · exact ih _ r hr
    · simp at hr

theorem snapWindow_mem (p : Nat → ℚ) (H : Nat) (rad : Int) (thr : ℚ) (s n r : Nat) :
    r ∈ snapWindow p H rad thr s n ↔
      (s ≤ r ∧ r < s + n) ∧ is_unsafe_cut_fn p H r rad thr = false := by
  simp [snapWindow, List.mem_filter, List.mem_range'_1]

theorem snapLoop_lt (p : Nat → ℚ) (H T : Nat) (snap rad : Int) (thr : ℚ) (fuel ideal : Nat) :
    ∀ r ∈ snapLoop p H T snap rad thr fuel ideal, r < H := by
  induction fuel generalizing ideal with
  | zero => simp [snapLoop]
  | succ f ih =>
    intro r hr
    simp only [snapLoop] at hr
    split_ifs at hr with h1
    · rcases List.mem_append.mp hr with h | h
      · rw [snapWindow_mem] at h
        obtain ⟨⟨h2, h3⟩, -⟩ := h
        omega
      · exact ih _ r h
    · simp at hr

theorem rawCandidates_le (p : Nat → ℚ) (H T : Nat) (m : Int) (mode : CutMode)
    (snap rad : Int) (thr : ℚ) :
    ∀ r ∈ rawCandidates p H T m mode snap rad thr, r ≤ H := by
  intro r hr
  simp only [rawCandidates, List.mem_append, List.mem_cons, List.mem_singleton,
    List.not_mem_nil, or_false] at hr
  rcases hr with ((h | h) | h) | h
  · rcases h with h | h <;> omega
  · exact (gapLoop_lt p H m _ _ r h).le
  · exact (bandLoop_lt _ H _ _ r h).le
  · unfold snapCandidates at h
    split_ifs at h
    · exact (snapLoop_lt p H T snap rad thr _ _ r h).le
    · simp at h

/-! ## Sort and unique -/

theorem uniqueFrom_mem (prev : Nat) (l : List Nat) (hs : List.Sorted (· ≤ ·) (prev :: l))
    (x : Nat) : x ∈ uniqueFrom prev l ↔ x ∈ l ∧ x ≠ prev := by
  induction l generalizing prev with
  | nil => simp [uniqueFrom]
  | cons c cs ih =>
    have hcs : List.Sorted (· ≤ ·) (c :: cs) := hs.of_cons
    have hpc : prev ≤ c := List.rel_of_sorted_cons hs c (List.mem_cons_self _ _)
    have hall : ∀ y ∈ cs, c ≤ y := fun y hy => List.rel_of_sorted_cons hcs y hy
    simp only [uniqueFrom]
    split_ifs with h
    · simp only [List.mem_cons, ih c hcs]
      constructor
      · rintro (h1 | ⟨h1, h2⟩)
        · rw [h1]; exact ⟨Or.inl rfl, h⟩
        · refine ⟨Or.inr h1, ?_⟩
          have := hall x h1
          omega
      · rintro ⟨h1 | h1, -⟩
        · exact Or.inl h1
        · by_cases hxc : x = c
          · exact Or.inl hxc
          · exact Or.inr ⟨h1, hxc⟩
    · have hcp : c = prev := not_not.mp h
      rw [ih c hcs, hcp]
      simp only [List.mem_cons]
      constructor
      · rintro ⟨h1, h2⟩; exact ⟨Or.inr h1, h2⟩
      · rintro ⟨h1 | h1, h2⟩
        · exact absurd h1 h2
        · exact ⟨h1, h2⟩

theorem uniqueFrom_gt (prev : Nat) (l : List Nat) (hs : List.Sorted (· ≤ ·) (prev :: l)) :
    ∀ x ∈ uniqueFrom prev l, prev < x := by
  intro x hx
  rw [uniqueFrom_mem prev l hs] at hx
  have := List.rel_of_sorted_cons hs x hx.1
  omega

theorem uniqueFrom_sorted (prev : Nat) (l : List Nat) (hs : List.Sorted (· ≤ ·) (prev :: l)) :
    List.Sorted (· < ·) (uniqueFrom prev l) := by
  induction l generalizing prev with
  | nil => simp [uniqueFrom]
  | cons c cs ih =>
    have hcs : List.Sorted (· ≤ ·) (c :: cs) := hs.of_cons
    simp only [uniqueFrom]
    split_ifs with h
    · exact List.sorted_cons.mpr ⟨uniqueFrom_gt c cs hcs, ih c hcs⟩
    · exact ih c hcs

theorem uniqueSorted_sorted (l : List Nat) (hs : List.Sorted (· ≤ ·) l) :
    List.Sorted (· < ·) (uniqueSorted l) := by
  cases l with
  | nil => simp [uniqueSorted]
  | cons c cs =>
    exact List.sorted_cons.mpr ⟨uniqueFrom_gt c cs hs, uniqueFrom_sorted c cs hs⟩

theorem uniqueSorted_mem (l : List Nat) (hs : List.Sorted (· ≤ ·) l) (x : Nat) :
    x ∈ uniqueSorted l ↔ x ∈ l := by
  cases l with
  | nil => simp [uniqueSorted]
  | cons c cs =>
    simp only [uniqueSorted, List.mem_cons, uniqueFrom_mem c cs hs]
    constructor
    · rintro (h | ⟨h, -⟩)
      · exact Or.inl h
      · exact Or.inr h
    · rintro (h | h)
      · exact Or.inl h
      · by_cases hxc : x = c
        · exact Or.inl hxc
        · exact Or.inr ⟨h, hxc⟩

/-! ## The candidate array -/

theorem candidates_sorted (p : Nat → ℚ) (H T : Nat) (m : Int) (mode : CutMode)
    (snap rad : Int) (thr : ℚ) :
    List.Sorted (· < ·) (candidates p H T m mode snap rad thr) :=
  uniqueSorted_sorted _ (List.sorted_insertionSort _ _)

theorem candidates_mem (p : Nat → ℚ) (H T : Nat) (m : Int) (mode : CutMode)
    (snap rad : Int) (thr : ℚ) (x : Nat) :
    x ∈ candidates p H T m mode snap rad thr ↔ x ∈ rawCandidates p H T m mode snap rad thr := by
  unfold candidates
  rw [uniqueSorted_mem _ (List.sorted_insertionSort _ _), List.mem_insertionSort]

theorem candidates_le (p : Nat → ℚ) (H T : Nat) (m : Int) (mode : CutMode)
    (snap rad : Int) (thr : ℚ) : ∀ x ∈ candidates p H T m mode snap rad thr, x ≤ H := by
  intro x hx
  exact rawCandidates_le p H T m mode snap rad thr x ((candidates_mem ..).mp hx)

theorem zero_mem_candidates (p : Nat → ℚ) (H T : Nat) (m : Int) (mode : CutMode)
    (snap rad : Int) (thr : ℚ) : 0 ∈ candidates p H T m mode snap rad thr := by
  rw [candidates_mem]; simp [rawCandidates]

theorem height_mem_candidates (p : Nat → ℚ) (H T : Nat) (m : Int) (mode : CutMode)
    (snap rad : Int) (thr : ℚ) : H ∈ candidates p H T m mode snap rad thr := by
  rw [candidates_mem]; simp [rawCandidates]

theorem sorted_getD_lt {c : List Nat} (hs : List.Sorted (· < ·) c) {i j : Nat} (hij : i < j)
    (hj : j < c.length) : c.getD i 0 < c.getD j 0 := by
  rw [List.getD_eq_getElem c 0 (lt_trans hij hj), List.getD_eq_getElem c 0 hj]
  exact List.pairwise_iff_get.mp hs ⟨i, lt_trans hij hj⟩ ⟨j, hj⟩ hij

theorem getD_mem {c : List Nat} {i : Nat} (hi : i < c.length) : c.getD i 0 ∈ c := by
  rw [List.getD_eq_getElem c 0 hi]
  exact List.getElem_mem _

theorem candShape_of (c : List Nat) (H : Nat) (hH : 1 ≤ H) (hs : List.Sorted (· < ·) c)
    (h0 : 0 ∈ c) (hh : H ∈ c) (hle : ∀ x ∈ c, x ≤ H) : CandShape c H := by
  obtain ⟨i, hi, hi0⟩ := List.getElem_of_mem h0
  obtain ⟨j, hj, hjH⟩ := List.getElem_of_mem hh
  have hpos : 0 < c.length := by omega
  have first : c.getD 0 0 = 0 := by
    by_contra hne
    have hi' : 0 < i := by
      rcases Nat.eq_zero_or_pos i with h | h
      · subst h
        rw [List.getD_eq_getElem c 0 hi, hi0] at hne
        exact absurd rfl hne
      · exact h
    have := sorted_getD_lt hs hi' hi
    rw [List.getD_eq_getElem c 0 hi, hi0] at this
    omega
  have last : c.getD (c.length - 1) 0 = H := by
    by_contra hne
    have hj' : j < c.length - 1 := by
      rcases Nat.lt_or_ge j (c.length - 1) with h | h
      · exact h
      · have : j = c.length - 1 := by omega
        subst this
        rw [List.getD_eq_getElem c 0 hj, hjH] at hne
        exact absurd rfl hne
    have h1 := sorted_getD_lt hs hj' (by omega)
    rw [List.getD_eq_getElem c 0 hj, hjH] at h1
    have h2 := hle _ (getD_mem (c := c) (i := c.length - 1) (by omega))
    omega
  refine ⟨hs, first, last, ?_, hle⟩
  by_contra hlen
  have hl : c.length = 1 := by omega
  rw [hl] at last
  simp only [Nat.sub_self] at last
  omega

theorem candidates_shape (p : Nat → ℚ) (H T : Nat) (m : Int) (mode : CutMode)
    (snap rad : Int) (thr : ℚ) (hH : 1 ≤ H) :
    CandShape (candidates p H T m mode snap rad thr) H :=
  candShape_of _ H hH (candidates_sorted ..) (zero_mem_candidates ..)
    (height_mem_candidates ..) (candidates_le p H T m mode snap rad thr)

/-! ## The dynamic program: tables -/

section DP

variable (sm : Nat → ℚ) (H : Nat) (c : List Nat) (T : Nat) (mw : Int)

theorem dpTable_length (k : Nat) :
    (dpTable sm H c T mw k).1.length = k + 1 ∧ (dpTable sm H c T mw k).2.length = k + 1 := by
  induction k with
  | zero => simp [dpTable]
  | succ k ih => simp [dpTable, ih.1, ih.2]

theorem dpTable_getD_dp {j k : Nat} (hjk : j ≤ k) :
    (dpTable sm H c T mw k).1.getD j 0 = dpAt sm H c T mw j := by
  induction k with
  | zero =>
    have : j = 0 := by omega
    subst this; rfl
  | succ k ih =>
    rcases Nat.lt_or_ge j (k + 1) with h | h
    · have hlen := (dpTable_length sm H c T mw k).1
      simp only [dpTable]
      rw [List.getD_append _ _ _ _ (by omega)]
      exact ih (by omega)
    · have : j = k + 1 := by omega
      subst this; rfl

theorem dpTable_getD_par {j k : Nat} (hjk : j ≤ k) :
    (dpTable sm H c T mw k).2.getD j (-1) = parAt sm H c T mw j := by
  induction k with
  | zero =>
    have : j = 0 := by omega
    subst this; rfl
  | succ k ih =>
    rcases Nat.lt_or_ge j (k + 1) with h | h
    · have hlen := (dpTable_length sm H c T mw k).2
      simp only [dpTable]
      rw [List.getD_append _ _ _ _ (by omega)]
      exact ih (by omega)
    · have : j = k + 1 := by omega
      subst this; rfl

theorem dpAt_zero : dpAt sm H c T mw 0 = 0 := rfl

theorem parAt_zero : parAt sm H c T mw 0 = -1 := rfl

theorem dpAt_succ (k : Nat) :
    dpAt sm H c T mw (k + 1)
      = (dpStep sm H c T mw (dpTable sm H c T mw k).1 (k + 1)).1 := by
  have hlen := (dpTable_length sm H c T mw k).1
  simp only [dpAt, dpTable]
  rw [List.getD_append_right _ _ _ _ (by omega)]
  simp [hlen]

theorem parAt_succ (k : Nat) :
    parAt sm H c T mw (k + 1)
      = (dpStep sm H c T mw (dpTable sm H c T mw k).1 (k + 1)).2 := by
  have hlen := (dpTable_length sm H c T mw k).2
  simp only [parAt, dpTable]
  rw [List.getD_append_right _ _ _ _ (by omega)]
  simp [hlen]

end DP

/-! ## The dynamic program: the predecessor scan -/

section Scan

variable (c : List Nat) (dp : List ℚ) (T : Nat) (mw : Int) (cur : Nat) (isLast : Bool) (ink : ℚ)

theorem admits_iff (dh : Int) :
    admits T mw isLast dh ↔ ¬ dh > (T : Int) + mw ∧ skipsEdge T mw isLast dh = false := by
  cases isLast <;> simp [admits, skipsEdge]

theorem scanPrev_le_init (n : Nat) (st : ℚ × Int) :
    (scanPrev c dp T mw cur isLast ink n st).1 ≤ st.1 := by
  induction n generalizing st with
  | zero => simp [scanPrev]
  | succ n ih =>
    simp only [scanPrev]
    split_ifs with h1 h2 h3
    · exact le_rfl
    · exact ih st
    · exact le_trans (ih _) (le_of_lt h3)
    · exact ih st

theorem scanPrev_sound (n : Nat) (st : ℚ × Int) :
    scanPrev c dp T mw cur isLast ink n st = st ∨
      ∃ p : Nat, p < n ∧ admits T mw isLast ((cur : Int) - (c.getD p 0 : Int)) ∧
        scanPrev c dp T mw cur isLast ink n st
          = (fl64 (dp.getD p 0
                + transCost ink (heightCost T isLast ((cur : Int) - (c.getD p 0 : Int)))),
              (p : Int)) ∧
        (scanPrev c dp T mw cur isLast ink n st).1 < st.1 := by
  induction n generalizing st with
  | zero => left; simp [scanPrev]
  | succ n ih =>
    simp only [scanPrev]
    split_ifs with h1 h2 h3
    · left; rfl
    · rcases ih st with h | ⟨p, hp, ha, he, hl⟩
      · left; exact h
      · right; exact ⟨p, by omega, ha, he, hl⟩
    · right
      have hadm : admits T mw isLast ((cur : Int) - (c.getD n 0 : Int)) :=
        (admits_iff T mw isLast _).mpr ⟨h1, by simpa using h2⟩
      rcases ih (fl64 (dp.getD n 0 + transCost ink (heightCost T isLast
          ((cur : Int) - (c.getD n 0 : Int)))), (n : Int)) with h | ⟨p, hp, ha, he, hl⟩
      · refine ⟨n, by omega, hadm, ?_, ?_⟩
        · rw [h]
        · rw [h]; exact h3
      · exact ⟨p, by omega, ha, he, lt_trans hl h3⟩
    · rcases ih st with h | ⟨p, hp, ha, he, hl⟩
      · left; exact h
      · right; exact ⟨p, by omega, ha, he, hl⟩

theorem scanPrev_complete (n : Nat) (st : ℚ × Int)
    (hmono : ∀ p q : Nat, p ≤ q → q < n → c.getD p 0 ≤ c.getD q 0) :
    ∀ p : Nat, p < n → admits T mw isLast ((cur : Int) - (c.getD p 0 : Int)) →
      (scanPrev c dp T mw cur isLast ink n st).1
        ≤ fl64 (dp.getD p 0
            + transCost ink (heightCost T isLast ((cur : Int) - (c.getD p 0 : Int)))) := by
  induction n generalizing st with
  | zero => intro p hp; omega
  | succ n ih =>
    intro p hp ha
    have hmono' : ∀ p q : Nat, p ≤ q → q < n → c.getD p 0 ≤ c.getD q 0 :=
      fun p q h1 h2 => hmono p q h1 (by omega)
    simp only [scanPrev]
    split_ifs with h1 h2 h3
    · exfalso
      have := hmono p n (by omega) (by omega)
      have := ha.1
      omega
    · rcases Nat.lt_or_ge p n with h | h
      · exact ih st hmono' p h ha
      · have hpn : p = n := by omega
        subst hpn
        exfalso
        have := ((admits_iff T mw isLast _).mp ha).2
        rw [this] at h2
        exact absurd h2 (by decide)
    · rcases Nat.lt_or_ge p n with h | h
      · exact ih _ hmono' p h ha
      · have hpn : p = n := by omega
        subst hpn
        exact scanPrev_le_init ..
    · rcases Nat.lt_or_ge p n with h | h
      · exact ih st hmono' p h ha
      · have hpn : p = n := by omega
        subst hpn
        exact le_trans (scanPrev_le_init ..) (not_lt.mp h3)

end Scan

/-! ## Costs are non-negative on a non-negative profile -/

theorem boxSum_nonneg (a : Nat → ℚ) (s n : Nat) (h : ∀ i, s ≤ i → i < s + n → 0 ≤ a i) :
    0 ≤ boxSum a s n := by
  induction n with
  | zero => simp [boxSum]
  | succ n ih =>
    simp only [boxSum]
    exact fl64_nonneg
      (add_nonneg (ih (fun i h1 h2 => h i h1 (by omega))) (h (s + n) (by omega) (by omega)))

theorem smoothed_nonneg (p : Nat → ℚ) (H : Nat) (hp : ∀ i, i < H → 0 ≤ p i) (i : Nat) :
    0 ≤ smoothed p H i := by
  unfold smoothed
  simp only
  split_ifs with h
  · refine fl64_nonneg (div_nonneg (boxSum_nonneg _ _ _ ?_) (Nat.cast_nonneg _))
    intro k h1 h2
    exact hp k (by omega)
  · exact le_rfl

theorem inkCost_nonneg (sm : Nat → ℚ) (H : Nat) (hs : ∀ r, r < H → 0 ≤ sm r) (b : Nat) :
    0 ≤ inkCost sm H b := by
  unfold inkCost
  simp only
  split_ifs with h1 h2
  · refine fl64_nonneg (div_nonneg (boxSum_nonneg _ _ _ ?_) (Nat.cast_nonneg _))
    intro k h3 h4
    exact hs k (by omega)
  · exact le_rfl
  · exact le_rfl

theorem heightCost_nonneg (T : Nat) (l : Bool) (dh : Int) : 0 ≤ heightCost T l dh := by
  unfold heightCost
  split_ifs
  · exact le_rfl
  · exact fl64_nonneg (div_nonneg (by exact_mod_cast abs_nonneg _) (Nat.cast_nonneg _))

theorem transCost_nonneg {a b : ℚ} (ha : 0 ≤ a) (hb : 0 ≤ b) : 0 ≤ transCost a b := by
  unfold transCost
  exact fl64_nonneg (add_nonneg (fl64_nonneg (by linarith)) (fl64_nonneg (by linarith)))

theorem fl64_DP_INF : fl64 DP_INF = DP_INF := by
  have := fl64_natCast 1000000000 (by norm_num)
  unfold DP_INF
  exact_mod_cast this

/-! ## The dynamic program: entries of the final tables -/

section Entries

variable (sm : Nat → ℚ) (H : Nat) (c : List Nat) (T : Nat) (mw : Int)

theorem edgeOK_iff_admits {a b : Nat} (hab : a < b) :
    edgeOK H T mw a b ↔ admits T mw (decide (b = H)) ((b : Int) - (a : Int)) := by
  unfold edgeOK admits
  by_cases hb : b = H
  · simp only [hb, if_true, decide_True]
    subst hb
    constructor
    · rintro ⟨-, h1, h2⟩; exact ⟨h2, h1⟩
    · rintro ⟨h1, h2⟩; exact ⟨hab, h2, h1⟩
  · simp only [hb, if_false, decide_False, Bool.false_eq_true]
    constructor
    · rintro ⟨-, h1⟩
      refine ⟨?_, h1⟩
      have := (abs_le.mp h1).2
      omega
    · rintro ⟨-, h1⟩; exact ⟨hab, h1⟩

theorem dpAt_le_edge (hs : List.Sorted (· < ·) c) {p j : Nat} (hpj : p < j)
    (hj : j < c.length) (hok : edgeOK H T mw (c.getD p 0) (c.getD j 0)) :
    dpAt sm H c T mw j
      ≤ fl64 (dpAt sm H c T mw p + edgeCost sm H T (c.getD p 0) (c.getD j 0)) := by
  obtain ⟨k, rfl⟩ : ∃ k, j = k + 1 := ⟨j - 1, by omega⟩
  have hlt := sorted_getD_lt hs hpj hj
  rw [dpAt_succ]
  unfold dpStep
  simp only
  have hmono : ∀ p q : Nat, p ≤ q → q < k + 1 → c.getD p 0 ≤ c.getD q 0 := by
    intro p q h1 h2
    rcases Nat.eq_or_lt_of_le h1 with h | h
    · subst h; exact le_rfl
    · exact (sorted_getD_lt hs h (by omega)).le
  have := scanPrev_complete c (dpTable sm H c T mw k).1 T mw (c.getD (k + 1) 0)
    (decide (c.getD (k + 1) 0 = H)) (inkCost sm H (c.getD (k + 1) 0)) (k + 1) (DP_INF, -1)
    hmono p hpj ((edgeOK_iff_admits H T mw hlt).mp hok)
  rw [dpTable_getD_dp sm H c T mw (by omega : p ≤ k)] at this
  exact this

theorem dpAt_le_inf (j : Nat) : dpAt sm H c T mw j ≤ DP_INF := by
  cases j with
  | zero => rw [dpAt_zero]; norm_num [DP_INF]
  | succ k =>
    rw [dpAt_succ]
    unfold dpStep
    exact scanPrev_le_init ..

theorem dp_parent (hs : List.Sorted (· < ·) c) {j : Nat} (hj0 : 1 ≤ j) (hj : j < c.length) :
    (dpAt sm H c T mw j = DP_INF ∧ parAt sm H c T mw j = -1) ∨
      ∃ p : Nat, p < j ∧ parAt sm H c T mw j = (p : Int) ∧
        edgeOK H T mw (c.getD p 0) (c.getD j 0) ∧
        dpAt sm H c T mw j
          = fl64 (dpAt sm H c T mw p + edgeCost sm H T (c.getD p 0) (c.getD j 0)) ∧
        dpAt sm H c T mw j < DP_INF := by
  obtain ⟨k, rfl⟩ : ∃ k, j = k + 1 := ⟨j - 1, by omega⟩
  rw [dpAt_succ, parAt_succ]
  unfold dpStep
  simp only
  rcases scanPrev_sound c (dpTable sm H c T mw k).1 T mw (c.getD (k + 1) 0)
    (decide (c.getD (k + 1) 0 = H)) (inkCost sm H (c.getD (k + 1) 0)) (k + 1) (DP_INF, -1)
    with h | ⟨p, hp, ha, he, hl⟩
  · left; rw [h]; exact ⟨rfl, rfl⟩
  · right
    have hlt := sorted_getD_lt hs hp hj
    refine ⟨p, hp, ?_, (edgeOK_iff_admits H T mw hlt).mpr ha, ?_, hl⟩
    · rw [he]
    · rw [he, dpTable_getD_dp sm H c T mw (by omega : p ≤ k)]
      rfl

end Entries

/-! ## Paths -/

section Paths

variable (sm : Nat → ℚ) (H : Nat) (c : List Nat) (T : Nat) (mw : Int)

theorem accCost_snoc (P : List Nat) (a b : Nat) (acc : ℚ) (ha : P.getLast? = some a) :
    accCost sm H T (P ++ [b]) acc = fl64 (accCost sm H T P acc + edgeCost sm H T a b) := by
  induction P generalizing acc with
  | nil => simp at ha
  | cons x rest ih =>
    cases rest with
    | nil =>
      simp only [List.getLast?_singleton, Option.some.injEq] at ha
      subst ha
      simp [accCost]
    | cons y rest =>
      rw [List.getLast?_cons_cons] at ha
      have := ih (fl64 (acc + edgeCost sm H T x y)) ha
      rw [List.cons_append] at this
      change accCost sm H T (y :: (rest ++ [b])) (fl64 (acc + edgeCost sm H T x y))
        = fl64 (accCost sm H T (y :: rest) (fl64 (acc + edgeCost sm H T x y))
            + edgeCost sm H T a b)
      exact this

theorem goodPath_snoc {p j : Nat} {P : List Nat} (hj : j < c.length)
    (hP : GoodPath sm H c T mw p P)
    (hok : edgeOK H T mw (c.getD p 0) (c.getD j 0))
    (hcost : dpAt sm H c T mw j
      = fl64 (dpAt sm H c T mw p + edgeCost sm H T (c.getD p 0) (c.getD j 0))) :
    GoodPath sm H c T mw j (P ++ [c.getD j 0]) := by
  have hne : P ≠ [] := by
    intro h; have := hP.head; rw [h] at this; simp at this
  refine ⟨?_, by simp, ?_, ?_, ?_⟩
  · rw [List.head?_append_of_ne_nil _ hne]; exact hP.head
  · intro r hr
    rcases List.mem_append.mp hr with h | h
    · exact hP.mem r h
    · rw [List.mem_singleton] at h; rw [h]; exact getD_mem hj
  · rw [List.chain'_append]
    refine ⟨hP.chain, List.chain'_singleton _, ?_⟩
    intro x hx y hy
    rw [hP.last] at hx
    simp only [Option.mem_def, Option.some.injEq, List.head?_cons] at hx hy
    subst hx; subst hy
    exact hok
  · rw [accCost_snoc sm H T P _ _ 0 hP.last, hP.cost, hcost]

theorem tracePath_neg_one (par : List Int) (fuel : Nat) : tracePath c par fuel (-1) = [] := by
  cases fuel <;> simp [tracePath]

theorem tracePath_good (hs : List.Sorted (· < ·) c) (h0 : c.getD 0 0 = 0)
    (hink : ∀ b, 0 ≤ inkCost sm H b) (par : List Int)
    (hpar : ∀ i, i < c.length → par.getD i (-1) = parAt sm H c T mw i) :
    ∀ j : Nat, j < c.length → (j = 0 ∨ dpAt sm H c T mw j < DP_INF) →
      ∀ fuel : Nat, j + 1 ≤ fuel →
        GoodPath sm H c T mw j (tracePath c par fuel (j : Int)).reverse := by
  intro j
  induction j using Nat.strong_induction_on with
  | _ j ih =>
    intro hj hreach fuel hfuel
    obtain ⟨f, rfl⟩ : ∃ f, fuel = f + 1 := ⟨fuel - 1, by omega⟩
    have hstep : tracePath c par (f + 1) (j : Int)
        = c.getD j 0 :: tracePath c par f (parAt sm H c T mw j) := by
      have : ¬ ((j : Int) = -1) := by omega
      simp only [tracePath, this, if_false, Int.toNat_ofNat, hpar j hj]
    rw [hstep, List.reverse_cons]
    rcases Nat.eq_zero_or_pos j with hj0 | hj0
    · subst hj0
      rw [parAt_zero, tracePath_neg_one]
      refine ⟨by simp only [List.reverse_nil, List.nil_append, List.head?_cons, h0],
        by simp only [List.reverse_nil, List.nil_append, List.getLast?_singleton], ?_,
        by simp only [List.reverse_nil, List.nil_append, List.chain'_singleton], ?_⟩
      · intro r hr
        simp only [List.reverse_nil, List.nil_append, List.mem_singleton] at hr
        rw [hr]; exact getD_mem hj
      · simp [accCost, dpAt_zero]
    · have hlt : dpAt sm H c T mw j < DP_INF := by
        rcases hreach with h | h
        · omega
        · exact h
      rcases dp_parent sm H c T mw hs hj0 hj with ⟨h1, -⟩ | ⟨p, hp, hpar', hok, hcost, -⟩
      · rw [h1] at hlt; exact absurd hlt (lt_irrefl _)
      · rw [hpar']
        have hec : 0 ≤ edgeCost sm H T (c.getD p 0) (c.getD j 0) :=
          transCost_nonneg (hink _) (heightCost_nonneg ..)
        have hplt : dpAt sm H c T mw p < DP_INF := by
          by_contra hcon
          have h1 : DP_INF ≤ dpAt sm H c T mw p + edgeCost sm H T (c.getD p 0) (c.getD j 0) := by
            linarith [not_lt.mp hcon]
          have h2 := fl64_mono h1
          rw [fl64_DP_INF, ← hcost] at h2
          exact absurd hlt (not_lt.mpr h2)
        exact goodPath_snoc sm H c T mw hj
          (ih p hp (by omega) (Or.inr hplt) f (by omega)) hok hcost

theorem tracePath_chain (hs : List.Sorted (· < ·) c) (par : List Int)
    (hpar : ∀ i, i < c.length → par.getD i (-1) = parAt sm H c T mw i) :
    ∀ j : Nat, j < c.length → ∀ fuel : Nat, j + 1 ≤ fuel →
      (tracePath c par fuel (j : Int)).reverse.getLast? = some (c.getD j 0) ∧
        List.Chain' (edgeOK H T mw) (tracePath c par fuel (j : Int)).reverse := by
  intro j
  induction j using Nat.strong_induction_on with
  | _ j ih =>
    intro hj fuel hfuel
    obtain ⟨f, rfl⟩ : ∃ f, fuel = f + 1 := ⟨fuel - 1, by omega⟩
    have hstep : tracePath c par (f + 1) (j : Int)
        = c.getD j 0 :: tracePath c par f (parAt sm H c T mw j) := by
      have : ¬ ((j : Int) = -1) := by omega
      simp only [tracePath, this, if_false, Int.toNat_ofNat, hpar j hj]
    rw [hstep, List.reverse_cons]
    refine ⟨List.getLast?_concat _, ?_⟩
    have hsingle : parAt sm H c T mw j = -1 →
        List.Chain' (edgeOK H T mw)
          ((tracePath c par f (parAt sm H c T mw j)).reverse ++ [c.getD j 0]) := by
      intro h
      rw [h, tracePath_neg_one]
      exact List.chain'_singleton _
    rcases Nat.eq_zero_or_pos j with hj0 | hj0
    · subst hj0
      exact hsingle (parAt_zero sm H c T mw)
    · rcases dp_parent sm H c T mw hs hj0 hj with ⟨-, h⟩ | ⟨q, hq, hpq, hok, -, -⟩
      · exact hsingle h
      · rw [hpq]
        obtain ⟨hl, hch⟩ := ih q hq (by omega) f (by omega)
        rw [List.chain'_append]
        refine ⟨hch, List.chain'_singleton _, ?_⟩
        intro x hx y hy
        rw [hl] at hx
        simp only [Option.mem_def, Option.some.injEq, List.head?_cons] at hx hy
        subst hx; subst hy
        exact hok

theorem getD_inj_of_sorted {c : List Nat} (hs : List.Sorted (· < ·) c) {i j : Nat}
    (hi : i < c.length) (hj : j < c.length) (h : c.getD i 0 = c.getD j 0) : i = j := by
  rcases Nat.lt_trichotomy i j with h1 | h1 | h1
  · have := sorted_getD_lt hs h1 hj; omega
  · exact h1
  · have := sorted_getD_lt hs h1 hi; omega

theorem exists_index {c : List Nat} {x : Nat} (hx : x ∈ c) :
    ∃ k, k < c.length ∧ c.getD k 0 = x := by
  obtain ⟨k, hk, hkx⟩ := List.getElem_of_mem hx
  exact ⟨k, hk, by rw [List.getD_eq_getElem c 0 hk, hkx]⟩

theorem dpAt_le_path (hs : List.Sorted (· < ·) c) (P : List Nat) :
    ∀ (i j : Nat) (acc : ℚ), i < c.length → j < c.length → (∀ r ∈ P, r ∈ c) →
      List.Chain' (edgeOK H T mw) P → P.head? = some (c.getD i 0) →
      P.getLast? = some (c.getD j 0) → dpAt sm H c T mw i ≤ acc →
      dpAt sm H c T mw j ≤ accCost sm H T P acc := by
  induction P with
  | nil => intro i j acc _ _ _ _ hh; simp at hh
  | cons a rest ih =>
    intro i j acc hi hj hmem hch hh hl hacc
    simp only [List.head?_cons, Option.some.injEq] at hh
    cases rest with
    | nil =>
      simp only [List.getLast?_singleton, Option.some.injEq] at hl
      have : i = j := getD_inj_of_sorted hs hi hj (by rw [← hh, ← hl])
      subst this
      simpa [accCost] using hacc
    | cons b rest =>
      rw [List.getLast?_cons_cons] at hl
      obtain ⟨k, hk, hkb⟩ := exists_index (hmem b (by simp))
      have hab : edgeOK H T mw a b := (List.chain'_cons.mp hch).1
      have hik : i < k := by
        by_contra hcon
        have hlt : a < b := hab.1
        rcases Nat.eq_or_lt_of_le (not_lt.mp hcon) with h | h
        · subst h; omega
        · have := sorted_getD_lt hs h hi; omega
      have h1 := dpAt_le_edge sm H c T mw hs hik hk (by rw [hkb, ← hh]; exact hab)
      rw [hkb, ← hh] at h1
      have h3 : dpAt sm H c T mw k ≤ fl64 (acc + edgeCost sm H T a b) :=
        le_trans h1 (fl64_mono (by linarith))
      exact ih k j _ hk hj (fun r hr => hmem r (List.mem_cons_of_mem _ hr))
        (List.chain'_cons.mp hch).2 (by rw [hkb]; rfl) hl h3

end Paths

/-! ## The fallback grid -/

theorem fallbackFill_lt (H T : Nat) (fuel p : Nat) : ∀ r ∈ fallbackFill H T fuel p, r < H := by
  induction fuel generalizing p with
  | zero => simp [fallbackFill]
  | succ f ih =>
    intro r hr
    simp only [fallbackFill] at hr
    split_ifs at hr with h
    · rcases List.mem_cons.mp hr with h1 | h1
      · omega
      · exact ih _ r h1
    · simp at hr

theorem ceilDiv_le_iff (H T k : Nat) (hT : 1 ≤ T) : (H + T - 1) / T ≤ k ↔ H ≤ k * T := by
  rw [Nat.div_le_iff_le_mul_add_pred (by omega), Nat.mul_comm T k]
  omega

theorem fallbackFill_eq (H T : Nat) (hT : 1 ≤ T) (fuel k : Nat) (hf : H ≤ (k + fuel) * T) :
    fallbackFill H T fuel (k * T)
      = (List.range' k ((H + T - 1) / T - k)).map (fun i => i * T) := by
  induction fuel generalizing k with
  | zero =>
    have : (H + T - 1) / T ≤ k := (ceilDiv_le_iff H T k hT).mpr (by simpa using hf)
    simp [fallbackFill, Nat.sub_eq_zero_of_le this]
  | succ f ih =>
    simp only [fallbackFill]
    split_ifs with h
    · have hk : k < (H + T - 1) / T := by
        by_contra hcon
        have := (ceilDiv_le_iff H T k hT).mp (not_lt.mp hcon)
        omega
      obtain ⟨d, hd⟩ : ∃ d, (H + T - 1) / T - k = d + 1 := ⟨(H + T - 1) / T - k - 1, by omega⟩
      have hstep : k * T + T = (k + 1) * T := by ring
      have hfuel : H ≤ (k + 1 + f) * T := by
        have h1 : k + 1 + f = k + (f + 1) := by omega
        rw [h1]
        exact hf
      have hd' : (H + T - 1) / T - (k + 1) = d := by omega
      rw [hstep, ih (k + 1) hfuel, hd, hd', List.range'_succ, List.map_cons]
    · have : (H + T - 1) / T ≤ k := (ceilDiv_le_iff H T k hT).mpr (by omega)
      simp [Nat.sub_eq_zero_of_le this]

theorem fallbackCuts_eq (H T : Nat) (hH : 1 ≤ H) (hT : 1 ≤ T) :
    fallbackCuts H T = uniformGrid H T := by
  have hfill : fallbackFill H T H 0
      = (List.range ((H + T - 1) / T)).map (fun i => i * T) := by
    have := fallbackFill_eq H T hT H 0 (by nlinarith)
    simpa [List.range_eq_range'] using this
  have hne : fallbackFill H T H 0 ≠ [] := by
    obtain ⟨h, rfl⟩ : ∃ h, H = h + 1 := ⟨H - 1, by omega⟩
    simp [fallbackFill]
  have hlen : 1 ≤ (fallbackFill H T H 0).length := by
    rcases Nat.eq_zero_or_pos (fallbackFill H T H 0).length with h | h
    · exact absurd (List.length_eq_zero.mp h) hne
    · exact h
  have hlast : (fallbackFill H T H 0 ++ [H]).getD
      ((fallbackFill H T H 0 ++ [H]).length - 1) 0 = H := by
    rw [List.getD_append_right _ _ _ _ (by simp)]
    simp
  have hprev : (fallbackFill H T H 0 ++ [H]).getD
      ((fallbackFill H T H 0 ++ [H]).length - 2) 0 < H := by
    rw [List.getD_append _ _ _ _ (by simp; omega)]
    rw [List.getD_eq_getElem _ 0 (by simp; omega)]
    exact fallbackFill_lt H T H 0 _ (List.getElem_mem _)
  unfold fallbackCuts
  simp only
  rw [hlast, if_neg (by omega), if_neg (lt_irrefl H)]
  unfold uniformGrid
  rw [hfill]

theorem uniformGrid_valid (H T : Nat) (hH : 1 ≤ H) (hT : 1 ≤ T) :
    List.Sorted (· < ·) (uniformGrid H T) ∧ (uniformGrid H T).head? = some 0 ∧
      (uniformGrid H T).getLast? = some H ∧ 2 ≤ (uniformGrid H T).length := by
  have hm : 1 ≤ (H + T - 1) / T := by
    by_contra hcon
    have := (ceilDiv_le_iff H T 0 hT).mp (by omega)
    omega
  obtain ⟨d, hd⟩ : ∃ d, (H + T - 1) / T = d + 1 := ⟨(H + T - 1) / T - 1, by omega⟩
  unfold uniformGrid
  refine ⟨?_, ?_, by simp, by simp; omega⟩
  · unfold List.Sorted
    rw [List.pairwise_append]
    refine ⟨?_, List.pairwise_singleton _ _, ?_⟩
    · rw [List.pairwise_map]
      refine List.Pairwise.imp ?_ (List.pairwise_lt_range _)
      intro a b hab
      exact Nat.mul_lt_mul_of_pos_right hab (by omega)
    · intro a ha b hb
      rw [List.mem_singleton] at hb
      subst hb
      obtain ⟨i, hi, rfl⟩ := List.mem_map.mp ha
      rw [List.mem_range] at hi
      by_contra hcon
      have := (ceilDiv_le_iff b T i hT).mpr (not_lt.mp hcon)
      omega
  · rw [hd, List.range_succ_eq_map]
    simp

/-! ## The two branches of `find_optimal_cuts_dp` -/

section Branches

variable (p : Nat → ℚ) (H T : Nat) (wf : ℚ) (m : Int) (mode : CutMode) (snap rad : Int)
  (thr : ℚ)

theorem find_optimal_cuts_dp_fallback
    (h : DP_UNREACHABLE ≤ terminalCost p H T wf m mode snap rad thr) :
    find_optimal_cuts_dp p H T wf m mode snap rad thr = fallbackCuts H T := by
  unfold find_optimal_cuts_dp
  unfold terminalCost at h
  simp only at h ⊢
  rw [if_pos h]

theorem find_optimal_cuts_dp_path (hH : 1 ≤ H) (hp : ∀ i, i < H → 0 ≤ p i)
    (h : terminalCost p H T wf m mode snap rad thr < DP_UNREACHABLE) :
    GoodPath (smoothed p H) H (candidates p H T m mode snap rad thr) T (maxWindow T wf)
      ((candidates p H T m mode snap rad thr).length - 1)
      (find_optimal_cuts_dp p H T wf m mode snap rad thr) := by
  have hshape := candidates_shape p H T m mode snap rad thr hH
  have hn := hshape.two
  unfold find_optimal_cuts_dp
  unfold terminalCost at h
  simp only at h ⊢
  rw [if_neg (not_le.mpr h)]
  have hcast : ((candidates p H T m mode snap rad thr).length : Int) - 1
      = (((candidates p H T m mode snap rad thr).length - 1 : Nat) : Int) := by omega
  rw [hcast]
  refine tracePath_good (smoothed p H) H _ T (maxWindow T wf) hshape.sorted hshape.first
    (inkCost_nonneg _ H (fun r _ => smoothed_nonneg p H hp r)) _ ?_ _ (by omega) ?_ _ (by omega)
  · intro i hi
    exact dpTable_getD_par _ _ _ _ _ (by omega)
  · right
    have : (100000000 : ℚ) < 1000000000 := by norm_num
    exact lt_trans h (by simpa [DP_UNREACHABLE, DP_INF] using this)

theorem find_optimal_cuts_dp_chain (hH : 1 ≤ H)
    (h : terminalCost p H T wf m mode snap rad thr < DP_UNREACHABLE) :
    (find_optimal_cuts_dp p H T wf m mode snap rad thr).getLast? = some H ∧
      List.Chain' (edgeOK H T (maxWindow T wf))
        (find_optimal_cuts_dp p H T wf m mode snap rad thr) := by
  have hshape := candidates_shape p H T m mode snap rad thr hH
  have hn := hshape.two
  unfold find_optimal_cuts_dp
  unfold terminalCost at h
  simp only at h ⊢
  rw [if_neg (not_le.mpr h)]
  have hcast : ((candidates p H T m mode snap rad thr).length : Int) - 1
      = (((candidates p H T m mode snap rad thr).length - 1 : Nat) : Int) := by omega
  rw [hcast]
  have := tracePath_chain (smoothed p H) H _ T (maxWindow T wf) hshape.sorted
    (dpTable (smoothed p H) H (candidates p H T m mode snap rad thr) T (maxWindow T wf)
      ((candidates p H T m mode snap rad thr).length - 1)).2
    (fun i hi => dpTable_getD_par _ _ _ _ _ (by omega))
    ((candidates p H T m mode snap rad thr).length - 1) (by omega)
    (candidates p H T m mode snap rad thr).length (by omega)
  rw [hshape.last] at this
  exact this

end Branches

/-! ## The costs of the optimizer are the specified costs evaluated in doubles -/

theorem flSum_concat (l : List ℚ) (v : ℚ) : flSum (l ++ [v]) = fl64 (flSum l + v) := by
  unfold flSum
  rw [List.foldl_append]
  rfl

theorem boxSum_eq_flSum (a : Nat → ℚ) (s n : Nat) :
    boxSum a s n = flSum ((List.range' s n).map a) := by
  induction n with
  | zero => rfl
  | succ n ih =>
    simp only [boxSum]
    rw [List.range'_concat, List.map_append, List.map_singleton, flSum_concat, ih, Nat.one_mul]

theorem windowRows_length (H i r : Nat) :
    (windowRows H i r).length = min (H - 1) (i + r) + 1 - (i - r) := by
  unfold windowRows
  rw [List.length_range']

theorem windowRows_mem {H i r k : Nat} (hH : 1 ≤ H) (hk : k ∈ windowRows H i r) :
    k < H ∧ i - r ≤ k ∧ k ≤ i + r := by
  unfold windowRows at hk
  rw [List.mem_range'_1] at hk
  omega

theorem smoothed_eq_rounded (p : Nat → ℚ) (H i : Nat) (hi : i < H) :
    smoothed p H i = roundedSmoothed p H i := by
  have hcount : min H (i + 10 + 1) - (i - 10) = min (H - 1) (i + 10) + 1 - (i - 10) := by omega
  have hpos : min H (i + 10 + 1) - (i - 10) > 0 := by omega
  unfold smoothed roundedSmoothed smooth_radius
  simp only
  rw [if_pos hpos, boxSum_eq_flSum, windowRows_length, hcount]
  rfl

theorem inkCost_eq_rounded (p : Nat → ℚ) (H b : Nat) (hb : b < H) :
    inkCost (smoothed p H) H b = roundedInkCost p H b := by
  have hcount : min H (b + 3) - (b - 2) = min (H - 1) (b + 2) + 1 - (b - 2) := by omega
  have hpos : min H (b + 3) > b - 2 := by omega
  have hmap : (windowRows H b 2).map (smoothed p H)
      = (windowRows H b 2).map (roundedSmoothed p H) := by
    refine List.map_congr_left ?_
    intro k hk
    exact smoothed_eq_rounded p H k (windowRows_mem (by omega) hk).1
  unfold inkCost roundedInkCost
  simp only
  rw [if_pos hb, if_pos hpos, boxSum_eq_flSum, windowRows_length, ← hmap, hcount]
  rfl

theorem heightCost_eq_rounded (H T a b : Nat) :
    heightCost T (decide (b = H)) ((b : Int) - (a : Int)) = roundedHeightCost H T a b := by
  unfold heightCost roundedHeightCost
  by_cases h : b = H
  · simp [h]
  · simp only [h, decide_False, Bool.false_eq_true, if_false]
    push_cast
    rfl

theorem transCost_fl64 (x y : ℚ) : transCost (fl64 x) (fl64 y) = fl64 (fl64 x + fl64 y) := by
  unfold transCost
  rw [fl64_one_mul, fl64_one_mul]

theorem transCost_zero : transCost 0 0 = 0 := by
  unfold transCost
  simp [fl64_zero]

theorem inkCost_fixed (sm : Nat → ℚ) (H b : Nat) : ∃ x, inkCost sm H b = fl64 x := by
  unfold inkCost
  simp only
  split_ifs
  · exact ⟨_, rfl⟩
  · exact ⟨0, fl64_zero.symm⟩
  · exact ⟨0, fl64_zero.symm⟩

theorem heightCost_fixed (T : Nat) (l : Bool) (dh : Int) : ∃ y, heightCost T l dh = fl64 y := by
  unfold heightCost
  split_ifs
  · exact ⟨0, fl64_zero.symm⟩
  · exact ⟨_, rfl⟩

/-- The `trans_cost` of an edge is the rounded sum of its ink cost and its height cost: the
two products by the weights 1.0 are exact. -/
theorem edgeCost_eq_sum (sm : Nat → ℚ) (H T a b : Nat) :
    edgeCost sm H T a b
      = fl64 (inkCost sm H b + heightCost T (decide (b = H)) ((b : Int) - (a : Int))) := by
  obtain ⟨x, hx⟩ := inkCost_fixed sm H b
  obtain ⟨y, hy⟩ := heightCost_fixed T (decide (b = H)) ((b : Int) - (a : Int))
  unfold edgeCost
  rw [hx, hy, transCost_fl64]

theorem edgeCost_eq_rounded (p : Nat → ℚ) (H T a b : Nat) (hb : b < H) :
    edgeCost (smoothed p H) H T a b = roundedEdgeCost p H T a b := by
  rw [edgeCost_eq_sum, inkCost_eq_rounded p H b hb, heightCost_eq_rounded]
  rfl

theorem edgeCost_terminal (sm : Nat → ℚ) (H T a : Nat) : edgeCost sm H T a H = 0 := by
  rw [edgeCost_eq_sum]
  unfold inkCost heightCost
  simp [fl64_zero]

theorem accCost_eq_rounded (p : Nat → ℚ) (H T : Nat) (P : List Nat) (acc : ℚ)
    (h : ∀ b ∈ P.tail, b < H) :
    accCost (smoothed p H) H T P acc = roundedPathCostFrom p H T P acc := by
  induction P generalizing acc with
  | nil => rfl
  | cons a rest ih =>
    cases rest with
    | nil => rfl
    | cons b rest =>
      have hb : b < H := h b (by simp)
      simp only [accCost, roundedPathCostFrom]
      rw [edgeCost_eq_rounded p H T a b hb]
      exact ih _ (fun c hc => h c (by simp only [List.tail_cons] at hc ⊢; exact List.mem_cons_of_mem _ hc))

theorem roundedPathCostFrom_snoc (p : Nat → ℚ) (H T : Nat) (P : List Nat) (a b : Nat) (acc : ℚ)
    (ha : P.getLast? = some a) :
    roundedPathCostFrom p H T (P ++ [b]) acc
      = fl64 (roundedPathCostFrom p H T P acc + roundedEdgeCost p H T a b) := by
  induction P generalizing acc with
  | nil => simp at ha
  | cons x rest ih =>
    cases rest with
    | nil =>
      simp only [List.getLast?_singleton, Option.some.injEq] at ha
      subst ha
      simp [roundedPathCostFrom]
    | cons y rest =>
      rw [List.getLast?_cons_cons] at ha
      have := ih (fl64 (acc + roundedEdgeCost p H T x y)) ha
      rw [List.cons_append] at this
      change roundedPathCostFrom p H T (y :: (rest ++ [b]))
          (fl64 (acc + roundedEdgeCost p H T x y))
        = fl64 (roundedPathCostFrom p H T (y :: rest) (fl64 (acc + roundedEdgeCost p H T x y))
            + roundedEdgeCost p H T a b)
      exact this

theorem accCost_fixed (sm : Nat → ℚ) (H T : Nat) (P : List Nat) (acc : ℚ)
    (hacc : fl64 acc = acc) : fl64 (accCost sm H T P acc) = accCost sm H T P acc := by
  induction P generalizing acc with
  | nil => exact hacc
  | cons a rest ih =>
    cases rest with
    | nil => exact hacc
    | cons b rest =>
      simp only [accCost]
      exact ih _ (fl64_idem _)

theorem roundedEdgeCost_terminal (p : Nat → ℚ) (H T a a' : Nat) :
    roundedEdgeCost p H T a H = roundedEdgeCost p H T a' H := by
  unfold roundedEdgeCost roundedHeightCost
  simp

/-- A candidate path with admitted edges ending at `H`, split at its terminal edge: the
cost of the specification evaluated in doubles is obtained from the cost accumulated by the
optimizer before the terminal edge by one rounded addition of the terminal edge cost, and
the cost accumulated by the optimizer over the whole path is the cost before the terminal
edge. -/
theorem path_costs_split (p : Nat → ℚ) (H T : Nat) (mw : Int) (P : List Nat)
    (hH : 1 ≤ H) (h0 : P.head? = some 0) (hl : P.getLast? = some H)
    (hch : List.Chain' (edgeOK H T mw) P) :
    ∃ A : ℚ, accCost (smoothed p H) H T P 0 = A ∧
      roundedPathCost p H T P = fl64 (A + roundedEdgeCost p H T 0 H) := by
  have hsorted : List.Sorted (· < ·) P :=
    List.chain'_iff_pairwise.mp (hch.imp (fun _ _ hab => hab.1))
  have hne : P ≠ [] := by
    intro h; rw [h] at h0; simp at h0
  have hlast : P.getLast hne = H := by
    rw [List.getLast?_eq_getLast _ hne] at hl
    exact Option.some.inj hl
  have hsplit : P = P.dropLast ++ [H] := by
    rw [← hlast]; exact (List.dropLast_append_getLast hne).symm
  have hne' : P.dropLast ≠ [] := by
    intro h
    rw [h] at hsplit
    rw [hsplit] at h0
    simp only [List.nil_append, List.head?_cons, Option.some.injEq] at h0
    omega
  obtain ⟨a, ha⟩ : ∃ a, P.dropLast.getLast? = some a :=
    ⟨P.dropLast.getLast hne', List.getLast?_eq_getLast _ hne'⟩
  have hlt : ∀ b ∈ P.dropLast, b < H := by
    intro b hb
    rw [hsplit] at hsorted
    have := List.pairwise_append.mp hsorted
    exact this.2.2 b hb H (by simp)
  have hacc : accCost (smoothed p H) H T P.dropLast 0
      = roundedPathCostFrom p H T P.dropLast 0 :=
    accCost_eq_rounded p H T _ 0 (fun b hb => hlt b (List.mem_of_mem_tail hb))
  refine ⟨accCost (smoothed p H) H T P.dropLast 0, ?_, ?_⟩
  · conv_lhs => rw [hsplit]
    rw [accCost_snoc _ H T _ a H 0 ha, edgeCost_terminal, add_zero]
    exact accCost_fixed _ H T _ 0 fl64_zero
  · unfold roundedPathCost
    conv_lhs => rw [hsplit]
    rw [roundedPathCostFrom_snoc p H T _ a H 0 ha, ← hacc,
      roundedEdgeCost_terminal p H T a 0]

/-! ## Distance between the costs evaluated in doubles and the exact costs -/

theorem pow2_27 : pow2 27 = 134217728 := by
  rw [pow2_eq]; norm_num

theorem pow2_five : pow2 5 = 32 := by
  rw [pow2_eq]; norm_num

theorem pow2_one : pow2 1 = 2 := by
  rw [pow2_eq]; norm_num

theorem lt_pow2_of_fl64_lt {x : ℚ} {k : Int} (hk : -1074 ≤ k) (h : fl64 x < pow2 k) :
    x < pow2 k := by
  by_contra hcon
  have h1 := fl64_mono (not_lt.mp hcon)
  rw [fl64_exact 1 k (by simp) (by norm_num) hk] at h1
  exact absurd h (not_lt.mpr h1)

/-- Rounded sum of at most 21 values of [0,1]: each addition stays below 32 and errs by at
most `2^-49`. -/
theorem flSum_unit (l : List ℚ) (hl : l.length ≤ 21) (h : ∀ v ∈ l, 0 ≤ v ∧ v ≤ 1) :
    0 ≤ flSum l ∧ flSum l ≤ (l.length : ℚ) ∧
      |flSum l - l.sum| ≤ (l.length : ℚ) * pow2 (-49) := by
  induction l using List.reverseRecOn with
  | nil => simp [flSum]
  | append_singleton l a ih =>
    rw [List.length_append, List.length_singleton] at hl
    obtain ⟨h0, h1, h2⟩ := ih (by omega) (fun v hv => h v (List.mem_append_left _ hv))
    obtain ⟨h3, h4⟩ := h a (by simp)
    have hx0 : 0 ≤ flSum l + a := add_nonneg h0 h3
    have hx1 : flSum l + a ≤ ((l.length + 1 : Nat) : ℚ) := by push_cast; linarith
    have hx2 : flSum l + a < pow2 5 := by
      rw [pow2_five]
      have : ((l.length + 1 : Nat) : ℚ) ≤ 21 := by exact_mod_cast hl
      linarith
    have herr := fl64_err_abs 5 hx0 hx2 (by omega)
    rw [flSum_concat, List.length_append, List.length_singleton, List.sum_append,
      List.sum_singleton]
    refine ⟨fl64_nonneg hx0, ?_, ?_⟩
    · have := fl64_mono hx1
      rwa [fl64_natCast _ (by omega)] at this
    · have e : fl64 (flSum l + a) - (l.sum + a)
          = (fl64 (flSum l + a) - (flSum l + a)) + (flSum l - l.sum) := by ring
      rw [e]
      calc |(fl64 (flSum l + a) - (flSum l + a)) + (flSum l - l.sum)|
          ≤ |fl64 (flSum l + a) - (flSum l + a)| + |flSum l - l.sum| := abs_add _ _
        _ ≤ pow2 (5 - 54) + (l.length : ℚ) * pow2 (-49) := add_le_add herr h2
        _ = ((l.length + 1 : Nat) : ℚ) * pow2 (-49) := by push_cast; ring

theorem pow2_m48 : pow2 (-49) + pow2 (-53) ≤ pow2 (-48) := by
  have h1 : pow2 (-48) = 2 * pow2 (-49) := by
    rw [← pow2_succ]; congr 1
  have h2 : pow2 (-53) ≤ pow2 (-49) := pow2_le_pow2 (by omega)
  linarith

/-- Rounded mean of at most 21 values of [0,1]: it lies in [0,1], within `2^-48` of the
exact mean. -/
theorem flMean_unit (l : List ℚ) (hl : l.length ≤ 21) (h : ∀ v ∈ l, 0 ≤ v ∧ v ≤ 1) :
    0 ≤ fl64 (flSum l / (l.length : ℚ)) ∧ fl64 (flSum l / (l.length : ℚ)) ≤ 1 ∧
      |fl64 (flSum l / (l.length : ℚ)) - l.sum / (l.length : ℚ)| ≤ pow2 (-48) := by
  obtain ⟨b0, b1, b2⟩ := flSum_unit l hl h
  rcases Nat.eq_zero_or_pos l.length with hz | hpos
  · have hnil : l = [] := List.length_eq_zero.mp hz
    subst hnil
    simp [flSum, fl64_zero, (pow2_pos (-48)).le]
  · have hq : (0 : ℚ) < (l.length : ℚ) := by exact_mod_cast hpos
    have hq0 : 0 ≤ flSum l / (l.length : ℚ) := div_nonneg b0 hq.le
    have hq1 : flSum l / (l.length : ℚ) ≤ 1 := by
      rw [div_le_one hq]; exact b1
    have hq2 : flSum l / (l.length : ℚ) < pow2 1 := by
      rw [pow2_one]; linarith
    have herr := fl64_err_abs 1 hq0 hq2 (by omega)
    have hdiv : |flSum l / (l.length : ℚ) - l.sum / (l.length : ℚ)| ≤ pow2 (-49) := by
      rw [← sub_div, abs_div, abs_of_pos hq, div_le_iff₀ hq]
      linarith [mul_comm (pow2 (-49)) (l.length : ℚ)]
    refine ⟨fl64_nonneg hq0, ?_, ?_⟩
    · have := fl64_mono hq1
      rwa [fl64_one] at this
    · have e : fl64 (flSum l / (l.length : ℚ)) - l.sum / (l.length : ℚ)
          = (fl64 (flSum l / (l.length : ℚ)) - flSum l / (l.length : ℚ))
            + (flSum l / (l.length : ℚ) - l.sum / (l.length : ℚ)) := by ring
      rw [e]
      calc |(fl64 (flSum l / (l.length : ℚ)) - flSum l / (l.length : ℚ))
              + (flSum l / (l.length : ℚ) - l.sum / (l.length : ℚ))|
          ≤ |fl64 (flSum l / (l.length : ℚ)) - flSum l / (l.length : ℚ)|
              + |flSum l / (l.length : ℚ) - l.sum / (l.length : ℚ)| := abs_add _ _
        _ ≤ pow2 (1 - 54) + pow2 (-49) := add_le_add herr hdiv
        _ ≤ pow2 (-48) := by
          have := pow2_m48
          have h53 : pow2 (1 - 54) = pow2 (-53) := by congr 1
          rw [h53]; linarith

theorem windowRows_length_le (H i r : Nat) : (windowRows H i r).length ≤ 2 * r + 1 := by
  rw [windowRows_length]; omega

theorem roundedSmoothed_unit (p : Nat → ℚ) (H i : Nat) (hH : 1 ≤ H)
    (hp : ∀ k, k < H → 0 ≤ p k ∧ p k ≤ 1) :
    0 ≤ roundedSmoothed p H i ∧ roundedSmoothed p H i ≤ 1 ∧
      |roundedSmoothed p H i - specSmoothed p H i| ≤ pow2 (-48) := by
  have h := flMean_unit ((windowRows H i 10).map p)
    (by rw [List.length_map]; have := windowRows_length_le H i 10; omega)
    (by
      intro v hv
      obtain ⟨k, hk, rfl⟩ := List.mem_map.mp hv
      exact hp k (windowRows_mem hH hk).1)
  rw [List.length_map] at h
  exact h

theorem sum_map_sub_le (l : List Nat) (f g : Nat → ℚ) (e : ℚ)
    (h : ∀ k ∈ l, |f k - g k| ≤ e) :
    |(l.map f).sum - (l.map g).sum| ≤ (l.length : ℚ) * e := by
  induction l with
  | nil => simp
  | cons a l ih =>
    have h1 := h a (by simp)
    have h2 := ih (fun k hk => h k (List.mem_cons_of_mem _ hk))
    simp only [List.map_cons, List.sum_cons, List.length_cons]
    have e1 : f a + (l.map f).sum - (g a + (l.map g).sum)
        = (f a - g a) + ((l.map f).sum - (l.map g).sum) := by ring
    rw [e1]
    calc |(f a - g a) + ((l.map f).sum - (l.map g).sum)|
        ≤ |f a - g a| + |(l.map f).sum - (l.map g).sum| := abs_add _ _
      _ ≤ e + (l.length : ℚ) * e := add_le_add h1 h2
      _ = ((l.length + 1 : Nat) : ℚ) * e := by push_cast; ring

theorem pow2_m47 : pow2 (-48) + pow2 (-48) = pow2 (-47) := by
  have : pow2 (-47) = 2 * pow2 (-48) := by
    rw [← pow2_succ]; congr 1
  linarith

theorem roundedInkCost_unit (p : Nat → ℚ) (H b : Nat) (hH : 1 ≤ H)
    (hp : ∀ k, k < H → 0 ≤ p k ∧ p k ≤ 1) :
    0 ≤ roundedInkCost p H b ∧ roundedInkCost p H b ≤ 1 ∧
      |roundedInkCost p H b - specInkCost p H b| ≤ pow2 (-47) := by
  have hlen : ((windowRows H b 2).map (roundedSmoothed p H)).length ≤ 21 := by
    rw [List.length_map]; have := windowRows_length_le H b 2; omega
  obtain ⟨h0, h1, h2⟩ := flMean_unit ((windowRows H b 2).map (roundedSmoothed p H)) hlen
    (by
      intro v hv
      obtain ⟨k, -, rfl⟩ := List.mem_map.mp hv
      exact ⟨(roundedSmoothed_unit p H k hH hp).1, (roundedSmoothed_unit p H k hH hp).2.1⟩)
  rw [List.length_map] at h2 h1 h0
  refine ⟨h0, h1, ?_⟩
  have hs := sum_map_sub_le (windowRows H b 2) (roundedSmoothed p H) (specSmoothed p H)
    (pow2 (-48)) (fun k _ => (roundedSmoothed_unit p H k hH hp).2.2)
  have hmean : |((windowRows H b 2).map (roundedSmoothed p H)).sum
        / ((windowRows H b 2).length : ℚ)
      - ((windowRows H b 2).map (specSmoothed p H)).sum / ((windowRows H b 2).length : ℚ)|
      ≤ pow2 (-48) := by
    rcases Nat.eq_zero_or_pos (windowRows H b 2).length with hz | hpos
    · have hnil : windowRows H b 2 = [] := List.length_eq_zero.mp hz
      rw [hnil]; simp [(pow2_pos (-48)).le]
    · have hq : (0 : ℚ) < ((windowRows H b 2).length : ℚ) := by exact_mod_cast hpos
      rw [← sub_div, abs_div, abs_of_pos hq, div_le_iff₀ hq]
      linarith [mul_comm (pow2 (-48)) ((windowRows H b 2).length : ℚ)]
  unfold roundedInkCost specInkCost at *
  have e : fl64 (flSum ((windowRows H b 2).map (roundedSmoothed p H))
          / ((windowRows H b 2).length : ℚ))
        - ((windowRows H b 2).map (specSmoothed p H)).sum / ((windowRows H b 2).length : ℚ)
      = (fl64 (flSum ((windowRows H b 2).map (roundedSmoothed p H))
          / ((windowRows H b 2).length : ℚ))
          - ((windowRows H b 2).map (roundedSmoothed p H)).sum
            / ((windowRows H b 2).length : ℚ))
        + (((windowRows H b 2).map (roundedSmoothed p H)).sum
            / ((windowRows H b 2).length : ℚ)
          - ((windowRows H b 2).map (specSmoothed p H)).sum
            / ((windowRows H b 2).length : ℚ)) := by ring
  rw [e, ← pow2_m47]
  exact le_trans (abs_add _ _) (add_le_add h2 hmean)

theorem specHeightCost_nonneg (H T a b : Nat) : 0 ≤ specHeightCost H T a b := by
  unfold specHeightCost
  split_ifs
  · exact le_rfl
  · exact div_nonneg (abs_nonneg _) (Nat.cast_nonneg _)

theorem roundedHeightCost_eq (H T a b : Nat) :
    roundedHeightCost H T a b = fl64 (specHeightCost H T a b) := by
  unfold roundedHeightCost specHeightCost
  split_ifs
  · exact fl64_zero.symm
  · rfl

theorem roundedEdgeCost_nonneg (p : Nat → ℚ) (H T a b : Nat) (hH : 1 ≤ H)
    (hp : ∀ k, k < H → 0 ≤ p k ∧ p k ≤ 1) : 0 ≤ roundedEdgeCost p H T a b := by
  unfold roundedEdgeCost
  refine fl64_nonneg (add_nonneg (roundedInkCost_unit p H b hH hp).1 ?_)
  rw [roundedHeightCost_eq]
  exact fl64_nonneg (specHeightCost_nonneg H T a b)

theorem pow2_m25 : 3 * pow2 (-27) + pow2 (-47) ≤ pow2 (-25) := by
  have h1 : pow2 (-25) = 4 * pow2 (-27) := by
    have a : pow2 (-25) = 2 * pow2 (-26) := by rw [← pow2_succ]; congr 1
    have b : pow2 (-26) = 2 * pow2 (-27) := by rw [← pow2_succ]; congr 1
    linarith
  have h2 : pow2 (-47) ≤ pow2 (-27) := pow2_le_pow2 (by omega)
  linarith

/-- One step of the accumulation: while the accumulated cost stays below `2^27`, the rounded
step differs from the exact step by at most `2^-25`. -/
theorem rounded_step (p : Nat → ℚ) (H T a b : Nat) (hH : 1 ≤ H)
    (hp : ∀ k, k < H → 0 ≤ p k ∧ p k ≤ 1) (acc eacc : ℚ) (hacc : 0 ≤ acc)
    (hlt : fl64 (acc + roundedEdgeCost p H T a b) < pow2 27) :
    |fl64 (acc + roundedEdgeCost p H T a b) - (eacc + specEdgeCost p H T a b)|
      ≤ |acc - eacc| + pow2 (-25) := by
  obtain ⟨i0, -, i2⟩ := roundedInkCost_unit p H b hH hp
  have hh0 := specHeightCost_nonneg H T a b
  have hr0 : 0 ≤ roundedHeightCost H T a b := by
    rw [roundedHeightCost_eq]; exact fl64_nonneg hh0
  have hc0 := roundedEdgeCost_nonneg p H T a b hH hp
  have hx : acc + roundedEdgeCost p H T a b < pow2 27 := lt_pow2_of_fl64_lt (by omega) hlt
  have hc : roundedEdgeCost p H T a b < pow2 27 := by linarith
  have hy : roundedInkCost p H b + roundedHeightCost H T a b < pow2 27 :=
    lt_pow2_of_fl64_lt (by omega) hc
  have hr : roundedHeightCost H T a b < pow2 27 := by linarith
  have hh : specHeightCost H T a b < pow2 27 := by
    rw [roundedHeightCost_eq] at hr
    exact lt_pow2_of_fl64_lt (by omega) hr
  have e1 := fl64_err_abs 27 (add_nonneg hacc hc0) hx (by omega)
  have e2 : |roundedEdgeCost p H T a b
      - (roundedInkCost p H b + roundedHeightCost H T a b)| ≤ pow2 (27 - 54) :=
    fl64_err_abs 27 (add_nonneg i0 hr0) hy (by omega)
  have e3 : |roundedHeightCost H T a b - specHeightCost H T a b| ≤ pow2 (27 - 54) := by
    rw [roundedHeightCost_eq]
    exact fl64_err_abs 27 hh0 hh (by omega)
  have h27 : pow2 (27 - 54) = pow2 (-27) := by congr 1
  rw [h27] at e1 e2 e3
  have hsplit : fl64 (acc + roundedEdgeCost p H T a b) - (eacc + specEdgeCost p H T a b)
      = (fl64 (acc + roundedEdgeCost p H T a b) - (acc + roundedEdgeCost p H T a b))
        + (acc - eacc)
        + (roundedEdgeCost p H T a b - (roundedInkCost p H b + roundedHeightCost H T a b))
        + (roundedInkCost p H b - specInkCost p H b)
        + (roundedHeightCost H T a b - specHeightCost H T a b) := by
    unfold specEdgeCost; ring
  rw [hsplit]
  have t1 := abs_add
    ((fl64 (acc + roundedEdgeCost p H T a b) - (acc + roundedEdgeCost p H T a b))
        + (acc - eacc)
        + (roundedEdgeCost p H T a b - (roundedInkCost p H b + roundedHeightCost H T a b))
        + (roundedInkCost p H b - specInkCost p H b))
    (roundedHeightCost H T a b - specHeightCost H T a b)
  have t2 := abs_add
    ((fl64 (acc + roundedEdgeCost p H T a b) - (acc + roundedEdgeCost p H T a b))
        + (acc - eacc)
        + (roundedEdgeCost p H T a b - (roundedInkCost p H b + roundedHeightCost H T a b)))
    (roundedInkCost p H b - specInkCost p H b)
  have t3 := abs_add
    ((fl64 (acc + roundedEdgeCost p H T a b) - (acc + roundedEdgeCost p H T a b))
        + (acc - eacc))
    (roundedEdgeCost p H T a b - (roundedInkCost p H b + roundedHeightCost H T a b))
  have t4 := abs_add
    (fl64 (acc + roundedEdgeCost p H T a b) - (acc + roundedEdgeCost p H T a b))
    (acc - eacc)
  have := pow2_m25
  linarith

theorem le_roundedPathCostFrom (p : Nat → ℚ) (H T : Nat) (hH : 1 ≤ H)
    (hp : ∀ k, k < H → 0 ≤ p k ∧ p k ≤ 1) (P : List Nat) :
    ∀ acc : ℚ, 0 ≤ acc → fl64 acc = acc → acc ≤ roundedPathCostFrom p H T P acc := by
  induction P with
  | nil => intro acc _ _; exact le_rfl
  | cons a rest ih =>
    intro acc h0 hfix
    cases rest with
    | nil => exact le_rfl
    | cons b rest =>
      simp only [roundedPathCostFrom]
      have hc0 := roundedEdgeCost_nonneg p H T a b hH hp
      have h1 : acc ≤ fl64 (acc + roundedEdgeCost p H T a b) := by
        have := fl64_mono (by linarith : acc ≤ acc + roundedEdgeCost p H T a b)
        rwa [hfix] at this
      exact le_trans h1 (ih _ (le_trans h0 h1) (fl64_idem _))

/-- While the cost evaluated in doubles stays below `2^27`, it differs from the exact cost
by at most `2^-25` per edge. -/
theorem roundedPathCostFrom_near (p : Nat → ℚ) (H T : Nat) (hH : 1 ≤ H)
    (hp : ∀ k, k < H → 0 ≤ p k ∧ p k ≤ 1) (P : List Nat) :
    ∀ acc eacc : ℚ, 0 ≤ acc → fl64 acc = acc → roundedPathCostFrom p H T P acc < pow2 27 →
      |roundedPathCostFrom p H T P acc - (eacc + specPathCost p H T P)|
        ≤ |acc - eacc| + ((P.length - 1 : Nat) : ℚ) * pow2 (-25) := by
  induction P with
  | nil => intro acc eacc _ _ _; simp [roundedPathCostFrom, specPathCost]
  | cons a rest ih =>
    intro acc eacc h0 hfix hlt
    cases rest with
    | nil => simp [roundedPathCostFrom, specPathCost]
    | cons b rest =>
      simp only [roundedPathCostFrom, specPathCost] at hlt ⊢
      have hc0 := roundedEdgeCost_nonneg p H T a b hH hp
      have hacc0 : 0 ≤ fl64 (acc + roundedEdgeCost p H T a b) :=
        fl64_nonneg (add_nonneg h0 hc0)
      have hlt' : fl64 (acc + roundedEdgeCost p H T a b) < pow2 27 :=
        lt_of_le_of_lt (le_roundedPathCostFrom p H T hH hp (b :: rest) _ hacc0 (fl64_idem _))
          hlt
      have hstep := rounded_step p H T a b hH hp acc eacc h0 hlt'
      have hrest := ih (fl64 (acc + roundedEdgeCost p H T a b))
        (eacc + specEdgeCost p H T a b) hacc0 (fl64_idem _) hlt
      have hlen : (((a :: b :: rest).length - 1 : Nat) : ℚ)
          = (((b :: rest).length - 1 : Nat) : ℚ) + 1 := by
        simp only [List.length_cons, Nat.add_sub_cancel]
        push_cast; ring
      rw [hlen]
      have e : eacc + (specEdgeCost p H T a b + specPathCost p H T (b :: rest))
          = eacc + specEdgeCost p H T a b + specPathCost p H T (b :: rest) := by ring
      rw [e]
      have := (pow2_pos (-25)).le
      linarith

theorem roundedPathCost_near (p : Nat → ℚ) (H T : Nat) (hH : 1 ≤ H)
    (hp : ∀ k, k < H → 0 ≤ p k ∧ p k ≤ 1) (P : List Nat)
    (hlt : roundedPathCost p H T P < pow2 27) :
    |roundedPathCost p H T P - specPathCost p H T P|
      ≤ ((P.length - 1 : Nat) : ℚ) * pow2 (-25) := by
  have := roundedPathCostFrom_near p H T hH hp P 0 0 le_rfl fl64_zero hlt
  simpa [roundedPathCost] using this

/-! ## Results on `find_optimal_cuts_dp` -/

theorem two_le_length_of_ends {l : List Nat} {H : Nat} (hH : 1 ≤ H) (h0 : l.head? = some 0)
    (h1 : l.getLast? = some H) : 2 ≤ l.length := by
  match l, h0, h1 with
  | [a], h0, h1 =>
    simp only [List.head?_cons, Option.some.injEq, List.getLast?_singleton] at h0 h1
    omega
  | a :: b :: r, _, _ => simp

theorem goodPath_sorted {sm : Nat → ℚ} {H : Nat} {c : List Nat} {T : Nat} {mw : Int} {j : Nat}
    {P : List Nat} (h : GoodPath sm H c T mw j P) : List.Sorted (· < ·) P :=
  List.chain'_iff_pairwise.mp (h.chain.imp (fun _ _ hab => hab.1))

/-- C1. For every height >= 1, target_height_px >= 1 and every profile with non-negative
values on the rows `0 .. height-1` (in particular every profile with values in [0,1]), for
every window_frac, min_gap_rows, cut mode, snap_px, unsafe_window_radius and
unsafe_ink_threshold, the cut list returned by `find_optimal_cuts_dp` (from the DP path or
from the fallback) is strictly increasing, starts with 0, ends with height and has at least
two elements. -/
theorem find_optimal_cuts_dp_valid (p : Nat → ℚ) (H T : Nat) (wf : ℚ) (m : Int)
    (mode : CutMode) (snap rad : Int) (thr : ℚ) (hH : 1 ≤ H) (hT : 1 ≤ T)
    (hp : ∀ i, i < H → 0 ≤ p i) :
    List.Sorted (· < ·) (find_optimal_cuts_dp p H T wf m mode snap rad thr) ∧
      (find_optimal_cuts_dp p H T wf m mode snap rad thr).head? = some 0 ∧
      (find_optimal_cuts_dp p H T wf m mode snap rad thr).getLast? = some H ∧
      2 ≤ (find_optimal_cuts_dp p H T wf m mode snap rad thr).length := by
  by_cases h : DP_UNREACHABLE ≤ terminalCost p H T wf m mode snap rad thr
  · rw [find_optimal_cuts_dp_fallback p H T wf m mode snap rad thr h,
      fallbackCuts_eq H T hH hT]
    exact uniformGrid_valid H T hH hT
  · have hg := find_optimal_cuts_dp_path p H T wf m mode snap rad thr hH hp (not_le.mp h)
    have hlast := hg.last
    rw [(candidates_shape p H T m mode snap rad thr hH).last] at hlast
    exact ⟨goodPath_sorted hg, hg.head, hlast, two_le_length_of_ends hH hg.head hlast⟩

/-- C1, instance: a 100-row profile with one ink spike, target height 50. -/
theorem find_optimal_cuts_dp_valid_witness :
    (1 ≤ 100 ∧ 1 ≤ 50 ∧ ∀ i, i < 100 → (0 : ℚ) ≤ (spikeProfile 50 1) i) ∧
    (List.Sorted (· < ·) (find_optimal_cuts_dp (spikeProfile 50 1) 100 50
        (1 / 25) 12 CutMode.CUT_MODE_FIXED_HEIGHT_SNAP 40 2 (3 / 10)) ∧
      (find_optimal_cuts_dp (spikeProfile 50 1) 100 50
        (1 / 25) 12 CutMode.CUT_MODE_FIXED_HEIGHT_SNAP 40 2 (3 / 10)).head? = some 0 ∧
      (find_optimal_cuts_dp (spikeProfile 50 1) 100 50
        (1 / 25) 12 CutMode.CUT_MODE_FIXED_HEIGHT_SNAP 40 2 (3 / 10)).getLast? = some 100 ∧
      2 ≤ (find_optimal_cuts_dp (spikeProfile 50 1) 100 50
        (1 / 25) 12 CutMode.CUT_MODE_FIXED_HEIGHT_SNAP 40 2 (3 / 10)).length) :=
  have hp : ∀ i, i < 100 → (0 : ℚ) ≤ (spikeProfile 50 1) i := by
    intro i _
    by_cases h : i = 50 <;> simp [spikeProfile, h]
  ⟨⟨by decide, by decide, hp⟩,
    find_optimal_cuts_dp_valid _ 100 50 (1 / 25) 12 CutMode.CUT_MODE_FIXED_HEIGHT_SNAP 40 2
      (3 / 10) (by decide) (by decide) hp⟩

/-- C5. For every height >= 1 and target_height_px >= 1, whenever the terminal entry
`dp[n-1]` is left at `1e8` or above (in particular when the terminal candidate is
unreachable and keeps the sentinel `1e9`), `find_optimal_cuts_dp` returns exactly the uniform
grid: the multiples of target_height_px strictly below height, in order, followed by
height. -/
theorem find_optimal_cuts_dp_fallback_grid (p : Nat → ℚ) (H T : Nat) (wf : ℚ) (m : Int)
    (mode : CutMode) (snap rad : Int) (thr : ℚ) (hH : 1 ≤ H) (hT : 1 ≤ T)
    (h : DP_UNREACHABLE ≤ terminalCost p H T wf m mode snap rad thr) :
    find_optimal_cuts_dp p H T wf m mode snap rad thr = uniformGrid H T := by
  rw [find_optimal_cuts_dp_fallback p H T wf m mode snap rad thr h, fallbackCuts_eq H T hH hT]


/-! ## The window `max_window` -/

theorem maxWindow_eq_floor (T : Nat) (wf : ℚ) (hwf : 0 ≤ wf) :
    maxWindow T wf = ⌊fl64 ((T : ℚ) * wf)⌋ ∧ 0 ≤ maxWindow T wf := by
  have h : (0 : ℚ) ≤ fl64 ((T : ℚ) * wf) := fl64_nonneg (mul_nonneg (Nat.cast_nonneg _) hwf)
  unfold maxWindow cTrunc
  rw [if_pos h]
  exact ⟨rfl, Int.floor_nonneg.mpr h⟩

theorem pow2_neg_lt_one {k : Int} (hk : k < 0) : pow2 k < 1 := by
  rw [← pow2_zero]; exact pow2_lt_pow2 hk

theorem maxWindow_le_rel (T : Nat) (wf : ℚ) (hwf : 0 ≤ wf) :
    ((maxWindow T wf : Int) : ℚ) ≤ (T : ℚ) * wf * (1 + pow2 (-53)) := by
  have hx : (0 : ℚ) ≤ (T : ℚ) * wf := mul_nonneg (Nat.cast_nonneg _) hwf
  rw [(maxWindow_eq_floor T wf hwf).1]
  have hfl := Int.floor_le (fl64 ((T : ℚ) * wf))
  rcases le_or_lt (pow2 (-1022)) ((T : ℚ) * wf) with h | h
  · have := (abs_le.mp (fl64_err_rel h)).2
    linarith
  · have h1 : fl64 ((T : ℚ) * wf) ≤ pow2 (-1022) := by
      have hfix : fl64 (pow2 (-1022)) = pow2 (-1022) :=
        fl64_exact 1 (-1022) (by simp) (by norm_num) (by omega)
      have := fl64_mono h.le
      rwa [hfix] at this
    have h2 : fl64 ((T : ℚ) * wf) < 1 := lt_of_le_of_lt h1 (pow2_neg_lt_one (by omega))
    have h3 : ⌊fl64 ((T : ℚ) * wf)⌋ ≤ 0 := by
      have : ⌊fl64 ((T : ℚ) * wf)⌋ < 1 := Int.floor_lt.mpr (by exact_mod_cast h2)
      omega
    have h4 : ((⌊fl64 ((T : ℚ) * wf)⌋ : Int) : ℚ) ≤ 0 := by exact_mod_cast h3
    have h5 : (0 : ℚ) ≤ (T : ℚ) * wf * (1 + pow2 (-53)) :=
      mul_nonneg hx (by linarith [(pow2_pos (-53)).le])
    linarith

theorem maxWindow_le_of_exact (T : Nat) (wf : ℚ) (hwf : 0 ≤ wf)
    (h : fl64 ((T : ℚ) * wf) = (T : ℚ) * wf) : ((maxWindow T wf : Int) : ℚ) ≤ (T : ℚ) * wf := by
  rw [(maxWindow_eq_floor T wf hwf).1, h]
  exact Int.floor_le _

theorem maxWindow_between (T : Nat) (wf : ℚ) (hwf : 0 ≤ wf) (hx : (T : ℚ) * wf < 2 ^ 31) :
    ⌊(T : ℚ) * wf⌋ ≤ maxWindow T wf ∧ maxWindow T wf ≤ ⌈(T : ℚ) * wf⌉ := by
  have h0 : (0 : ℚ) ≤ (T : ℚ) * wf := mul_nonneg (Nat.cast_nonneg _) hwf
  rw [(maxWindow_eq_floor T wf hwf).1]
  have hf0 : 0 ≤ ⌊(T : ℚ) * wf⌋ := Int.floor_nonneg.mpr h0
  have hf1 : ((⌊(T : ℚ) * wf⌋ : Int) : ℚ) ≤ (T : ℚ) * wf := Int.floor_le _
  have hc1 : (T : ℚ) * wf ≤ ((⌈(T : ℚ) * wf⌉ : Int) : ℚ) := Int.le_ceil _
  have hc2 : ⌈(T : ℚ) * wf⌉ ≤ 2 ^ 31 := by
    rw [Int.ceil_le]; push_cast; exact hx.le
  have hc0 : 0 ≤ ⌈(T : ℚ) * wf⌉ := Int.ceil_nonneg h0
  have hf2 : ⌊(T : ℚ) * wf⌋ < 2 ^ 31 := by
    rw [Int.floor_lt]; push_cast; exact hx
  constructor
  · rw [Int.le_floor]
    have := fl64_mono hf1
    rwa [fl64_intCast _ (by rw [abs_of_nonneg hf0]; omega)] at this
  · have := fl64_mono hc1
    rw [fl64_intCast _ (by rw [abs_of_nonneg hc0]; omega)] at this
    have h2 : ((⌊fl64 ((T : ℚ) * wf)⌋ : Int) : ℚ) ≤ ((⌈(T : ℚ) * wf⌉ : Int) : ℚ) :=
      le_trans (Int.floor_le _) this
    exact_mod_cast h2

/-! ## Window sums without rounding -/

theorem pow2_neg_one : pow2 (-1) = 1 / 2 := by
  rw [pow2_eq]; norm_num

theorem boxSum_half (p : Nat → ℚ) (hp : ∀ k, p k = 0 ∨ p k = 1 / 2 ∨ p k = 1) (s n : Nat)
    (hn : n ≤ 2 ^ 50) :
    boxSum p s n = exactBoxSum p s n ∧
      ∃ m : Nat, m ≤ 2 * n ∧ exactBoxSum p s n = (m : ℚ) / 2 := by
  induction n with
  | zero => exact ⟨rfl, 0, by omega, by simp [exactBoxSum]⟩
  | succ n ih =>
    obtain ⟨h1, m, hm, h2⟩ := ih (by omega)
    obtain ⟨d, hd, hpd⟩ : ∃ d : Nat, d ≤ 2 ∧ p (s + n) = (d : ℚ) / 2 := by
      rcases hp (s + n) with h | h | h
      · exact ⟨0, by omega, by rw [h]; simp⟩
      · exact ⟨1, by omega, by rw [h]; simp⟩
      · exact ⟨2, by omega, by rw [h]; norm_num⟩
    have hsum : exactBoxSum p s (n + 1) = ((m + d : Nat) : ℚ) / 2 := by
      simp only [exactBoxSum]
      rw [h2, hpd]; push_cast; ring
    refine ⟨?_, m + d, by omega, hsum⟩
    simp only [boxSum]
    rw [h1, ← exactBoxSum.eq_2 p s n, hsum]
    refine fl64_exact ((m + d : Nat) : Int) (-1) ?_ ?_ (by omega)
    · rw [pow2_neg_one]; push_cast; ring
    · rw [Int.cast_natCast, abs_of_nonneg (Nat.cast_nonneg _)]
      have : m + d ≤ 2 ^ 53 := by omega
      exact_mod_cast this

theorem smoothed_half (p : Nat → ℚ) (hp : ∀ k, p k = 0 ∨ p k = 1 / 2 ∨ p k = 1) (H : Nat) :
    smoothed p H = smoothedOfExactSum p H := by
  funext i
  unfold smoothed smoothedOfExactSum smooth_radius
  simp only
  have hn : min H (i + 10 + 1) - (i - 10) ≤ 2 ^ 50 := by
    have : min H (i + 10 + 1) - (i - 10) ≤ 21 := by omega
    have h2 : (21 : Nat) ≤ 2 ^ 50 := by norm_num
    omega
  rw [(boxSum_half p hp _ _ hn).1]

/-- The constant `gap_thresh` is the double nearest to 1/100. -/
theorem gap_thresh_eq : gap_thresh = fl64 (1 / 100) := by decide!

/-! ## Evaluation of the optimizer on the example profiles -/

theorem gapProfile_half (lo hi : Nat) (k : Nat) :
    gapProfile lo hi k = 0 ∨ gapProfile lo hi k = 1 / 2 ∨ gapProfile lo hi k = 1 := by
  unfold gapProfile
  split_ifs
  · exact Or.inl rfl
  · exact Or.inr (Or.inr rfl)

theorem spikeProfile_half (row : Nat) (k : Nat) :
    spikeProfile row 1 k = 0 ∨ spikeProfile row 1 k = 1 / 2 ∨ spikeProfile row 1 k = 1 := by
  unfold spikeProfile
  split_ifs
  · exact Or.inr (Or.inr rfl)
  · exact Or.inl rfl

theorem allInkProfile_half (k : Nat) :
    allInkProfile k = 0 ∨ allInkProfile k = 1 / 2 ∨ allInkProfile k = 1 :=
  Or.inr (Or.inr rfl)

theorem whitespaceRunProfile_half (k : Nat) :
    whitespaceRunProfile k = 0 ∨ whitespaceRunProfile k = 1 / 2 ∨ whitespaceRunProfile k = 1 := by
  unfold whitespaceRunProfile
  split_ifs
  · exact Or.inl rfl
  · exact Or.inr (Or.inl rfl)

theorem gapProfile_candidates :
    candidates (gapProfile 64 77) 170 100 12 CutMode.CUT_MODE_WHITESPACE 40 2 (3 / 10)
      = [0, 66, 70, 170] := by
  unfold candidates rawCandidates
  rw [smoothed_half _ (gapProfile_half 64 77)]
  decide!

theorem gapProfile_terminal :
    terminalCost (gapProfile 64 77) 170 100 (fl64 (3 / 10)) 12 CutMode.CUT_MODE_WHITESPACE
      40 2 (3 / 10) < DP_UNREACHABLE := by
  unfold terminalCost
  simp only [gapProfile_candidates]
  rw [smoothed_half _ (gapProfile_half 64 77)]
  decide!

theorem gapProfile_cuts :
    find_optimal_cuts_dp (gapProfile 64 77) 170 100 (fl64 (3 / 10)) 12
      CutMode.CUT_MODE_WHITESPACE 40 2 (3 / 10) = [0, 70, 170] := by
  unfold find_optimal_cuts_dp
  simp only [gapProfile_candidates]
  rw [smoothed_half _ (gapProfile_half 64 77)]
  decide!

theorem nearTieProfile_nonneg (i : Nat) : 0 ≤ nearTieProfile i := by
  unfold nearTieProfile
  split_ifs <;> norm_num

theorem nearTieProfile_le_one (i : Nat) : nearTieProfile i ≤ 1 := by
  unfold nearTieProfile
  split_ifs <;> norm_num

theorem nearTie_candidates :
    candidates nearTieProfile 120 60 1 CutMode.CUT_MODE_WHITESPACE 40 2 (3 / 10)
      = [0, 51, 59, 61, 120] := by
  decide!

theorem nearTie_terminal :
    terminalCost nearTieProfile 120 60 (1 / 4) 1 CutMode.CUT_MODE_WHITESPACE 40 2 (3 / 10)
      < DP_UNREACHABLE := by
  unfold terminalCost
  simp only [nearTie_candidates]
  decide!

theorem nearTie_cuts :
    find_optimal_cuts_dp nearTieProfile 120 60 (1 / 4) 1 CutMode.CUT_MODE_WHITESPACE 40 2
      (3 / 10) = [0, 61, 120] := by
  unfold find_optimal_cuts_dp
  simp only [nearTie_candidates]
  decide!

theorem spike_candidates :
    candidates (spikeProfile 50 1) 100 50 12 CutMode.CUT_MODE_FIXED_HEIGHT_SNAP 40 2 (3 / 10)
      = 0 :: (List.range' 10 81 ++ [100]) := by
  unfold candidates rawCandidates
  rw [smoothed_half _ (spikeProfile_half 50)]
  decide!

theorem spike_terminal :
    terminalCost (spikeProfile 50 1) 100 50 (1 / 25) 12 CutMode.CUT_MODE_FIXED_HEIGHT_SNAP
      40 2 (3 / 10) < DP_UNREACHABLE := by
  unfold terminalCost
  simp only [spike_candidates]
  rw [smoothed_half _ (spikeProfile_half 50)]
  decide!

theorem spike_cuts :
    find_optimal_cuts_dp (spikeProfile 50 1) 100 50 (1 / 25) 12
      CutMode.CUT_MODE_FIXED_HEIGHT_SNAP 40 2 (3 / 10) = [0, 50, 100] := by
  unfold find_optimal_cuts_dp
  simp only [spike_candidates]
  rw [smoothed_half _ (spikeProfile_half 50)]
  decide!

theorem whitespaceRun_candidates :
    candidates whitespaceRunProfile 1000 500 12 CutMode.CUT_MODE_WHITESPACE 40 2 (3 / 10)
      = [0, 200, 499, 500, 600, 800, 1000] := by
  unfold candidates rawCandidates
  rw [smoothed_half _ whitespaceRunProfile_half]
  decide!

theorem whitespaceRun_cuts :
    find_optimal_cuts_dp whitespaceRunProfile 1000 500 (1 / 25) 12
      CutMode.CUT_MODE_WHITESPACE 40 2 (3 / 10) = [0, 500, 1000] := by
  unfold find_optimal_cuts_dp
  simp only [whitespaceRun_candidates]
  rw [smoothed_half _ whitespaceRunProfile_half]
  decide!

theorem spikeProfile_nonneg (row : Nat) (v : ℚ) (hv : 0 ≤ v) (i : Nat) :
    0 ≤ spikeProfile row v i := by
  unfold spikeProfile
  split_ifs
  · exact hv
  · exact le_rfl

/-- C5, instance: the all-ink profile of height 10 with target height 3 and window 0 falls
back to the grid. -/
theorem find_optimal_cuts_dp_fallback_grid_witness :
    (1 ≤ 10 ∧ 1 ≤ 3 ∧
      DP_UNREACHABLE ≤ terminalCost allInkProfile 10 3 0 12 CutMode.CUT_MODE_WHITESPACE
        40 2 (3 / 10)) ∧
    find_optimal_cuts_dp allInkProfile 10 3 0 12 CutMode.CUT_MODE_WHITESPACE 40 2 (3 / 10)
      = uniformGrid 10 3 :=
  ⟨⟨by decide, by decide, by decide!⟩,
    find_optimal_cuts_dp_fallback_grid allInkProfile 10 3 0 12 CutMode.CUT_MODE_WHITESPACE
      40 2 (3 / 10) (by decide) (by decide) (by decide!)⟩


/-! ## Optimality of the DP path -/

/-- C2, the claim fails in exact arithmetic: on the profile of height 120 with density 1/2
everywhere except 0 on the rows 59 and 61 and `1/2 + 2^-53` on row 72 (all values are
doubles in [0,1]), with target height 60, window_frac 1/4 and min_gap_rows 1, the optimizer
takes the DP path and returns `[0, 61, 120]`, although `[0, 59, 120]` is a candidate path
with admitted edges whose total summed edge cost, in exact arithmetic, is strictly
smaller. -/
theorem find_optimal_cuts_dp_not_exactly_optimal :
    (∀ i, fl64 (nearTieProfile i) = nearTieProfile i ∧ 0 ≤ nearTieProfile i ∧
      nearTieProfile i ≤ 1) ∧
    terminalCost nearTieProfile 120 60 (1 / 4) 1 CutMode.CUT_MODE_WHITESPACE 40 2 (3 / 10)
      < DP_UNREACHABLE ∧
    find_optimal_cuts_dp nearTieProfile 120 60 (1 / 4) 1 CutMode.CUT_MODE_WHITESPACE 40 2
      (3 / 10) = [0, 61, 120] ∧
    AdmissiblePath (candidates nearTieProfile 120 60 1 CutMode.CUT_MODE_WHITESPACE 40 2
      (3 / 10)) 120 60 (maxWindow 60 (1 / 4)) [0, 59, 120] ∧
    specPathCost nearTieProfile 120 60 [0, 59, 120]
      < specPathCost nearTieProfile 120 60 [0, 61, 120] := by
  refine ⟨?_, nearTie_terminal, nearTie_cuts, ?_, by decide!⟩
  · intro i
    unfold nearTieProfile
    split_ifs
    · exact ⟨fl64_zero, le_rfl, by norm_num⟩
    · exact ⟨by decide!, by norm_num, by norm_num⟩
    · exact ⟨by decide!, by norm_num, by norm_num⟩
  · rw [nearTie_candidates]
    refine ⟨rfl, rfl, by decide, ?_⟩
    have hmw : maxWindow 60 (1 / 4) = 15 := by decide!
    rw [hmw]
    refine List.Chain'.cons ?_ (List.Chain'.cons ?_ (List.chain'_singleton _))
    · exact ⟨by decide, by decide⟩
    · exact ⟨by decide, by decide⟩

/-- On the DP path the returned cut sequence is a candidate path with admitted edges and
minimises the specified cost evaluated in doubles. -/
theorem find_optimal_cuts_dp_rounded_min (p : Nat → ℚ) (H T : Nat) (wf : ℚ) (m : Int)
    (mode : CutMode) (snap rad : Int) (thr : ℚ) (hH : 1 ≤ H) (hp : ∀ i, i < H → 0 ≤ p i)
    (hdp : terminalCost p H T wf m mode snap rad thr < DP_UNREACHABLE) :
    AdmissiblePath (candidates p H T m mode snap rad thr) H T (maxWindow T wf)
        (find_optimal_cuts_dp p H T wf m mode snap rad thr) ∧
      ∀ P : List Nat,
        AdmissiblePath (candidates p H T m mode snap rad thr) H T (maxWindow T wf) P →
        roundedPathCost p H T (find_optimal_cuts_dp p H T wf m mode snap rad thr)
          ≤ roundedPathCost p H T P := by
  have hshape := candidates_shape p H T m mode snap rad thr hH
  have hg := find_optimal_cuts_dp_path p H T wf m mode snap rad thr hH hp hdp
  have hlast := hg.last
  rw [hshape.last] at hlast
  refine ⟨⟨hg.head, hlast, hg.mem, hg.chain⟩, ?_⟩
  rintro P ⟨hP0, hPH, hPmem, hPch⟩
  have hn := hshape.two
  have hle := dpAt_le_path (smoothed p H) H _ T (maxWindow T wf) hshape.sorted P 0
    ((candidates p H T m mode snap rad thr).length - 1) 0 (by omega) (by omega) hPmem hPch
    (by rw [hshape.first]; exact hP0) (by rw [hshape.last]; exact hPH)
    (by rw [dpAt_zero])
  rw [← hg.cost] at hle
  obtain ⟨A, hA1, hA2⟩ := path_costs_split p H T (maxWindow T wf) _ hH hg.head hlast hg.chain
  obtain ⟨B, hB1, hB2⟩ := path_costs_split p H T (maxWindow T wf) P hH hP0 hPH hPch
  rw [hA1, hB1] at hle
  rw [hA2, hB2]
  exact fl64_mono (by linarith)

theorem DP_UNREACHABLE_lt : DP_UNREACHABLE < pow2 27 := by
  rw [pow2_27]; norm_num [DP_UNREACHABLE]

/-- C2, amended. Whenever `find_optimal_cuts_dp` returns the DP path (the terminal entry
`dp[n-1]` is below `1e8`) on a profile with non-negative values, the returned cut sequence
is itself a candidate path with admitted edges from 0 to height (non-terminal edge:
`|dh - target| <= max_window`; terminal edge: `dh >= 50` and `dh <= target + max_window`),
and it minimises, over all such candidate paths, the total summed edge cost of the
specification (mean smoothed density over the clipped window of radius 2 around the landing
row plus height cost, both with weight 1) as evaluated in double arithmetic: every sum and
quotient rounded to the nearest double, in the order of the specification.  When the profile
has values in [0,1], the total cost of the returned sequence in exact arithmetic exceeds
that of a candidate path with admitted edges whose cost evaluated in doubles is below `1e8`
by at most `2^-25` times the number of cuts of the two paths. -/
theorem find_optimal_cuts_dp_optimal_rounded (p : Nat → ℚ) (H T : Nat) (wf : ℚ) (m : Int)
    (mode : CutMode) (snap rad : Int) (thr : ℚ) (hH : 1 ≤ H) (hp : ∀ i, i < H → 0 ≤ p i)
    (hdp : terminalCost p H T wf m mode snap rad thr < DP_UNREACHABLE) :
    AdmissiblePath (candidates p H T m mode snap rad thr) H T (maxWindow T wf)
        (find_optimal_cuts_dp p H T wf m mode snap rad thr) ∧
      (∀ P : List Nat,
        AdmissiblePath (candidates p H T m mode snap rad thr) H T (maxWindow T wf) P →
        roundedPathCost p H T (find_optimal_cuts_dp p H T wf m mode snap rad thr)
          ≤ roundedPathCost p H T P) ∧
      ((∀ i, i < H → p i ≤ 1) → ∀ P : List Nat,
        AdmissiblePath (candidates p H T m mode snap rad thr) H T (maxWindow T wf) P →
        roundedPathCost p H T P < DP_UNREACHABLE →
        specPathCost p H T (find_optimal_cuts_dp p H T wf m mode snap rad thr)
          ≤ specPathCost p H T P
            + (((find_optimal_cuts_dp p H T wf m mode snap rad thr).length + P.length : Nat)
                : ℚ) * pow2 (-25)) := by
  obtain ⟨hadm, hmin⟩ := find_optimal_cuts_dp_rounded_min p H T wf m mode snap rad thr hH hp hdp
  refine ⟨hadm, hmin, ?_⟩
  intro hle1 P hP hPlt
  have hp01 : ∀ k, k < H → 0 ≤ p k ∧ p k ≤ 1 := fun k hk => ⟨hp k hk, hle1 k hk⟩
  have hRP := hmin P hP
  generalize find_optimal_cuts_dp p H T wf m mode snap rad thr = R at hRP ⊢
  have hP27 : roundedPathCost p H T P < pow2 27 := lt_trans hPlt DP_UNREACHABLE_lt
  have hR27 : roundedPathCost p H T R < pow2 27 := lt_of_le_of_lt hRP hP27
  obtain ⟨r1, -⟩ := abs_le.mp (roundedPathCost_near p H T hH hp01 R hR27)
  obtain ⟨-, q2⟩ := abs_le.mp (roundedPathCost_near p H T hH hp01 P hP27)
  have hpos := (pow2_pos (-25)).le
  have c1 : ((R.length - 1 : Nat) : ℚ) ≤ (R.length : ℚ) := by
    exact_mod_cast Nat.sub_le _ _
  have c2 : ((P.length - 1 : Nat) : ℚ) ≤ (P.length : ℚ) := by
    exact_mod_cast Nat.sub_le _ _
  have d1 := mul_le_mul_of_nonneg_right c1 hpos
  have d2 := mul_le_mul_of_nonneg_right c2 hpos
  push_cast
  linarith

/-- C2, amended, instance: the near-tie profile of height 120, target height 60. -/
theorem find_optimal_cuts_dp_optimal_rounded_witness :
    (1 ≤ 120 ∧ (∀ i, i < 120 → 0 ≤ nearTieProfile i) ∧
      terminalCost nearTieProfile 120 60 (1 / 4) 1 CutMode.CUT_MODE_WHITESPACE 40 2 (3 / 10)
        < DP_UNREACHABLE ∧ ∀ i, i < 120 → nearTieProfile i ≤ 1) ∧
    (AdmissiblePath (candidates nearTieProfile 120 60 1 CutMode.CUT_MODE_WHITESPACE 40 2
          (3 / 10)) 120 60 (maxWindow 60 (1 / 4))
        (find_optimal_cuts_dp nearTieProfile 120 60 (1 / 4) 1 CutMode.CUT_MODE_WHITESPACE 40 2
          (3 / 10)) ∧
      (∀ P : List Nat,
        AdmissiblePath (candidates nearTieProfile 120 60 1 CutMode.CUT_MODE_WHITESPACE 40 2
          (3 / 10)) 120 60 (maxWindow 60 (1 / 4)) P →
        roundedPathCost nearTieProfile 120 60
            (find_optimal_cuts_dp nearTieProfile 120 60 (1 / 4) 1 CutMode.CUT_MODE_WHITESPACE
              40 2 (3 / 10))
          ≤ roundedPathCost nearTieProfile 120 60 P) ∧
      ((∀ i, i < 120 → nearTieProfile i ≤ 1) → ∀ P : List Nat,
        AdmissiblePath (candidates nearTieProfile 120 60 1 CutMode.CUT_MODE_WHITESPACE 40 2
          (3 / 10)) 120 60 (maxWindow 60 (1 / 4)) P →
        roundedPathCost nearTieProfile 120 60 P < DP_UNREACHABLE →
        specPathCost nearTieProfile 120 60
            (find_optimal_cuts_dp nearTieProfile 120 60 (1 / 4) 1 CutMode.CUT_MODE_WHITESPACE
              40 2 (3 / 10))
          ≤ specPathCost nearTieProfile 120 60 P
            + (((find_optimal_cuts_dp nearTieProfile 120 60 (1 / 4) 1
                CutMode.CUT_MODE_WHITESPACE 40 2 (3 / 10)).length + P.length : Nat) : ℚ)
              * pow2 (-25))) :=
  ⟨⟨by decide, fun i _ => nearTieProfile_nonneg i, nearTie_terminal,
      fun i _ => nearTieProfile_le_one i⟩,
    find_optimal_cuts_dp_optimal_rounded nearTieProfile 120 60 (1 / 4) 1
      CutMode.CUT_MODE_WHITESPACE 40 2 (3 / 10) (by decide)
      (fun i _ => nearTieProfile_nonneg i) nearTie_terminal⟩

/-! ## Page heights on the DP path -/

/-- C10, the claim fails for the product taken exactly: window_frac is the double nearest
to 0.3 and target_height_px = 100, so `target_height_px * window_frac` is just below 30, but
its double is 30 and `max_window = 30`.  On the profile of height 170 that is solid ink
except for the clean rows 64 .. 76 the optimizer takes the DP path and returns
`[0, 70, 170]`, whose first page has `|dh - target| = 30 > target_height_px * window_frac`. -/
theorem page_height_exceeds_exact_window :
    fl64 (3 / 10) = 5404319552844595 / 18014398509481984 ∧
    maxWindow 100 (fl64 (3 / 10)) = 30 ∧
    terminalCost (gapProfile 64 77) 170 100 (fl64 (3 / 10)) 12 CutMode.CUT_MODE_WHITESPACE
      40 2 (3 / 10) < DP_UNREACHABLE ∧
    find_optimal_cuts_dp (gapProfile 64 77) 170 100 (fl64 (3 / 10)) 12
      CutMode.CUT_MODE_WHITESPACE 40 2 (3 / 10) = [0, 70, 170] ∧
    ((100 : Nat) : ℚ) * fl64 (3 / 10) < ((|(70 : Int) - 0 - 100| : Int) : ℚ) :=
  ⟨by decide!, by decide!, gapProfile_terminal, gapProfile_cuts, by decide!⟩

/-- C10, amended. Whenever `find_optimal_cuts_dp` returns the DP path (the terminal entry
`dp[n-1]` is below `1e8`; any profile), every page of the result except the last has a
height `dh` with `|dh - target_height_px| <= max_window`, and the last page ends at height
and is at least 50 rows tall.  Here `max_window` is the integer
`(int)(target_height_px * window_frac)` of the code, the product being rounded to a double
before the truncation: for window_frac >= 0 it is at most
`target_height_px * window_frac * (1 + 2^-53)`, at most
`target_height_px * window_frac` when that product is a double, and at least
`floor(target_height_px * window_frac)` when the product is below `2^31`. -/
theorem find_optimal_cuts_dp_page_window (p : Nat → ℚ) (H T : Nat) (wf : ℚ) (m : Int)
    (mode : CutMode) (snap rad : Int) (thr : ℚ) (hH : 1 ≤ H) (hwf : 0 ≤ wf)
    (hdp : terminalCost p H T wf m mode snap rad thr < DP_UNREACHABLE)
    (i : Nat) (hi : i + 1 < (find_optimal_cuts_dp p H T wf m mode snap rad thr).length) :
    (i + 2 < (find_optimal_cuts_dp p H T wf m mode snap rad thr).length →
        |((find_optimal_cuts_dp p H T wf m mode snap rad thr).getD (i + 1) 0 : Int)
            - ((find_optimal_cuts_dp p H T wf m mode snap rad thr).getD i 0 : Int)
            - (T : Int)| ≤ maxWindow T wf) ∧
      (i + 2 = (find_optimal_cuts_dp p H T wf m mode snap rad thr).length →
        (find_optimal_cuts_dp p H T wf m mode snap rad thr).getD (i + 1) 0 = H ∧
          (50 : Int) ≤ ((find_optimal_cuts_dp p H T wf m mode snap rad thr).getD (i + 1) 0 : Int)
            - ((find_optimal_cuts_dp p H T wf m mode snap rad thr).getD i 0 : Int)) ∧
      ((maxWindow T wf : Int) : ℚ) ≤ (T : ℚ) * wf * (1 + pow2 (-53)) ∧
      (fl64 ((T : ℚ) * wf) = (T : ℚ) * wf → ((maxWindow T wf : Int) : ℚ) ≤ (T : ℚ) * wf) ∧
      ((T : ℚ) * wf < 2 ^ 31 → ⌊(T : ℚ) * wf⌋ ≤ maxWindow T wf) := by
  obtain ⟨hlast, hchain⟩ := find_optimal_cuts_dp_chain p H T wf m mode snap rad thr hH hdp
  have hsorted : List.Sorted (· < ·) (find_optimal_cuts_dp p H T wf m mode snap rad thr) :=
    List.chain'_iff_pairwise.mp (hchain.imp (fun _ _ hab => hab.1))
  generalize find_optimal_cuts_dp p H T wf m mode snap rad thr = R at hi hchain hlast hsorted ⊢
  have hedge : edgeOK H T (maxWindow T wf) (R.getD i 0) (R.getD (i + 1) 0) := by
    have := List.chain'_iff_get.mp hchain i (by omega)
    rw [List.getD_eq_getElem R 0 (by omega), List.getD_eq_getElem R 0 hi]
    exact this
  have hlastD : R.getD (R.length - 1) 0 = H := by
    rw [List.getLast?_eq_getElem?, List.getElem?_eq_getElem (by omega)] at hlast
    rw [List.getD_eq_getElem R 0 (by omega)]
    exact Option.some.inj hlast
  refine ⟨?_, ?_, maxWindow_le_rel T wf hwf, maxWindow_le_of_exact T wf hwf,
    fun hx => (maxWindow_between T wf hwf hx).1⟩
  · intro hi2
    have hne : R.getD (i + 1) 0 ≠ H := by
      have := sorted_getD_lt hsorted (by omega : i + 1 < R.length - 1) (by omega)
      omega
    have h2 := hedge.2
    rw [if_neg hne] at h2
    exact h2
  · intro hi2
    have hidx : i + 1 = R.length - 1 := by omega
    have heq : R.getD (i + 1) 0 = H := by rw [hidx]; exact hlastD
    have h2 := hedge.2
    rw [if_pos heq] at h2
    exact ⟨heq, h2.1⟩

/-- C10, amended, instance: the first page of the DP path on the profile of height 170
with the clean rows 64 .. 76, window_frac the double nearest to 0.3. -/
theorem find_optimal_cuts_dp_page_window_witness :
    (1 ≤ 170 ∧ (0 : ℚ) ≤ fl64 (3 / 10) ∧
      terminalCost (gapProfile 64 77) 170 100 (fl64 (3 / 10)) 12 CutMode.CUT_MODE_WHITESPACE
        40 2 (3 / 10) < DP_UNREACHABLE ∧
      0 + 1 < (find_optimal_cuts_dp (gapProfile 64 77) 170 100 (fl64 (3 / 10)) 12
        CutMode.CUT_MODE_WHITESPACE 40 2 (3 / 10)).length ∧
      ((100 : Nat) : ℚ) * fl64 (3 / 10) < 2 ^ 31) ∧
    ((0 + 2 < (find_optimal_cuts_dp (gapProfile 64 77) 170 100 (fl64 (3 / 10)) 12
          CutMode.CUT_MODE_WHITESPACE 40 2 (3 / 10)).length →
        |((find_optimal_cuts_dp (gapProfile 64 77) 170 100 (fl64 (3 / 10)) 12
              CutMode.CUT_MODE_WHITESPACE 40 2 (3 / 10)).getD (0 + 1) 0 : Int)
            - ((find_optimal_cuts_dp (gapProfile 64 77) 170 100 (fl64 (3 / 10)) 12
              CutMode.CUT_MODE_WHITESPACE 40 2 (3 / 10)).getD 0 0 : Int)
            - ((100 : Nat) : Int)| ≤ maxWindow 100 (fl64 (3 / 10))) ∧
      (0 + 2 = (find_optimal_cuts_dp (gapProfile 64 77) 170 100 (fl64 (3 / 10)) 12
          CutMode.CUT_MODE_WHITESPACE 40 2 (3 / 10)).length →
        (find_optimal_cuts_dp (gapProfile 64 77) 170 100 (fl64 (3 / 10)) 12
          CutMode.CUT_MODE_WHITESPACE 40 2 (3 / 10)).getD (0 + 1) 0 = 170 ∧
          (50 : Int) ≤ ((find_optimal_cuts_dp (gapProfile 64 77) 170 100 (fl64 (3 / 10)) 12
              CutMode.CUT_MODE_WHITESPACE 40 2 (3 / 10)).getD (0 + 1) 0 : Int)
            - ((find_optimal_cuts_dp (gapProfile 64 77) 170 100 (fl64 (3 / 10)) 12
              CutMode.CUT_MODE_WHITESPACE 40 2 (3 / 10)).getD 0 0 : Int)) ∧
      ((maxWindow 100 (fl64 (3 / 10)) : Int) : ℚ)
        ≤ ((100 : Nat) : ℚ) * fl64 (3 / 10) * (1 + pow2 (-53)) ∧
      (fl64 (((100 : Nat) : ℚ) * fl64 (3 / 10)) = ((100 : Nat) : ℚ) * fl64 (3 / 10) →
        ((maxWindow 100 (fl64 (3 / 10)) : Int) : ℚ) ≤ ((100 : Nat) : ℚ) * fl64 (3 / 10)) ∧
      (((100 : Nat) : ℚ) * fl64 (3 / 10) < 2 ^ 31 →
        ⌊((100 : Nat) : ℚ) * fl64 (3 / 10)⌋ ≤ maxWindow 100 (fl64 (3 / 10)))) :=
  have hlen : 0 + 1 < (find_optimal_cuts_dp (gapProfile 64 77) 170 100 (fl64 (3 / 10)) 12
      CutMode.CUT_MODE_WHITESPACE 40 2 (3 / 10)).length := by
    rw [gapProfile_cuts]; decide
  ⟨⟨by decide, fl64_nonneg (by norm_num), gapProfile_terminal, hlen, by decide!⟩,
    find_optimal_cuts_dp_page_window (gapProfile 64 77) 170 100 (fl64 (3 / 10)) 12
      CutMode.CUT_MODE_WHITESPACE 40 2 (3 / 10) (by decide) (fl64_nonneg (by norm_num))
      gapProfile_terminal 0 hlen⟩

/-! ## The all-ink profile -/

theorem gapLoop_nil (p : Nat → ℚ) (H : Nat) (m : Int) (hg : ∀ i, i < H → is_gap p i = false)
    (fuel i : Nat) : gapLoop p H m fuel i = [] := by
  induction fuel generalizing i with
  | zero => rfl
  | succ f ih =>
    simp only [gapLoop]
    split_ifs with h1 h2 h3
    · rw [hg i h1] at h2; exact absurd h2 (by decide)
    · rw [hg i h1] at h2; exact absurd h2 (by decide)
    · exact ih _
    · rfl

theorem boxSum_const (a : Nat → ℚ) (s n : Nat) (hn : n ≤ 2 ^ 53)
    (h : ∀ i, s ≤ i → i < s + n → a i = 1) : boxSum a s n = (n : ℚ) := by
  induction n with
  | zero => simp [boxSum]
  | succ n ih =>
    simp only [boxSum]
    rw [ih (by omega) (fun i h1 h2 => h i h1 (by omega)), h (s + n) (by omega) (by omega)]
    have := fl64_natCast (n + 1) hn
    push_cast at this ⊢
    exact this

theorem smoothed_all_ink (p : Nat → ℚ) (H : Nat) (hp : ∀ i, i < H → p i = 1) (i : Nat)
    (hi : i < H) : smoothed p H i = 1 := by
  unfold smoothed smooth_radius
  simp only
  have hc : min H (i + 10 + 1) - (i - 10) > 0 := by omega
  have hn : min H (i + 10 + 1) - (i - 10) ≤ 2 ^ 53 := by
    have : min H (i + 10 + 1) - (i - 10) ≤ 21 := by omega
    have h2 : (21 : Nat) ≤ 2 ^ 53 := by norm_num
    omega
  rw [if_pos hc, boxSum_const _ _ _ hn (fun k _ h2 => hp k (by omega))]
  have : ((min H (i + 10 + 1) - (i - 10) : Nat) : ℚ) ≠ 0 := by
    exact_mod_cast (by omega : min H (i + 10 + 1) - (i - 10) ≠ 0)
  rw [div_self this, fl64_one]

theorem bandScan_none (sm : Nat → ℚ) (s n : Nat)
    (h : ∀ r, s ≤ r → r < s + n → ¬ sm r < 1) : bandScan sm s n = (-1, 1) := by
  induction n with
  | zero => rfl
  | succ n ih =>
    simp only [bandScan]
    rw [ih (fun r h1 h2 => h r h1 (by omega))]
    simp only
    rw [if_neg (h (s + n) (by omega) (by omega))]

theorem bandLoop_nil (sm : Nat → ℚ) (H : Nat) (h : ∀ r, r < H → ¬ sm r < 1) (fuel s : Nat) :
    bandLoop sm H fuel s = [] := by
  induction fuel generalizing s with
  | zero => rfl
  | succ f ih =>
    simp only [bandLoop]
    split_ifs with h1 h2
    · rw [bandScan_none sm s _ (fun r _ h4 => h r (by omega))] at h2
      exact absurd rfl h2
    · exact ih _
    · rfl

theorem candidates_all_ink (p : Nat → ℚ) (H T : Nat) (m : Int) (snap rad : Int) (thr : ℚ)
    (hH : 1 ≤ H) (hp : ∀ i, i < H → p i = 1) :
    candidates p H T m CutMode.CUT_MODE_WHITESPACE snap rad thr = [0, H] := by
  have hgap : gapCandidates p H m = [] := by
    refine gapLoop_nil p H m ?_ _ _
    intro i hi
    simp only [is_gap, hp i hi, gap_thresh, decide_eq_false_iff_not, not_le]
    norm_num
  have hband : bandCandidates (smoothed p H) H = [] := by
    refine bandLoop_nil _ H ?_ _ _
    intro r hr
    rw [smoothed_all_ink p H hp r hr]
    exact lt_irrefl _
  have hsnap : snapCandidates p H T CutMode.CUT_MODE_WHITESPACE snap rad thr = [] := by
    simp [snapCandidates]
  have hne : H ≠ 0 := by omega
  simp [candidates, rawCandidates, hgap, hband, hsnap, List.insertionSort,
    List.orderedInsert, uniqueSorted, uniqueFrom, hne]

/-- C6. For the all-ink profile (density 1 on every row) of any height H, any target height T
with 1 <= T < H, whitespace mode and a window_frac for which max_window = 0, the candidate
set is just `[0, height]`, no candidate path with admitted edges exists, the terminal entry
of the DP keeps the sentinel `1e9`, and `find_optimal_cuts_dp` returns the uniform grid
`[0, T, 2T, ..., H]`, whose last element is H. -/
theorem find_optimal_cuts_dp_all_ink (p : Nat → ℚ) (H T : Nat) (wf : ℚ) (m : Int)
    (snap rad : Int) (thr : ℚ) (hT : 1 ≤ T) (hTH : T < H) (hp : ∀ i, i < H → p i = 1)
    (hmw : maxWindow T wf = 0) :
    (¬ ∃ P : List Nat,
        AdmissiblePath (candidates p H T m CutMode.CUT_MODE_WHITESPACE snap rad thr) H T
          (maxWindow T wf) P) ∧
      terminalCost p H T wf m CutMode.CUT_MODE_WHITESPACE snap rad thr = DP_INF ∧
      find_optimal_cuts_dp p H T wf m CutMode.CUT_MODE_WHITESPACE snap rad thr
        = uniformGrid H T ∧
      (find_optimal_cuts_dp p H T wf m CutMode.CUT_MODE_WHITESPACE snap rad thr).getLast?
        = some H := by
  have hH : 1 ≤ H := by omega
  have hc := candidates_all_ink p H T m snap rad thr hH hp
  have hterm : terminalCost p H T wf m CutMode.CUT_MODE_WHITESPACE snap rad thr = DP_INF := by
    unfold terminalCost
    simp only [hc, hmw]
    have hbreak : ((H : Int) - ((0 : Nat) : Int)) > (T : Int) + 0 := by omega
    simp [dpTable, dpStep, scanPrev, hbreak, hTH]
  have hfb : find_optimal_cuts_dp p H T wf m CutMode.CUT_MODE_WHITESPACE snap rad thr
      = uniformGrid H T := by
    rw [find_optimal_cuts_dp_fallback p H T wf m _ snap rad thr ?_, fallbackCuts_eq H T hH hT]
    rw [hterm]
    norm_num [DP_UNREACHABLE, DP_INF]
  refine ⟨?_, hterm, hfb, ?_⟩
  · rintro ⟨P, hP0, hPH, hPmem, hPch⟩
    rw [hc, hmw] at *
    match P, hP0, hPH, hPmem, hPch with
    | [a], h0, h1, _, _ =>
      simp only [List.head?_cons, Option.some.injEq, List.getLast?_singleton] at h0 h1
      omega
    | a :: b :: rest, h0, _, hmem, hch =>
      simp only [List.head?_cons, Option.some.injEq] at h0
      have hab : edgeOK H T 0 a b := (List.chain'_cons.mp hch).1
      have hb : b ∈ [0, H] := hmem b (by simp)
      simp only [List.mem_cons, List.mem_singleton, List.not_mem_nil, or_false] at hb
      have hlt := hab.1
      have hbH : b = H := by omega
      have h2 := hab.2
      rw [if_pos hbH] at h2
      omega
  · rw [hfb]
    exact (uniformGrid_valid H T hH hT).2.2.1

/-- C6, instance: height 10, target height 3, window_frac 1/10. -/
theorem find_optimal_cuts_dp_all_ink_witness :
    (1 ≤ 3 ∧ 3 < 10 ∧ (∀ i, i < 10 → allInkProfile i = 1) ∧ maxWindow 3 (1 / 10) = 0) ∧
    ((¬ ∃ P : List Nat,
        AdmissiblePath (candidates allInkProfile 10 3 12 CutMode.CUT_MODE_WHITESPACE 40 2
          (3 / 10)) 10 3 (maxWindow 3 (1 / 10)) P) ∧
      terminalCost allInkProfile 10 3 (1 / 10) 12 CutMode.CUT_MODE_WHITESPACE 40 2 (3 / 10)
        = DP_INF ∧
      find_optimal_cuts_dp allInkProfile 10 3 (1 / 10) 12 CutMode.CUT_MODE_WHITESPACE 40 2
        (3 / 10) = uniformGrid 10 3 ∧
      (find_optimal_cuts_dp allInkProfile 10 3 (1 / 10) 12 CutMode.CUT_MODE_WHITESPACE 40 2
        (3 / 10)).getLast? = some 10) :=
  ⟨⟨by decide, by decide, fun _ _ => rfl, by decide!⟩,
    find_optimal_cuts_dp_all_ink allInkProfile 10 3 (1 / 10) 12 40 2 (3 / 10) (by decide)
      (by decide) (fun _ _ => rfl) (by decide!)⟩

/-- C7. On the profile of height 1000 that is 0.5 everywhere except 0.0 on the 20 rows
490 .. 509, with min_gap_rows = 12, target_height_px = 500, whitespace mode and
window_frac = 0.04 (the remaining arguments as passed by the command-line tool),
`find_optimal_cuts_dp` returns `[0, 500, 1000]`: the list contains a cut within 3 rows of 500
that lies inside the zero run. -/
theorem find_optimal_cuts_dp_whitespace_run :
    find_optimal_cuts_dp whitespaceRunProfile 1000 500 (1 / 25) 12
        CutMode.CUT_MODE_WHITESPACE 40 2 (3 / 10) = [0, 500, 1000] ∧
      ∃ c ∈ find_optimal_cuts_dp whitespaceRunProfile 1000 500 (1 / 25) 12
          CutMode.CUT_MODE_WHITESPACE 40 2 (3 / 10),
        |(c : Int) - 500| ≤ 3 ∧ 490 ≤ c ∧ c ≤ 509 ∧ whitespaceRunProfile c = 0 := by
  have h : find_optimal_cuts_dp whitespaceRunProfile 1000 500 (1 / 25) 12
      CutMode.CUT_MODE_WHITESPACE 40 2 (3 / 10) = [0, 500, 1000] := whitespaceRun_cuts
  refine ⟨h, 500, ?_, by decide, by decide, by decide, by decide!⟩
  rw [h]
  decide

/-! ## The safety test on a spike -/

theorem minInk_le (p : Nat → ℚ) (s n i : Nat) (h1 : s ≤ i) (h2 : i < s + n) :
    minInk p s n ≤ p i := by
  induction n with
  | zero => omega
  | succ n ih =>
    simp only [minInk]
    rcases Nat.lt_or_ge i (s + n) with h | h
    · have := ih h
      split_ifs with h3
      · exact le_trans (le_of_lt h3) this
      · exact this
    · have hi : i = s + n := by omega
      subst hi
      split_ifs with h3
      · exact le_rfl
      · exact not_lt.mp h3

theorem snapLoop_first_mem (p : Nat → ℚ) (H T : Nat) (snap rad : Int) (thr : ℚ)
    (hTH : T < H) (hsnap : 0 ≤ snap) (hsafe : is_unsafe_cut_fn p H T rad thr = false) :
    T ∈ snapLoop p H T snap rad thr H T := by
  obtain ⟨f, rfl⟩ : ∃ f, H = f + 1 := ⟨H - 1, by omega⟩
  simp only [snapLoop, if_pos hTH]
  refine List.mem_append_left _ ((snapWindow_mem p (f + 1) rad thr _ _ T).mpr ⟨?_, hsafe⟩)
  omega

/-- C8, the claim fails: profile of height 100, clean except density 1 at row 50 (above the
threshold 0.3), target height 50, fixed-height-snap mode; the optimizer takes the DP path and
returns `[0, 50, 100]`, which contains the spike row 50. -/
theorem find_optimal_cuts_dp_keeps_spike_row :
    (1 ≤ 50 ∧ 50 < 100 ∧ (∀ i, i < 100 → i ≠ 50 → spikeProfile 50 1 i = 0) ∧
      spikeProfile 50 1 50 > 3 / 10) ∧
    terminalCost (spikeProfile 50 1) 100 50 (1 / 25) 12 CutMode.CUT_MODE_FIXED_HEIGHT_SNAP
      40 2 (3 / 10) < DP_UNREACHABLE ∧
    find_optimal_cuts_dp (spikeProfile 50 1) 100 50 (1 / 25) 12
      CutMode.CUT_MODE_FIXED_HEIGHT_SNAP 40 2 (3 / 10) = [0, 50, 100] ∧
    50 ∈ find_optimal_cuts_dp (spikeProfile 50 1) 100 50 (1 / 25) 12
      CutMode.CUT_MODE_FIXED_HEIGHT_SNAP 40 2 (3 / 10) := by
  have h : find_optimal_cuts_dp (spikeProfile 50 1) 100 50 (1 / 25) 12
      CutMode.CUT_MODE_FIXED_HEIGHT_SNAP 40 2 (3 / 10) = [0, 50, 100] := spike_cuts
  refine ⟨⟨by decide, by decide, ?_, by decide!⟩, spike_terminal, h, ?_⟩
  · intro i _ hi
    simp [spikeProfile, hi]
  · rw [h]
    decide

/-- C8, amended. In fixed_height_snap mode, for every target height T >= 1, every
height > T, every snap_px >= 0, unsafe_window_radius >= 1 and unsafe_ink_threshold >= 0, and
every profile that is clean (density 0) on all rows except row T, `is_unsafe_cut_fn`
classifies the spike row T as not unsafe (its window holds the clean row T - 1, so the window
minimum does not exceed the threshold), and the snap step puts T into the candidate set. -/
theorem spike_row_is_snap_candidate (p : Nat → ℚ) (H T : Nat) (m : Int) (snap rad : Int)
    (thr : ℚ) (hT : 1 ≤ T) (hTH : T < H) (hsnap : 0 ≤ snap) (hrad : 1 ≤ rad) (hthr : 0 ≤ thr)
    (hclean : ∀ i, i < H → i ≠ T → p i = 0) :
    is_unsafe_cut_fn p H T rad thr = false ∧
      T ∈ snapCandidates p H T CutMode.CUT_MODE_FIXED_HEIGHT_SNAP snap rad thr ∧
      T ∈ candidates p H T m CutMode.CUT_MODE_FIXED_HEIGHT_SNAP snap rad thr := by
  have hsafe : is_unsafe_cut_fn p H T rad thr = false := by
    unfold is_unsafe_cut_fn
    rw [if_neg (by omega)]
    simp only [decide_eq_false_iff_not, not_lt, gt_iff_lt]
    have hle := minInk_le p (max 0 ((T : Int) - rad)).toNat
      (min (H : Int) ((T : Int) + rad + 1) - max 0 ((T : Int) - rad)).toNat (T - 1)
      (by omega) (by omega)
    rw [hclean (T - 1) (by omega) (by omega)] at hle
    exact le_trans hle hthr
  have hmem : T ∈ snapCandidates p H T CutMode.CUT_MODE_FIXED_HEIGHT_SNAP snap rad thr := by
    unfold snapCandidates
    rw [if_pos rfl]
    exact snapLoop_first_mem p H T snap rad thr hTH hsnap hsafe
  refine ⟨hsafe, hmem, ?_⟩
  rw [candidates_mem]
  unfold rawCandidates
  exact List.mem_append_right _ hmem

/-- C8, amended, instance: the 100-row profile with a spike at row 50. -/
theorem spike_row_is_snap_candidate_witness :
    (1 ≤ 50 ∧ 50 < 100 ∧ (0 : Int) ≤ 40 ∧ (1 : Int) ≤ 2 ∧ (0 : ℚ) ≤ 3 / 10 ∧
      ∀ i, i < 100 → i ≠ 50 → spikeProfile 50 1 i = 0) ∧
    (is_unsafe_cut_fn (spikeProfile 50 1) 100 50 2 (3 / 10) = false ∧
      50 ∈ snapCandidates (spikeProfile 50 1) 100 50 CutMode.CUT_MODE_FIXED_HEIGHT_SNAP 40 2
        (3 / 10) ∧
      50 ∈ candidates (spikeProfile 50 1) 100 50 12 CutMode.CUT_MODE_FIXED_HEIGHT_SNAP 40 2
        (3 / 10)) :=
  have hclean : ∀ i, i < 100 → i ≠ 50 → spikeProfile 50 1 i = 0 := by
    intro i _ hi
    simp [spikeProfile, hi]
  ⟨⟨by decide, by decide, by decide, by decide, by norm_num, hclean⟩,
    spike_row_is_snap_candidate (spikeProfile 50 1) 100 50 12 40 2 (3 / 10) (by decide)
      (by decide) (by decide) (by decide) (by norm_num) hclean⟩

/-! ## The integral image -/

section Integral

variable (gray : Nat → Nat) (width : Nat)

theorem integralRow_sum (y : Nat) (tab : Nat → Int) (n : Nat) :
    (integralRow gray width y tab n).2 = ∑ i ∈ Finset.range n, (gray (y * width + i) : Int) := by
  induction n with
  | zero => simp [integralRow]
  | succ n ih => simp only [integralRow, ih, Finset.sum_range_succ]

theorem integralRow_other (y : Nat) (tab : Nat → Int) (n : Nat) (idx : Nat)
    (h : ∀ i, i < n → idx ≠ y * width + i) : (integralRow gray width y tab n).1 idx = tab idx := by
  induction n with
  | zero => simp [integralRow]
  | succ n ih =>
    simp only [integralRow]
    rw [Function.update_noteq (h n (by omega))]
    exact ih (fun i hi => h i (by omega))

theorem integralRow_written (y : Nat) (tab : Nat → Int) (n : Nat) (hn : n ≤ width) (x : Nat)
    (hx : x < n) :
    (integralRow gray width y tab n).1 (y * width + x)
      = (if y = 0 then 0 else tab ((y - 1) * width + x))
        + ∑ i ∈ Finset.range (x + 1), (gray (y * width + i) : Int) := by
  induction n with
  | zero => omega
  | succ n ih =>
    simp only [integralRow]
    rcases Nat.lt_or_ge x n with h | h
    · rw [Function.update_noteq (by omega)]
      exact ih (by omega) h
    · have hxn : x = n := by omega
      subst hxn
      rw [Function.update_same, integralRow_sum, ← Finset.sum_range_succ]
      split_ifs with hy
      · simp
      · have hside : ∀ i, i < x → (y - 1) * width + x ≠ y * width + i := by
          intro i hi
          obtain ⟨z, rfl⟩ : ∃ z, y = z + 1 := ⟨y - 1, by omega⟩
          simp only [Nat.add_sub_cancel]
          have : (z + 1) * width = z * width + width := by ring
          omega
        rw [integralRow_other gray width y tab x _ hside]

theorem prefixSum_succ (y x : Nat) :
    prefixSum gray width (y + 1) x
      = prefixSum gray width y x + ∑ i ∈ Finset.range x, (gray (y * width + i) : Int) := by
  unfold prefixSum
  exact Finset.sum_range_succ _ y

theorem integral_eq_prefixSum (height : Nat) :
    ∀ y x : Nat, y < height → x < width →
      compute_integral_image gray width height (y * width + x)
        = prefixSum gray width (y + 1) (x + 1) := by
  induction height with
  | zero => intro y x hy; omega
  | succ h ih =>
    intro y x hy hx
    simp only [compute_integral_image]
    rcases Nat.lt_or_ge y h with hlt | hge
    · have hside : ∀ i, i < width → y * width + x ≠ h * width + i := by
        intro i hi
        have : (y + 1) * width ≤ h * width := Nat.mul_le_mul_right _ hlt
        have h2 : (y + 1) * width = y * width + width := by ring
        omega
      rw [integralRow_other gray width h _ width _ hside]
      exact ih y x hlt hx
    · have hyh : y = h := by omega
      subst hyh
      rw [integralRow_written gray width y _ width le_rfl x hx, prefixSum_succ]
      split_ifs with h0
      · subst h0; simp [prefixSum]
      · obtain ⟨z, rfl⟩ : ∃ z, y = z + 1 := ⟨y - 1, by omega⟩
        simp only [Nat.add_sub_cancel]
        rw [ih z x (by omega) hx]

theorem sum_range_ite_Ico (f : Nat → Int) (n a b : Nat) (hb : b ≤ n) :
    (∑ i ∈ Finset.range n, if a ≤ i ∧ i < b then f i else 0) = ∑ i ∈ Finset.Ico a b, f i := by
  rw [← Finset.sum_filter]
  congr 1
  ext i
  simp only [Finset.mem_filter, Finset.mem_range, Finset.mem_Ico]
  omega

theorem sum_Ico_Ico_eq_prefix (a b c d : Nat) (hab : a ≤ b) (hcd : c ≤ d) :
    (∑ j ∈ Finset.Ico c d, ∑ i ∈ Finset.Ico a b, (gray (j * width + i) : Int))
      = prefixSum gray width d b - prefixSum gray width c b - prefixSum gray width d a
        + prefixSum gray width c a := by
  unfold prefixSum
  rw [Finset.sum_Ico_eq_sub _ hcd]
  simp only [Finset.sum_Ico_eq_sub _ hab, Finset.sum_sub_distrib]
  ring

/-- Brute-force double sum with a rectangle indicator, rewritten as a sum over the clipped
index intervals. -/
theorem indicator_sum_eq (f : Nat → Nat → Int) (height : Nat) (x0 y0 x1 y1 : Int) (a b c d : Nat)
    (hb : b ≤ width) (hd : d ≤ height)
    (hx : ∀ x : Nat, x < width → ((x0 ≤ (x : Int) ∧ (x : Int) ≤ x1) ↔ (a ≤ x ∧ x < b)))
    (hy : ∀ y : Nat, y < height → ((y0 ≤ (y : Int) ∧ (y : Int) ≤ y1) ↔ (c ≤ y ∧ y < d))) :
    (∑ y ∈ Finset.range height, ∑ x ∈ Finset.range width,
        if x0 ≤ (x : Int) ∧ (x : Int) ≤ x1 ∧ y0 ≤ (y : Int) ∧ (y : Int) ≤ y1 then f y x else 0)
      = ∑ y ∈ Finset.Ico c d, ∑ x ∈ Finset.Ico a b, f y x := by
  rw [← sum_range_ite_Ico (fun y => ∑ x ∈ Finset.Ico a b, f y x) height c d hd]
  refine Finset.sum_congr rfl (fun y hy' => ?_)
  rw [Finset.mem_range] at hy'
  by_cases hyc : c ≤ y ∧ y < d
  · rw [if_pos hyc, ← sum_range_ite_Ico (fun x => f y x) width a b hb]
    refine Finset.sum_congr rfl (fun x hx' => ?_)
    rw [Finset.mem_range] at hx'
    have h1 := (hy y hy').mpr hyc
    by_cases hxc : a ≤ x ∧ x < b
    · have h2 := (hx x hx').mpr hxc
      rw [if_pos hxc, if_pos ⟨h2.1, h2.2, h1.1, h1.2⟩]
    · rw [if_neg hxc, if_neg (fun h => hxc ((hx x hx').mp ⟨h.1, h.2.1⟩))]
  · rw [if_neg hyc]
    refine Finset.sum_eq_zero (fun x _ => ?_)
    rw [if_neg (fun h => hyc ((hy y hy').mp ⟨h.2.2.1, h.2.2.2⟩))]

end Integral

/-! ## Rectangle sums -/

section Rect

variable (gray : Nat → Nat) (width height : Nat)

theorem prefixSum_zero_left (x : Nat) : prefixSum gray width 0 x = 0 := by
  simp [prefixSum]

theorem prefixSum_zero_right (y : Nat) : prefixSum gray width y 0 = 0 := by
  simp [prefixSum]

/-- Table entry read through an `Int` index computed as `y * width + x`. -/
theorem integral_read (y x : Nat) (hy : y < height) (hx : x < width) :
    compute_integral_image gray width height (((y : Int) * (width : Int) + (x : Int)).toNat)
      = prefixSum gray width (y + 1) (x + 1) := by
  have : ((y : Int) * (width : Int) + (x : Int)).toNat = y * width + x := by
    have h : (y : Int) * (width : Int) + (x : Int) = ((y * width + x : Nat) : Int) := by
      push_cast; ring
    rw [h, Int.toNat_ofNat]
  rw [this]
  exact integral_eq_prefixSum gray width height y x hy hx

theorem rectSumBrute_eq_Ico (x0 y0 x1 y1 : Int) (a b c d : Nat)
    (ha : max 0 x0 = (a : Int)) (hb : min ((width : Int) - 1) x1 = (b : Int))
    (hc : max 0 y0 = (c : Int)) (hd : min ((height : Int) - 1) y1 = (d : Int)) :
    rectSumBrute gray width height x0 y0 x1 y1
      = ∑ y ∈ Finset.Ico c (d + 1), ∑ x ∈ Finset.Ico a (b + 1), (gray (y * width + x) : Int) := by
  unfold rectSumBrute
  exact indicator_sum_eq width (fun y x => (gray (y * width + x) : Int)) height x0 y0 x1 y1
    a (b + 1) c (d + 1) (by omega) (by omega) (fun x hx => by omega) (fun y hy => by omega)

theorem rectSumBrute_empty (x0 y0 x1 y1 : Int)
    (h : max 0 x0 > min ((width : Int) - 1) x1 ∨ max 0 y0 > min ((height : Int) - 1) y1) :
    rectSumBrute gray width height x0 y0 x1 y1 = 0 := by
  unfold rectSumBrute
  refine Finset.sum_eq_zero (fun y hy => Finset.sum_eq_zero (fun x hx => ?_))
  rw [Finset.mem_range] at hx hy
  rw [if_neg]
  omega

theorem get_rect_sum_eq (x0 y0 x1 y1 : Int) :
    get_rect_sum (compute_integral_image gray width height) width height x0 y0 x1 y1
      = rectSumBrute gray width height x0 y0 x1 y1 := by
  unfold get_rect_sum
  simp only
  by_cases hempty : max 0 x0 > min ((width : Int) - 1) x1 ∨
      max 0 y0 > min ((height : Int) - 1) y1
  · rw [if_pos hempty]
    exact (rectSumBrute_empty gray width height x0 y0 x1 y1 hempty).symm
  · rw [if_neg hempty]
    obtain ⟨a, ha⟩ : ∃ a : Nat, max 0 x0 = (a : Int) :=
      ⟨_, (Int.toNat_of_nonneg (le_max_left _ _)).symm⟩
    obtain ⟨c, hc⟩ : ∃ c : Nat, max 0 y0 = (c : Int) :=
      ⟨_, (Int.toNat_of_nonneg (le_max_left _ _)).symm⟩
    obtain ⟨b, hb⟩ : ∃ b : Nat, min ((width : Int) - 1) x1 = (b : Int) :=
      ⟨_, (Int.toNat_of_nonneg (by omega)).symm⟩
    obtain ⟨d, hd⟩ : ∃ d : Nat, min ((height : Int) - 1) y1 = (d : Int) :=
      ⟨_, (Int.toNat_of_nonneg (by omega)).symm⟩
    rw [rectSumBrute_eq_Ico gray width height x0 y0 x1 y1 a b c d ha hb hc hd,
      sum_Ico_Ico_eq_prefix gray width a (b + 1) c (d + 1) (by omega) (by omega)]
    rw [ha, hb, hc, hd] at hempty ⊢
    have hbw : b < width := by omega
    have hdh : d < height := by omega
    have hab : a ≤ b := by omega
    have hcd : c ≤ d := by omega
    have hD := integral_read gray width height d b hdh hbw
    rw [hD]
    rcases Nat.eq_zero_or_pos a with ha0 | ha0
    · subst ha0
      rcases Nat.eq_zero_or_pos c with hc0 | hc0
      · subst hc0
        simp [prefixSum_zero_left, prefixSum_zero_right]
      · obtain ⟨c', rfl⟩ : ∃ c', c = c' + 1 := ⟨c - 1, by omega⟩
        have hB := integral_read gray width height c' b (by omega) hbw
        have hidx : ((c' + 1 : Nat) : Int) - 1 = (c' : Int) := by push_cast; ring
        have h2 : ((c' + 1 : Nat) : Int) > 0 := by omega
        rw [hidx, hB]
        simp [prefixSum_zero_right]
    · obtain ⟨a', rfl⟩ : ∃ a', a = a' + 1 := ⟨a - 1, by omega⟩
      have hidxa : ((a' + 1 : Nat) : Int) - 1 = (a' : Int) := by push_cast; ring
      have h1 : ((a' + 1 : Nat) : Int) > 0 := by omega
      have hC := integral_read gray width height d a' hdh (by omega)
      rcases Nat.eq_zero_or_pos c with hc0 | hc0
      · subst hc0
        rw [hidxa, hC]
        simp [prefixSum_zero_left]
      · obtain ⟨c', rfl⟩ : ∃ c', c = c' + 1 := ⟨c - 1, by omega⟩
        have hidx : ((c' + 1 : Nat) : Int) - 1 = (c' : Int) := by push_cast; ring
        have h2 : ((c' + 1 : Nat) : Int) > 0 := by omega
        have hB := integral_read gray width height c' b (by omega) hbw
        have hA := integral_read gray width height c' a' (by omega) (by omega)
        rw [hidxa, hidx, hA, hB, hC]
        simp only [h1, h2, and_self, if_true]

end Rect

/-! ## Ink density -/

theorem half_block_eq : half_block = 5 := by decide

theorem rowInkPixels_le (gray : Nat → Nat) (integral : Nat → Int) (width height y n : Nat) :
    rowInkPixels gray integral width height y n ≤ n := by
  induction n with
  | zero => simp [rowInkPixels]
  | succ n ih =>
    simp only [rowInkPixels]
    split_ifs <;> omega

theorem rowInkPixels_eq_card (gray : Nat → Nat) (integral : Nat → Int) (width height y n : Nat) :
    rowInkPixels gray integral width height y n
      = ((Finset.range n).filter
          (fun x => isInk gray integral width height x y = true)).card := by
  induction n with
  | zero => simp [rowInkPixels]
  | succ n ih =>
    simp only [rowInkPixels]
    rw [Finset.range_succ, Finset.filter_insert]
    split_ifs with h
    · rw [Finset.card_insert_of_not_mem (by simp), ih]
    · exact ih

theorem compute_ink_density_getD (lum : Nat → Nat → Nat → Nat) (img : Nat → Nat)
    (width height channels y : Nat) (hy : y < height) :
    (compute_ink_density lum img width height channels).getD y 0
      = (rowInkPixels (rgb_to_gray lum img channels)
          (compute_integral_image (rgb_to_gray lum img channels) width height)
          width height y width : ℚ) / (width : ℚ) := by
  unfold compute_ink_density
  simp only
  rw [List.getD_eq_getElem _ _ (by simpa using hy)]
  simp

theorem rectCount_eq (width height : Nat) (x0 y0 x1 y1 : Int) (a b c d : Nat)
    (ha : max 0 x0 = (a : Int)) (hb : min ((width : Int) - 1) x1 = (b : Int))
    (hc : max 0 y0 = (c : Int)) (hd : min ((height : Int) - 1) y1 = (d : Int))
    (hab : a ≤ b) (hcd : c ≤ d) :
    rectCount width height x0 y0 x1 y1
      = ((b : Int) - (a : Int) + 1) * ((d : Int) - (c : Int) + 1) := by
  unfold rectCount
  rw [indicator_sum_eq width (fun _ _ => (1 : Int)) height x0 y0 x1 y1
    a (b + 1) c (d + 1) (by omega) (by omega) (fun x hx => by omega) (fun y hy => by omega)]
  simp only [Finset.sum_const, Nat.card_Ico, smul_eq_mul, mul_one, nsmul_eq_mul]
  have h1 : ((b + 1 - a : Nat) : Int) = (b : Int) - (a : Int) + 1 := by omega
  have h2 : ((d + 1 - c : Nat) : Int) = (d : Int) - (c : Int) + 1 := by omega
  rw [h1, h2]
  ring

theorem windowArea_eq_rectCount (width height x y : Nat) (hx : x < width) (hy : y < height) :
    windowArea width height x y
      = rectCount width height ((x : Int) - 5) ((y : Int) - 5) ((x : Int) + 5) ((y : Int) + 5) := by
  obtain ⟨a, ha⟩ : ∃ a : Nat, max 0 ((x : Int) - 5) = (a : Int) :=
    ⟨_, (Int.toNat_of_nonneg (le_max_left _ _)).symm⟩
  obtain ⟨c, hc⟩ : ∃ c : Nat, max 0 ((y : Int) - 5) = (c : Int) :=
    ⟨_, (Int.toNat_of_nonneg (le_max_left _ _)).symm⟩
  obtain ⟨b, hb⟩ : ∃ b : Nat, min ((width : Int) - 1) ((x : Int) + 5) = (b : Int) :=
    ⟨_, (Int.toNat_of_nonneg (by omega)).symm⟩
  obtain ⟨d, hd⟩ : ∃ d : Nat, min ((height : Int) - 1) ((y : Int) + 5) = (d : Int) :=
    ⟨_, (Int.toNat_of_nonneg (by omega)).symm⟩
  rw [rectCount_eq width height _ _ _ _ a b c d ha hb hc hd (by omega) (by omega)]
  unfold windowArea
  simp only [half_block_eq]
  rw [ha, hb, hc, hd]

theorem windowArea_pos (width height x y : Nat) (hx : x < width) (hy : y < height) :
    1 ≤ windowArea width height x y := by
  unfold windowArea
  simp only [half_block_eq]
  have h1 : 1 ≤ min ((width : Int) - 1) ((x : Int) + 5) - max 0 ((x : Int) - 5) + 1 := by omega
  have h2 : 1 ≤ min ((height : Int) - 1) ((y : Int) + 5) - max 0 ((y : Int) - 5) + 1 := by omega
  nlinarith

theorem inkThresh_eq (gray : Nat → Nat) (width height x y : Nat) (hx : x < width)
    (hy : y < height) :
    inkThresh (compute_integral_image gray width height) width height x y
      = cTrunc (localMean gray width height x y - 2) := by
  unfold inkThresh localMean
  simp only [half_block_eq]
  rw [get_rect_sum_eq, windowArea_eq_rectCount width height x y hx hy]

theorem lt_cTrunc_iff (g : Nat) (q : ℚ) : (g : Int) < cTrunc q ↔ (g : ℚ) + 1 ≤ q := by
  unfold cTrunc
  split_ifs with h
  · rw [← Int.add_one_le_iff, Int.le_floor]
    push_cast
    rfl
  · have hq : q < 0 := not_le.mp h
    constructor
    · intro h1
      have h2 : (0 : Int) < ⌈q⌉ := lt_of_le_of_lt (Int.natCast_nonneg g) h1
      have h3 : (0 : ℚ) < q := Int.ceil_pos.mp h2
      linarith
    · intro h1
      have : (0 : ℚ) ≤ (g : ℚ) := Nat.cast_nonneg g
      linarith

/-- C3. For every image with width >= 1 (any height and any channel count, in particular
height >= 1 and channels in {1, 3}), `compute_ink_density` returns a profile with exactly
height entries, and every entry is an ink-pixel count between 0 and width divided by width,
hence lies in [0,1]. -/
theorem compute_ink_density_range (lum : Nat → Nat → Nat → Nat) (img : Nat → Nat)
    (width height channels : Nat) (hw : 1 ≤ width) :
    (compute_ink_density lum img width height channels).length = height ∧
      ∀ q ∈ compute_ink_density lum img width height channels,
        (∃ k : Nat, k ≤ width ∧ q = (k : ℚ) / (width : ℚ)) ∧ 0 ≤ q ∧ q ≤ 1 := by
  unfold compute_ink_density
  simp only [List.length_map, List.length_range, List.mem_map, List.mem_range, true_and]
  rintro q ⟨y, -, rfl⟩
  have hk := rowInkPixels_le (rgb_to_gray lum img channels)
    (compute_integral_image (rgb_to_gray lum img channels) width height) width height y width
  have hwq : (0 : ℚ) < (width : ℚ) := by exact_mod_cast hw
  refine ⟨⟨_, hk, rfl⟩, div_nonneg (Nat.cast_nonneg _) hwq.le, ?_⟩
  rw [div_le_one hwq]
  exact_mod_cast hk

/-- C3, instance: the 3 × 2 example image. -/
theorem compute_ink_density_range_witness :
    1 ≤ 3 ∧
    ((compute_ink_density luminance sampleImage 3 2 1).length = 2 ∧
      ∀ q ∈ compute_ink_density luminance sampleImage 3 2 1,
        (∃ k : Nat, k ≤ 3 ∧ q = (k : ℚ) / ((3 : Nat) : ℚ)) ∧ 0 ≤ q ∧ q ≤ 1) :=
  ⟨by decide, compute_ink_density_range luminance sampleImage 3 2 1 (by decide)⟩

/-- C4, the claim fails: in the 2 × 1 image with gray values `0 5` the clipped window of
pixel (0,0) has exact mean 5/2, so its intensity 0 is strictly less than mean - 2 = 1/2, yet
the code computes `thresh = (int)(0.5) = 0`, does not count the pixel as ink, and returns
density 0 for the row. -/
theorem isInk_not_exact_mean :
    localMean (rgb_to_gray luminance twoPixelImage 1) 2 1 0 0 = 5 / 2 ∧
    ((rgb_to_gray luminance twoPixelImage 1 (0 * 2 + 0) : Nat) : ℚ)
      < localMean (rgb_to_gray luminance twoPixelImage 1) 2 1 0 0 - 2 ∧
    isInk (rgb_to_gray luminance twoPixelImage 1)
      (compute_integral_image (rgb_to_gray luminance twoPixelImage 1) 2 1) 2 1 0 0 = false ∧
    compute_ink_density luminance twoPixelImage 2 1 1 = [0] := by
  refine ⟨by decide!, by decide!, by decide!, by decide!⟩

/-- C4, amended. In `compute_ink_density`, for every pixel (x,y) of every image, the pixel is
counted as ink if and only if its grayscale intensity is strictly less than the integer
obtained by truncating (local_mean - 2) toward zero, equivalently if and only if
intensity + 1 <= local_mean - 2, where local_mean is the exact mean of the clipped 11 × 11
window centred at (x,y); the density of row y is the number of such pixels in the row divided
by width. -/
theorem isInk_iff_truncated_mean (lum : Nat → Nat → Nat → Nat) (img : Nat → Nat)
    (width height channels x y : Nat) (hx : x < width) (hy : y < height) :
    (isInk (rgb_to_gray lum img channels)
          (compute_integral_image (rgb_to_gray lum img channels) width height)
          width height x y = true ↔
        ((rgb_to_gray lum img channels (y * width + x) : Nat) : Int)
          < cTrunc (localMean (rgb_to_gray lum img channels) width height x y - 2)) ∧
      (isInk (rgb_to_gray lum img channels)
          (compute_integral_image (rgb_to_gray lum img channels) width height)
          width height x y = true ↔
        ((rgb_to_gray lum img channels (y * width + x) : Nat) : ℚ) + 1
          ≤ localMean (rgb_to_gray lum img channels) width height x y - 2) ∧
      (compute_ink_density lum img width height channels).getD y 0
        = (((Finset.range width).filter
            (fun x' => isInk (rgb_to_gray lum img channels)
              (compute_integral_image (rgb_to_gray lum img channels) width height)
              width height x' y = true)).card : ℚ) / (width : ℚ) := by
  have hiff : isInk (rgb_to_gray lum img channels)
        (compute_integral_image (rgb_to_gray lum img channels) width height)
        width height x y = true ↔
      ((rgb_to_gray lum img channels (y * width + x) : Nat) : Int)
        < cTrunc (localMean (rgb_to_gray lum img channels) width height x y - 2) := by
    unfold isInk
    rw [decide_eq_true_iff, inkThresh_eq _ width height x y hx hy]
  refine ⟨hiff, ?_, ?_⟩
  · rw [hiff, lt_cTrunc_iff]
  · rw [compute_ink_density_getD lum img width height channels y hy, rowInkPixels_eq_card]

/-- C4, amended, instance: pixel (1,0) of the 3 × 2 example image. -/
theorem isInk_iff_truncated_mean_witness :
    (1 < 3 ∧ 0 < 2) ∧
    ((isInk (rgb_to_gray luminance sampleImage 1)
          (compute_integral_image (rgb_to_gray luminance sampleImage 1) 3 2) 3 2 1 0 = true ↔
        ((rgb_to_gray luminance sampleImage 1 (0 * 3 + 1) : Nat) : Int)
          < cTrunc (localMean (rgb_to_gray luminance sampleImage 1) 3 2 1 0 - 2)) ∧
      (isInk (rgb_to_gray luminance sampleImage 1)
          (compute_integral_image (rgb_to_gray luminance sampleImage 1) 3 2) 3 2 1 0 = true ↔
        ((rgb_to_gray luminance sampleImage 1 (0 * 3 + 1) : Nat) : ℚ) + 1
          ≤ localMean (rgb_to_gray luminance sampleImage 1) 3 2 1 0 - 2) ∧
      (compute_ink_density luminance sampleImage 3 2 1).getD 0 0
        = (((Finset.range 3).filter
            (fun x' => isInk (rgb_to_gray luminance sampleImage 1)
              (compute_integral_image (rgb_to_gray luminance sampleImage 1) 3 2)
              3 2 x' 0 = true)).card : ℚ) / ((3 : Nat) : ℚ)) :=
  ⟨⟨by decide, by decide⟩,
    isInk_iff_truncated_mean luminance sampleImage 3 2 1 1 0 (by decide) (by decide)⟩

/-- C9. For every grayscale image and every rectangle (x0, y0, x1, y1), `get_rect_sum`
applied to the table built by `compute_integral_image` equals the brute-force sum of the gray
values over the pixels of the image that lie in the rectangle (0 when the clipped rectangle is
empty); in particular the table entry for (x, y) is the sum over [0,x] × [0,y]. -/
theorem get_rect_sum_eq_brute_force (gray : Nat → Nat) (width height : Nat)
    (x0 y0 x1 y1 : Int) :
    get_rect_sum (compute_integral_image gray width height) width height x0 y0 x1 y1
        = rectSumBrute gray width height x0 y0 x1 y1 ∧
      ((max 0 x0 > min ((width : Int) - 1) x1 ∨ max 0 y0 > min ((height : Int) - 1) y1) →
        get_rect_sum (compute_integral_image gray width height) width height x0 y0 x1 y1 = 0) ∧
      ∀ y x : Nat, y < height → x < width →
        compute_integral_image gray width height (y * width + x)
          = rectSumBrute gray width height 0 0 (x : Int) (y : Int) := by
  refine ⟨get_rect_sum_eq gray width height x0 y0 x1 y1, ?_, ?_⟩
  · intro h
    rw [get_rect_sum_eq, rectSumBrute_empty gray width height x0 y0 x1 y1 h]
  · intro y x hy hx
    rw [integral_eq_prefixSum gray width height y x hy hx,
      rectSumBrute_eq_Ico gray width height 0 0 x y 0 x 0 y (by simp) (by omega) (by simp)
        (by omega)]
    unfold prefixSum
    simp only [Finset.range_eq_Ico]

/-! ## Fuel is sufficient

Each fuelled loop is started with enough fuel: with any larger amount the result is the
same, and the inner gap scan stops only when the loop condition of the source fails. -/

theorem gapRunEnd_exit (p : Nat → ℚ) (H : Nat) (fuel i : Nat) (hf : H - i ≤ fuel) :
    ¬ (gapRunEnd p H fuel i < H ∧ is_gap p (gapRunEnd p H fuel i) = true) := by
  induction fuel generalizing i with
  | zero =>
    simp only [gapRunEnd]
    omega
  | succ f ih =>
    simp only [gapRunEnd]
    split_ifs with h
    · exact ih (i + 1) (by omega)
    · exact h

theorem gapLoop_fuel (p : Nat → ℚ) (H : Nat) (m : Int) (f1 f2 i : Nat) (h1 : H - i ≤ f1)
    (h2 : H - i ≤ f2) : gapLoop p H m f1 i = gapLoop p H m f2 i := by
  induction f1 generalizing f2 i with
  | zero =>
    cases f2 with
    | zero => rfl
    | succ f2 => simp only [gapLoop]; rw [if_neg (by omega)]
  | succ f1 ih =>
    cases f2 with
    | zero => simp only [gapLoop]; rw [if_neg (by omega)]
    | succ f2 =>
      simp only [gapLoop]
      split_ifs with h3 h4 h5
      · have := gapRunEnd_gt p H i h3 h4
        rw [ih f2 _ (by omega) (by omega)]
      · have := gapRunEnd_gt p H i h3 h4
        exact ih f2 _ (by omega) (by omega)
      · exact ih f2 _ (by omega) (by omega)
      · rfl

theorem bandLoop_fuel (sm : Nat → ℚ) (H : Nat) (f1 f2 s : Nat) (h1 : H - s ≤ f1)
    (h2 : H - s ≤ f2) : bandLoop sm H f1 s = bandLoop sm H f2 s := by
  induction f1 generalizing f2 s with
  | zero =>
    cases f2 with
    | zero => rfl
    | succ f2 => simp only [bandLoop]; rw [if_neg (by omega)]
  | succ f1 ih =>
    cases f2 with
    | zero => simp only [bandLoop]; rw [if_neg (by omega)]
    | succ f2 =>
      simp only [bandLoop]
      have hb : band_size = 200 := rfl
      split_ifs with h3 h4
      · rw [ih f2 _ (by omega) (by omega)]
      · exact ih f2 _ (by omega) (by omega)
      · rfl

theorem snapLoop_fuel (p : Nat → ℚ) (H T : Nat) (snap rad : Int) (thr : ℚ) (hT : 1 ≤ T)
    (f1 f2 ideal : Nat) (h1 : H - ideal ≤ f1) (h2 : H - ideal ≤ f2) :
    snapLoop p H T snap rad thr f1 ideal = snapLoop p H T snap rad thr f2 ideal := by
  induction f1 generalizing f2 ideal with
  | zero =>
    cases f2 with
    | zero => rfl
    | succ f2 => simp only [snapLoop]; rw [if_neg (by omega)]
  | succ f1 ih =>
    cases f2 with
    | zero => simp only [snapLoop]; rw [if_neg (by omega)]
    | succ f2 =>
      simp only [snapLoop]
      split_ifs with h3
      · rw [ih f2 _ (by omega) (by omega)]
      · rfl

theorem fallbackFill_fuel (H T : Nat) (hT : 1 ≤ T) (f1 f2 : Nat) (h1 : H ≤ f1) (h2 : H ≤ f2) :
    fallbackFill H T f1 0 = fallbackFill H T f2 0 := by
  have e1 := fallbackFill_eq H T hT f1 0 (by nlinarith)
  have e2 := fallbackFill_eq H T hT f2 0 (by nlinarith)
  rw [Nat.zero_mul] at e1 e2
  rw [e1, e2]

theorem tracePath_fuel (sm : Nat → ℚ) (H : Nat) (c : List Nat) (T : Nat) (mw : Int)
    (hs : List.Sorted (· < ·) c) (par : List Int)
    (hpar : ∀ i, i < c.length → par.getD i (-1) = parAt sm H c T mw i) :
    ∀ j : Nat, j < c.length → ∀ f1 f2 : Nat, j + 1 ≤ f1 → j + 1 ≤ f2 →
      tracePath c par f1 (j : Int) = tracePath c par f2 (j : Int) := by
  intro j
  induction j using Nat.strong_induction_on with
  | _ j ih =>
    intro hj f1 f2 h1 h2
    obtain ⟨g1, rfl⟩ : ∃ g, f1 = g + 1 := ⟨f1 - 1, by omega⟩
    obtain ⟨g2, rfl⟩ : ∃ g, f2 = g + 1 := ⟨f2 - 1, by omega⟩
    have hne : ¬ ((j : Int) = -1) := by omega
    simp only [tracePath, hne, if_false, Int.toNat_ofNat, hpar j hj]
    congr 1
    rcases Nat.eq_zero_or_pos j with hj0 | hj0
    · subst hj0
      rw [parAt_zero, tracePath_neg_one, tracePath_neg_one]
    · rcases dp_parent sm H c T mw hs hj0 hj with ⟨-, h⟩ | ⟨q, hq, hpq, -⟩
      · rw [h, tracePath_neg_one, tracePath_neg_one]
      · rw [hpq]
        exact ih q hq (by omega) g1 g2 (by omega) (by omega)

/-! ## The candidate sequence -/

theorem head?_eq_getD {l : List Nat} (h : 0 < l.length) : l.head? = some (l.getD 0 0) := by
  cases l with
  | nil => simp at h
  | cons a t => rfl

theorem getLast?_eq_getD {l : List Nat} (h : 0 < l.length) :
    l.getLast? = some (l.getD (l.length - 1) 0) := by
  rw [List.getLast?_eq_getElem?, List.getElem?_eq_getElem (by omega),
    List.getD_eq_getElem l 0 (by omega)]

/-- C15. For every height >= 1 and every profile, target height, cut mode and parameters, the
candidate sequence after sorting and de-duplication is strictly increasing (hence
duplicate-free), every element lies in [0, height], its first element is 0 and its last
element is height. -/
theorem candidates_strictly_increasing (p : Nat → ℚ) (H T : Nat) (m : Int) (mode : CutMode)
    (snap rad : Int) (thr : ℚ) (hH : 1 ≤ H) :
    List.Sorted (· < ·) (candidates p H T m mode snap rad thr) ∧
      (candidates p H T m mode snap rad thr).Nodup ∧
      (∀ x ∈ candidates p H T m mode snap rad thr, 0 ≤ x ∧ x ≤ H) ∧
      (candidates p H T m mode snap rad thr).head? = some 0 ∧
      (candidates p H T m mode snap rad thr).getLast? = some H := by
  have hs := candidates_shape p H T m mode snap rad thr hH
  have hlen := hs.two
  refine ⟨hs.sorted, hs.sorted.nodup, fun x hx => ⟨Nat.zero_le x, hs.le x hx⟩, ?_, ?_⟩
  · rw [head?_eq_getD (by omega), hs.first]
  · rw [getLast?_eq_getD (by omega), hs.last]

/-- C15, instance: the 100-row spike profile in fixed-height-snap mode. -/
theorem candidates_strictly_increasing_witness :
    1 ≤ 100 ∧
    (List.Sorted (· < ·) (candidates (spikeProfile 50 1) 100 50 12
        CutMode.CUT_MODE_FIXED_HEIGHT_SNAP 40 2 (3 / 10)) ∧
      (candidates (spikeProfile 50 1) 100 50 12
        CutMode.CUT_MODE_FIXED_HEIGHT_SNAP 40 2 (3 / 10)).Nodup ∧
      (∀ x ∈ candidates (spikeProfile 50 1) 100 50 12
        CutMode.CUT_MODE_FIXED_HEIGHT_SNAP 40 2 (3 / 10), 0 ≤ x ∧ x ≤ 100) ∧
      (candidates (spikeProfile 50 1) 100 50 12
        CutMode.CUT_MODE_FIXED_HEIGHT_SNAP 40 2 (3 / 10)).head? = some 0 ∧
      (candidates (spikeProfile 50 1) 100 50 12
        CutMode.CUT_MODE_FIXED_HEIGHT_SNAP 40 2 (3 / 10)).getLast? = some 100) :=
  ⟨by decide, candidates_strictly_increasing (spikeProfile 50 1) 100 50 12
    CutMode.CUT_MODE_FIXED_HEIGHT_SNAP 40 2 (3 / 10) (by decide)⟩

/-! ## The local mean -/

/-- C16. In `compute_ink_density`, for every pixel (x,y) of every image, the local mean is the
brute-force sum of the gray values over the 11 × 11 window [x-5,x+5] × [y-5,y+5] clipped to
the image, divided by the number of pixels of that clipped window (the divisor `area` of the
code equals that count, also at a border), the threshold is the truncation of that mean minus
2, and the divisor is at least 1. -/
theorem windowMean_eq_localMean (gray : Nat → Nat) (width height x y : Nat) (hx : x < width)
    (hy : y < height) :
    windowMean (compute_integral_image gray width height) width height x y
        = (rectSumBrute gray width height ((x : Int) - 5) ((y : Int) - 5) ((x : Int) + 5)
            ((y : Int) + 5) : ℚ)
          / (rectCount width height ((x : Int) - 5) ((y : Int) - 5) ((x : Int) + 5)
            ((y : Int) + 5) : ℚ) ∧
      windowArea width height x y
        = rectCount width height ((x : Int) - 5) ((y : Int) - 5) ((x : Int) + 5)
            ((y : Int) + 5) ∧
      1 ≤ windowArea width height x y ∧
      inkThresh (compute_integral_image gray width height) width height x y
        = cTrunc (windowMean (compute_integral_image gray width height) width height x y - 2) := by
  refine ⟨?_, windowArea_eq_rectCount width height x y hx hy,
    windowArea_pos width height x y hx hy, rfl⟩
  unfold windowMean
  simp only [half_block_eq]
  rw [get_rect_sum_eq, windowArea_eq_rectCount width height x y hx hy]

/-- C16, instance: the corner pixel (0,0) of the 3 × 2 example image, whose clipped window
is the whole image (6 pixels, not 121). -/
theorem windowMean_eq_localMean_witness :
    (0 < 3 ∧ 0 < 2) ∧
    (windowMean (compute_integral_image sampleImage 3 2) 3 2 0 0
        = (rectSumBrute sampleImage 3 2 (((0 : Nat) : Int) - 5) (((0 : Nat) : Int) - 5) (((0 : Nat) : Int) + 5)
            (((0 : Nat) : Int) + 5) : ℚ)
          / (rectCount 3 2 (((0 : Nat) : Int) - 5) (((0 : Nat) : Int) - 5) (((0 : Nat) : Int) + 5)
            (((0 : Nat) : Int) + 5) : ℚ) ∧
      windowArea 3 2 0 0
        = rectCount 3 2 (((0 : Nat) : Int) - 5) (((0 : Nat) : Int) - 5) (((0 : Nat) : Int) + 5) (((0 : Nat) : Int) + 5) ∧
      1 ≤ windowArea 3 2 0 0 ∧
      inkThresh (compute_integral_image sampleImage 3 2) 3 2 0 0
        = cTrunc (windowMean (compute_integral_image sampleImage 3 2) 3 2 0 0 - 2)) :=
  ⟨⟨by decide, by decide⟩, windowMean_eq_localMean sampleImage 3 2 0 0 (by decide) (by decide)⟩
/-! ## Smoothing is a clipped box mean evaluated in doubles -/

/-- Rounding error of the window sum of a profile with values in [0,1]: each of the at
most 21 rounded additions stays below 32 and errs by at most `2^-49`. -/
theorem boxSum_unit (p : Nat → ℚ) (s n : Nat) (hn : n ≤ 21)
    (hp : ∀ k, s ≤ k → k < s + n → 0 ≤ p k ∧ p k ≤ 1) :
    0 ≤ boxSum p s n ∧ boxSum p s n ≤ (n : ℚ) ∧
      |boxSum p s n - ∑ k ∈ Finset.Ico s (s + n), p k| ≤ (n : ℚ) * pow2 (-49) := by
  induction n with
  | zero => simp [boxSum]
  | succ n ih =>
    obtain ⟨h0, h1, h2⟩ := ih (by omega) (fun k hk1 hk2 => hp k hk1 (by omega))
    obtain ⟨h3, h4⟩ := hp (s + n) (by omega) (by omega)
    have hx0 : 0 ≤ boxSum p s n + p (s + n) := add_nonneg h0 h3
    have hx1 : boxSum p s n + p (s + n) ≤ ((n + 1 : Nat) : ℚ) := by push_cast; linarith
    have hx2 : boxSum p s n + p (s + n) < pow2 5 := by
      rw [pow2_five]
      have : ((n + 1 : Nat) : ℚ) ≤ 21 := by exact_mod_cast hn
      linarith
    have herr := fl64_err_abs 5 hx0 hx2 (by omega)
    simp only [boxSum]
    refine ⟨fl64_nonneg hx0, ?_, ?_⟩
    · have := fl64_mono hx1
      rwa [fl64_natCast _ (by omega)] at this
    · rw [← Nat.add_assoc, Finset.sum_Ico_succ_top (by omega)]
      have e : fl64 (boxSum p s n + p (s + n)) - (∑ k ∈ Finset.Ico s (s + n), p k + p (s + n))
          = (fl64 (boxSum p s n + p (s + n)) - (boxSum p s n + p (s + n)))
            + (boxSum p s n - ∑ k ∈ Finset.Ico s (s + n), p k) := by ring
      rw [e]
      calc |(fl64 (boxSum p s n + p (s + n)) - (boxSum p s n + p (s + n)))
              + (boxSum p s n - ∑ k ∈ Finset.Ico s (s + n), p k)|
          ≤ |fl64 (boxSum p s n + p (s + n)) - (boxSum p s n + p (s + n))|
              + |boxSum p s n - ∑ k ∈ Finset.Ico s (s + n), p k| := abs_add _ _
        _ ≤ pow2 (5 - 54) + (n : ℚ) * pow2 (-49) := add_le_add herr h2
        _ = ((n + 1 : Nat) : ℚ) * pow2 (-49) := by push_cast; ring

theorem smoothed_window (H i : Nat) (hi : i < H) :
    Finset.Icc (i - 10) (min (H - 1) (i + 10))
        = Finset.Ico (i - 10) (i - 10 + (min H (i + 10 + 1) - (i - 10))) ∧
      (Finset.Icc (i - 10) (min (H - 1) (i + 10))).card = min H (i + 10 + 1) - (i - 10) := by
  have h1 : i - 10 + (min H (i + 10 + 1) - (i - 10)) = min (H - 1) (i + 10) + 1 := by omega
  constructor
  · rw [h1]
    ext k
    simp only [Finset.mem_Icc, Finset.mem_Ico]
    omega
  · rw [Nat.card_Icc]
    omega

theorem sum_window_bounds (p : Nat → ℚ) (s n : Nat) (lo hi : ℚ)
    (h : ∀ k, s ≤ k → k < s + n → lo ≤ p k ∧ p k ≤ hi) :
    (n : ℚ) * lo ≤ ∑ k ∈ Finset.Ico s (s + n), p k ∧
      ∑ k ∈ Finset.Ico s (s + n), p k ≤ (n : ℚ) * hi := by
  induction n with
  | zero => simp
  | succ n ih =>
    obtain ⟨h1, h2⟩ := ih (fun k hk1 hk2 => h k hk1 (by omega))
    obtain ⟨h3, h4⟩ := h (s + n) (by omega) (by omega)
    rw [← Nat.add_assoc, Finset.sum_Ico_succ_top (by omega)]
    push_cast
    constructor <;> linarith

/-- C17, the claim fails: on the constant profile of height 30 whose density is the double
nearest to 0.7 on every row (a profile of doubles in [0,1]), the mean of every window is that
double, but the smoothed value of row 0 is above it and the smoothed value of row 7 is below
it: the smoothed value is not the mean and does not lie between the minimum and the maximum
of the raw profile. -/
theorem smoothed_not_window_mean :
    (∀ k, fl64 (constProfile k) = constProfile k ∧ 0 ≤ constProfile k ∧ constProfile k ≤ 1) ∧
    (∑ k ∈ Finset.Icc (0 - 10) (min (30 - 1) (0 + 10)), constProfile k)
        / ((Finset.Icc (0 - 10) (min (30 - 1) (0 + 10))).card : ℚ) = constProfile 0 ∧
    smoothed constProfile 30 0
      ≠ (∑ k ∈ Finset.Icc (0 - 10) (min (30 - 1) (0 + 10)), constProfile k)
        / ((Finset.Icc (0 - 10) (min (30 - 1) (0 + 10))).card : ℚ) ∧
    (∀ k, constProfile k ≤ constProfile 0) ∧ constProfile 0 < smoothed constProfile 30 0 ∧
    (∀ k, constProfile 0 ≤ constProfile k) ∧ smoothed constProfile 30 7 < constProfile 0 := by
  have hmean : (∑ k ∈ Finset.Icc (0 - 10) (min (30 - 1) (0 + 10)), constProfile k)
      / ((Finset.Icc (0 - 10) (min (30 - 1) (0 + 10))).card : ℚ) = constProfile 0 := by
    unfold constProfile
    rw [Finset.sum_const, Nat.card_Icc]
    norm_num
  have habove : constProfile 0 < smoothed constProfile 30 0 := by decide!
  have hfix : fl64 (constProfile 0) = constProfile 0 := by decide!
  refine ⟨fun k => ⟨hfix, by unfold constProfile; norm_num,
    by unfold constProfile; norm_num⟩, hmean, ?_, fun _ => le_rfl, habove, fun _ => le_rfl,
    by decide!⟩
  rw [hmean]
  exact habove.ne'

/-- C17, amended. For every profile and height and every row i < height, the smoothed value
at i is the mean of the raw profile over the rows max(0, i-10) .. min(height-1, i+10) as
evaluated in double arithmetic: the sum of the window, accumulated from the lowest row with
every addition rounded, divided by the number of rows of the window (between 1 and 21),
rounded.  When the profile has values in [0,1], the smoothed value lies in [0,1], differs
from the exact mean by at most `2^-48`, and lies within `2^-48` of every interval that holds
the raw profile (so within `2^-48` of the range between its minimum and maximum). -/
theorem smoothed_near_window_mean (p : Nat → ℚ) (H i : Nat) (hi : i < H) :
    smoothed p H i = roundedSmoothed p H i ∧
      1 ≤ (Finset.Icc (i - 10) (min (H - 1) (i + 10))).card ∧
      (Finset.Icc (i - 10) (min (H - 1) (i + 10))).card ≤ 21 ∧
      ((∀ k, k < H → 0 ≤ p k ∧ p k ≤ 1) →
        0 ≤ smoothed p H i ∧ smoothed p H i ≤ 1 ∧
        |smoothed p H i
            - (∑ k ∈ Finset.Icc (i - 10) (min (H - 1) (i + 10)), p k)
              / ((Finset.Icc (i - 10) (min (H - 1) (i + 10))).card : ℚ)| ≤ pow2 (-48) ∧
        ∀ lo hi : ℚ, (∀ k, k < H → lo ≤ p k ∧ p k ≤ hi) →
          lo - pow2 (-48) ≤ smoothed p H i ∧ smoothed p H i ≤ hi + pow2 (-48)) := by
  obtain ⟨hwin, hcard⟩ := smoothed_window H i hi
  have hpos : 0 < min H (i + 10 + 1) - (i - 10) := by omega
  have hn21 : min H (i + 10 + 1) - (i - 10) ≤ 21 := by omega
  refine ⟨smoothed_eq_rounded p H i hi, by omega, by omega, ?_⟩
  intro hp
  have hsm : smoothed p H i
      = fl64 (boxSum p (i - 10) (min H (i + 10 + 1) - (i - 10))
        / ((min H (i + 10 + 1) - (i - 10) : Nat) : ℚ)) := by
    unfold smoothed smooth_radius
    simp only
    rw [if_pos hpos]
  rw [hcard, hwin]
  generalize min H (i + 10 + 1) - (i - 10) = n at hpos hn21 hsm hwin hcard ⊢
  have hrows : ∀ k, i - 10 ≤ k → k < i - 10 + n → k < H := by
    intro k h1 h2
    have : k ∈ Finset.Ico (i - 10) (i - 10 + n) := Finset.mem_Ico.mpr ⟨h1, h2⟩
    rw [← hwin, Finset.mem_Icc] at this
    omega
  obtain ⟨b0, b1, b2⟩ := boxSum_unit p (i - 10) n hn21 (fun k h1 h2 => hp k (hrows k h1 h2))
  have hq : (0 : ℚ) < (n : ℚ) := by exact_mod_cast hpos
  have hq0 : 0 ≤ boxSum p (i - 10) n / (n : ℚ) := div_nonneg b0 hq.le
  have hq1 : boxSum p (i - 10) n / (n : ℚ) ≤ 1 := by
    rw [div_le_one hq]; exact b1
  have hq2 : boxSum p (i - 10) n / (n : ℚ) < pow2 1 := by
    rw [pow2_one]; linarith
  have herr := fl64_err_abs 1 hq0 hq2 (by omega)
  have hdiv : |boxSum p (i - 10) n / (n : ℚ)
      - (∑ k ∈ Finset.Ico (i - 10) (i - 10 + n), p k) / (n : ℚ)| ≤ pow2 (-49) := by
    rw [← sub_div, abs_div, abs_of_pos hq, div_le_iff₀ hq]
    linarith [mul_comm (pow2 (-49)) (n : ℚ)]
  have hclose : |smoothed p H i
      - (∑ k ∈ Finset.Ico (i - 10) (i - 10 + n), p k) / (n : ℚ)| ≤ pow2 (-48) := by
    rw [hsm]
    have e : fl64 (boxSum p (i - 10) n / (n : ℚ))
          - (∑ k ∈ Finset.Ico (i - 10) (i - 10 + n), p k) / (n : ℚ)
        = (fl64 (boxSum p (i - 10) n / (n : ℚ)) - boxSum p (i - 10) n / (n : ℚ))
          + (boxSum p (i - 10) n / (n : ℚ)
            - (∑ k ∈ Finset.Ico (i - 10) (i - 10 + n), p k) / (n : ℚ)) := by ring
    rw [e]
    calc |(fl64 (boxSum p (i - 10) n / (n : ℚ)) - boxSum p (i - 10) n / (n : ℚ))
            + (boxSum p (i - 10) n / (n : ℚ)
              - (∑ k ∈ Finset.Ico (i - 10) (i - 10 + n), p k) / (n : ℚ))|
        ≤ |fl64 (boxSum p (i - 10) n / (n : ℚ)) - boxSum p (i - 10) n / (n : ℚ)|
            + |boxSum p (i - 10) n / (n : ℚ)
              - (∑ k ∈ Finset.Ico (i - 10) (i - 10 + n), p k) / (n : ℚ)| := abs_add _ _
      _ ≤ pow2 (1 - 54) + pow2 (-49) := add_le_add herr hdiv
      _ ≤ pow2 (-48) := by
        have := pow2_m48
        have h53 : pow2 (1 - 54) = pow2 (-53) := by congr 1
        rw [h53]; linarith
  refine ⟨?_, ?_, hclose, ?_⟩
  · rw [hsm]; exact fl64_nonneg hq0
  · rw [hsm]
    have := fl64_mono hq1
    rwa [fl64_one] at this
  · intro lo hi' hb
    obtain ⟨s1, s2⟩ := sum_window_bounds p (i - 10) n lo hi'
      (fun k h1 h2 => hb k (hrows k h1 h2))
    have m1 : lo ≤ (∑ k ∈ Finset.Ico (i - 10) (i - 10 + n), p k) / (n : ℚ) := by
      rw [le_div_iff₀ hq]; linarith
    have m2 : (∑ k ∈ Finset.Ico (i - 10) (i - 10 + n), p k) / (n : ℚ) ≤ hi' := by
      rw [div_le_iff₀ hq]; linarith
    obtain ⟨c1, c2⟩ := abs_le.mp hclose
    constructor <;> linarith

/-- C17, amended, instance: row 0 of the constant profile of height 30 with density the
double nearest to 0.7; its smoothed value is above 0.7, within `2^-48`. -/
theorem smoothed_near_window_mean_witness :
    (0 < 30 ∧ ∀ k, k < 30 → 0 ≤ constProfile k ∧ constProfile k ≤ 1) ∧
    (smoothed constProfile 30 0 = roundedSmoothed constProfile 30 0 ∧
      1 ≤ (Finset.Icc (0 - 10) (min (30 - 1) (0 + 10))).card ∧
      (Finset.Icc (0 - 10) (min (30 - 1) (0 + 10))).card ≤ 21 ∧
      ((∀ k, k < 30 → 0 ≤ constProfile k ∧ constProfile k ≤ 1) →
        0 ≤ smoothed constProfile 30 0 ∧ smoothed constProfile 30 0 ≤ 1 ∧
        |smoothed constProfile 30 0
            - (∑ k ∈ Finset.Icc (0 - 10) (min (30 - 1) (0 + 10)), constProfile k)
              / ((Finset.Icc (0 - 10) (min (30 - 1) (0 + 10))).card : ℚ)| ≤ pow2 (-48) ∧
        ∀ lo hi : ℚ, (∀ k, k < 30 → lo ≤ constProfile k ∧ constProfile k ≤ hi) →
          lo - pow2 (-48) ≤ smoothed constProfile 30 0 ∧
            smoothed constProfile 30 0 ≤ hi + pow2 (-48))) :=
  ⟨⟨by decide, fun _ _ => ⟨by unfold constProfile; norm_num, by unfold constProfile; norm_num⟩⟩,
    smoothed_near_window_mean constProfile 30 0 (by decide)⟩

/-! ## No page is taller than the window allows -/

theorem uniformGrid_step (H T : Nat) (hT : 1 ≤ T) (i : Nat)
    (hi : i + 1 < (uniformGrid H T).length) :
    (uniformGrid H T).getD (i + 1) 0 ≤ (uniformGrid H T).getD i 0 + T := by
  unfold uniformGrid at hi ⊢
  simp only [List.length_append, List.length_map, List.length_range, List.length_singleton]
    at hi
  have hlenm : (List.map (fun i => i * T) (List.range ((H + T - 1) / T))).length
      = (H + T - 1) / T := by simp
  have hget : ∀ j, j < (H + T - 1) / T →
      (List.map (fun i => i * T) (List.range ((H + T - 1) / T)) ++ [H]).getD j 0 = j * T := by
    intro j hj
    rw [List.getD_append _ _ _ _ (by rw [hlenm]; exact hj),
      List.getD_eq_getElem _ _ (by rw [hlenm]; exact hj)]
    simp
  rw [hget i (by omega)]
  rcases Nat.lt_or_ge (i + 1) ((H + T - 1) / T) with h | h
  · rw [hget (i + 1) h]
    have : (i + 1) * T = i * T + T := by ring
    omega
  · have hidx : i + 1 = (H + T - 1) / T := by omega
    rw [List.getD_append_right _ _ _ _ (by rw [hlenm]; omega), hlenm]
    have hz : i + 1 - (H + T - 1) / T = 0 := by omega
    rw [hz]
    have hle := (ceilDiv_le_iff H T (i + 1) hT).mp (by omega)
    have : (i + 1) * T = i * T + T := by ring
    simp only [List.getD_cons_zero]
    omega

theorem allInk130_cuts :
    find_optimal_cuts_dp allInkProfile 130 100 (fl64 (3 / 10)) 12 CutMode.CUT_MODE_WHITESPACE
      40 2 (3 / 10) = [0, 130] := by
  have hc : candidates allInkProfile 130 100 12 CutMode.CUT_MODE_WHITESPACE 40 2 (3 / 10)
      = [0, 130] :=
    candidates_all_ink allInkProfile 130 100 12 40 2 (3 / 10) (by decide) (fun _ _ => rfl)
  unfold find_optimal_cuts_dp
  simp only [hc]
  decide!

/-- C18, the claim fails with `max_window = floor(target_height_px * window_frac)`: for
the all-ink profile of height 130 (values in [0,1]), target height 100 and window_frac the
double nearest to 0.3, the exact product is just below 30 and its floor is 29, but the code
computes `max_window = 30`, takes the DP path and returns `[0, 130]`, a page of 130 rows,
taller than 100 + 29. -/
theorem page_taller_than_floor_window :
    (1 ≤ 130 ∧ 1 ≤ 100 ∧ (0 : ℚ) ≤ fl64 (3 / 10) ∧
      ∀ i, 0 ≤ allInkProfile i ∧ allInkProfile i ≤ 1) ∧
    ⌊((100 : Nat) : ℚ) * fl64 (3 / 10)⌋ = 29 ∧
    maxWindow 100 (fl64 (3 / 10)) = 30 ∧
    find_optimal_cuts_dp allInkProfile 130 100 (fl64 (3 / 10)) 12 CutMode.CUT_MODE_WHITESPACE
      40 2 (3 / 10) = [0, 130] ∧
    (100 : Int) + ⌊((100 : Nat) : ℚ) * fl64 (3 / 10)⌋ < (130 : Int) - 0 := by
  have hfloor : ⌊((100 : Nat) : ℚ) * fl64 (3 / 10)⌋ = 29 := by decide!
  refine ⟨⟨by decide, by decide, fl64_nonneg (by norm_num), fun _ => ?_⟩, hfloor, by decide!,
    allInk130_cuts, ?_⟩
  · unfold allInkProfile; norm_num
  · rw [hfloor]; decide

/-- C18, amended. For every height >= 1, target_height_px >= 1, window_frac >= 0 and every
profile, no page of the cut list returned by `find_optimal_cuts_dp` (DP path or fallback,
final page included) is taller than target_height_px + max_window, where `max_window` is the
integer `(int)(target_height_px * window_frac)` of the code, the product being rounded to a
double before the truncation: when the product is below `2^31` it is
`floor(target_height_px * window_frac)` or the next integer. -/
theorem find_optimal_cuts_dp_page_le (p : Nat → ℚ) (H T : Nat) (wf : ℚ) (m : Int)
    (mode : CutMode) (snap rad : Int) (thr : ℚ) (hH : 1 ≤ H) (hT : 1 ≤ T) (hwf : 0 ≤ wf)
    (i : Nat) (hi : i + 1 < (find_optimal_cuts_dp p H T wf m mode snap rad thr).length) :
    ((find_optimal_cuts_dp p H T wf m mode snap rad thr).getD (i + 1) 0 : Int)
        - ((find_optimal_cuts_dp p H T wf m mode snap rad thr).getD i 0 : Int)
        ≤ (T : Int) + maxWindow T wf ∧
      maxWindow T wf = ⌊fl64 ((T : ℚ) * wf)⌋ ∧
      ((T : ℚ) * wf < 2 ^ 31 →
        ⌊(T : ℚ) * wf⌋ ≤ maxWindow T wf ∧ maxWindow T wf ≤ ⌊(T : ℚ) * wf⌋ + 1) := by
  obtain ⟨hmw, hmw0⟩ := maxWindow_eq_floor T wf hwf
  refine ⟨?_, hmw, ?_⟩
  · by_cases h : DP_UNREACHABLE ≤ terminalCost p H T wf m mode snap rad thr
    · rw [find_optimal_cuts_dp_fallback p H T wf m mode snap rad thr h,
        fallbackCuts_eq H T hH hT] at hi ⊢
      have := uniformGrid_step H T hT i hi
      omega
    · obtain ⟨-, hchain⟩ :=
        find_optimal_cuts_dp_chain p H T wf m mode snap rad thr hH (not_le.mp h)
      generalize find_optimal_cuts_dp p H T wf m mode snap rad thr = R at hi hchain ⊢
      have hedge : edgeOK H T (maxWindow T wf) (R.getD i 0) (R.getD (i + 1) 0) := by
        have := List.chain'_iff_get.mp hchain i (by omega)
        rw [List.getD_eq_getElem R 0 (by omega), List.getD_eq_getElem R 0 hi]
        exact this
      have h2 := hedge.2
      split_ifs at h2 with hlast
      · exact h2.2
      · have := (abs_le.mp h2).2
        omega
  · intro hx
    obtain ⟨h1, h2⟩ := maxWindow_between T wf hwf hx
    exact ⟨h1, le_trans h2 (Int.ceil_le_floor_add_one _)⟩

/-- C18, amended, instance: the single page of the DP path on the all-ink profile of height
130 with target height 100 and window_frac the double nearest to 0.3. -/
theorem find_optimal_cuts_dp_page_le_witness :
    (1 ≤ 130 ∧ 1 ≤ 100 ∧ (0 : ℚ) ≤ fl64 (3 / 10) ∧
      0 + 1 < (find_optimal_cuts_dp allInkProfile 130 100 (fl64 (3 / 10)) 12
        CutMode.CUT_MODE_WHITESPACE 40 2 (3 / 10)).length ∧
      ((100 : Nat) : ℚ) * fl64 (3 / 10) < 2 ^ 31) ∧
    (((find_optimal_cuts_dp allInkProfile 130 100 (fl64 (3 / 10)) 12
          CutMode.CUT_MODE_WHITESPACE 40 2 (3 / 10)).getD (0 + 1) 0 : Int)
        - ((find_optimal_cuts_dp allInkProfile 130 100 (fl64 (3 / 10)) 12
          CutMode.CUT_MODE_WHITESPACE 40 2 (3 / 10)).getD 0 0 : Int)
        ≤ ((100 : Nat) : Int) + maxWindow 100 (fl64 (3 / 10)) ∧
      maxWindow 100 (fl64 (3 / 10)) = ⌊fl64 (((100 : Nat) : ℚ) * fl64 (3 / 10))⌋ ∧
      (((100 : Nat) : ℚ) * fl64 (3 / 10) < 2 ^ 31 →
        ⌊((100 : Nat) : ℚ) * fl64 (3 / 10)⌋ ≤ maxWindow 100 (fl64 (3 / 10)) ∧
          maxWindow 100 (fl64 (3 / 10)) ≤ ⌊((100 : Nat) : ℚ) * fl64 (3 / 10)⌋ + 1)) :=
  have hlen : 0 + 1 < (find_optimal_cuts_dp allInkProfile 130 100 (fl64 (3 / 10)) 12
      CutMode.CUT_MODE_WHITESPACE 40 2 (3 / 10)).length := by
    rw [allInk130_cuts]; decide
  ⟨⟨by decide, by decide, fl64_nonneg (by norm_num), hlen, by decide!⟩,
    find_optimal_cuts_dp_page_le allInkProfile 130 100 (fl64 (3 / 10)) 12
      CutMode.CUT_MODE_WHITESPACE 40 2 (3 / 10) (by decide) (by decide)
      (fl64_nonneg (by norm_num)) 0 hlen⟩

/-! ## Band minima -/

theorem bandScan_spec (sm : Nat → ℚ) (s n : Nat) :
    (bandScan sm s n).2 ≤ 1 ∧
      (∀ r, s ≤ r → r < s + n → (bandScan sm s n).2 ≤ sm r) ∧
      ((bandScan sm s n).1 = -1 → (bandScan sm s n).2 = 1) ∧
      ((bandScan sm s n).1 ≠ -1 →
        ∃ r0 : Nat, (bandScan sm s n).1 = (r0 : Int) ∧ s ≤ r0 ∧ r0 < s + n ∧
          sm r0 = (bandScan sm s n).2 ∧ sm r0 < 1) := by
  induction n with
  | zero =>
    exact ⟨le_rfl, fun r h1 h2 => by omega, fun _ => rfl, fun h => absurd rfl h⟩
  | succ n ih =>
    obtain ⟨h1, h2, h3, h4⟩ := ih
    simp only [bandScan]
    split_ifs with hlt
    · refine ⟨le_trans hlt.le h1, ?_, ?_, ?_⟩
      · intro r hr1 hr2
        rcases Nat.lt_or_ge r (s + n) with h | h
        · exact le_trans hlt.le (h2 r hr1 h)
        · have : r = s + n := by omega
          rw [this]
      · intro h
        exfalso
        simp only at h
      · intro _
        exact ⟨s + n, rfl, by omega, by omega, rfl, lt_of_lt_of_le hlt h1⟩
    · refine ⟨h1, ?_, h3, ?_⟩
      · intro r hr1 hr2
        rcases Nat.lt_or_ge r (s + n) with h | h
        · exact h2 r hr1 h
        · have : r = s + n := by omega
          rw [this]
          exact not_lt.mp hlt
      · intro h
        obtain ⟨r0, e1, e2, e3, e4, e5⟩ := h4 h
        exact ⟨r0, e1, e2, by omega, e4, e5⟩

theorem bandLoop_mem_of_band (sm : Nat → ℚ) (H : Nat) (j : Nat) :
    ∀ fuel s0 : Nat, j + 1 ≤ fuel → s0 + band_size * j < H →
      (bandScan sm (s0 + band_size * j)
          (min (s0 + band_size * j + band_size) H - (s0 + band_size * j))).1 ≠ -1 →
      (bandScan sm (s0 + band_size * j)
          (min (s0 + band_size * j + band_size) H - (s0 + band_size * j))).1.toNat
        ∈ bandLoop sm H fuel s0 := by
  induction j with
  | zero =>
    intro fuel s0 hf hs hne
    obtain ⟨f, rfl⟩ : ∃ f, fuel = f + 1 := ⟨fuel - 1, by omega⟩
    simp only [Nat.mul_zero, Nat.add_zero] at hs hne ⊢
    simp only [bandLoop, if_pos hs]
    rw [if_pos hne]
    exact List.mem_cons_self _ _
  | succ j ih =>
    intro fuel s0 hf hs hne
    obtain ⟨f, rfl⟩ : ∃ f, fuel = f + 1 := ⟨fuel - 1, by omega⟩
    have hidx : s0 + band_size * (j + 1) = s0 + band_size + band_size * j := by ring
    rw [hidx] at hs hne ⊢
    have hs0 : s0 < H := by omega
    have := ih f (s0 + band_size) (by omega) hs hne
    simp only [bandLoop, if_pos hs0]
    split_ifs
    · exact List.mem_cons_of_mem _ this
    · exact this

theorem bandLoop_mem_source (sm : Nat → ℚ) (H : Nat) (x : Nat) :
    ∀ fuel s0 : Nat, x ∈ bandLoop sm H fuel s0 →
      ∃ k : Nat, s0 + band_size * k < H ∧
        (bandScan sm (s0 + band_size * k)
          (min (s0 + band_size * k + band_size) H - (s0 + band_size * k))).1 = (x : Int) := by
  intro fuel
  induction fuel with
  | zero => intro s0 hx; simp [bandLoop] at hx
  | succ f ih =>
    intro s0 hx
    simp only [bandLoop] at hx
    have hrec : x ∈ bandLoop sm H f (s0 + band_size) →
        ∃ k : Nat, s0 + band_size * k < H ∧
          (bandScan sm (s0 + band_size * k)
            (min (s0 + band_size * k + band_size) H - (s0 + band_size * k))).1 = (x : Int) := by
      intro h
      obtain ⟨k, hk1, hk2⟩ := ih (s0 + band_size) h
      have hidx : s0 + band_size * (k + 1) = s0 + band_size + band_size * k := by ring
      exact ⟨k + 1, by rw [hidx]; exact hk1, by rw [hidx]; exact hk2⟩
    split_ifs at hx with h1 h2
    · rcases List.mem_cons.mp hx with h | h
      · refine ⟨0, by simpa using h1, ?_⟩
        simp only [Nat.mul_zero, Nat.add_zero]
        rcases bandScan_idx sm s0 (min (s0 + band_size) H - s0) with h3 | ⟨q, h3, -, -⟩
        · exact absurd h3 h2
        · rw [h3] at h ⊢
          simp only [Int.toNat_ofNat] at h
          rw [h]
      · exact hrec h
    · exact hrec hx
    · simp at hx

/-- C13, the claim fails: all-ink profile of height 201 (values in [0,1]), whitespace mode;
the candidate set is `[0, 201]` and holds no row of band 1, which is the single row 200. -/
theorem band_without_candidate :
    (1 ≤ 201 ∧ ∀ k, k < 201 → 0 ≤ allInkProfile k ∧ allInkProfile k ≤ 1) ∧
    inBand 201 1 200 ∧
    candidates allInkProfile 201 100 12 CutMode.CUT_MODE_WHITESPACE 40 2 (3 / 10) = [0, 201] ∧
    ∀ r, inBand 201 1 r →
      r ∉ candidates allInkProfile 201 100 12 CutMode.CUT_MODE_WHITESPACE 40 2 (3 / 10) := by
  have hc := candidates_all_ink allInkProfile 201 100 12 40 2 (3 / 10) (by decide)
    (fun _ _ => rfl)
  refine ⟨⟨by decide, fun k _ => ⟨by norm_num [allInkProfile], by norm_num [allInkProfile]⟩⟩,
    ?_, hc, ?_⟩
  · unfold inBand band_size; omega
  · intro r hr
    rw [hc]
    unfold inBand band_size at hr
    simp only [List.mem_cons, List.mem_singleton, List.not_mem_nil, or_false]
    omega

/-- C13, amended. For every height and profile and each band of 200 rows
[200 j, min(200 (j+1), height)) that holds a row whose smoothed density is below 1, the
candidate set contains a row of that band whose smoothed density is the minimum smoothed
density over the band; a band all of whose smoothed densities are at least 1 contributes no
band-minimum candidate. -/
theorem band_minimum_is_candidate (p : Nat → ℚ) (H T : Nat) (m : Int) (mode : CutMode)
    (snap rad : Int) (thr : ℚ) (j : Nat) :
    ((∃ r, inBand H j r ∧ smoothed p H r < 1) →
        ∃ r, inBand H j r ∧ r ∈ candidates p H T m mode snap rad thr ∧
          ∀ r', inBand H j r' → smoothed p H r ≤ smoothed p H r') ∧
      ((∀ r, inBand H j r → ¬ smoothed p H r < 1) →
        ∀ x ∈ bandCandidates (smoothed p H) H, ¬ inBand H j x) := by
  constructor
  · rintro ⟨r1, hr1, hlt⟩
    have hr1' := hr1
    simp only [inBand, band_size] at hr1'
    have hjH : 0 + band_size * j < H := by simp only [band_size]; omega
    obtain ⟨-, h2, h3, h4⟩ := bandScan_spec (smoothed p H) (0 + band_size * j)
      (min (0 + band_size * j + band_size) H - (0 + band_size * j))
    have hmem := bandLoop_mem_of_band (smoothed p H) H j H 0
      (by simp only [band_size] at hjH; omega) hjH
    simp only [band_size] at h2 h3 h4 hmem
    have hne : (bandScan (smoothed p H) (0 + 200 * j)
        (min (0 + 200 * j + 200) H - (0 + 200 * j))).1 ≠ -1 := by
      intro hneg
      have h5 := h2 r1 (by omega) (by omega)
      rw [h3 hneg] at h5
      exact absurd hlt (not_lt.mpr h5)
    obtain ⟨r0, e1, e2, e3, e4, -⟩ := h4 hne
    have hmem' := hmem hne
    rw [e1, Int.toNat_ofNat] at hmem'
    refine ⟨r0, ?_, ?_, ?_⟩
    · simp only [inBand, band_size]; omega
    · rw [candidates_mem]
      unfold rawCandidates bandCandidates
      exact List.mem_append_left _ (List.mem_append_right _ hmem')
    · intro r' hr'
      simp only [inBand, band_size] at hr'
      rw [e4]
      exact h2 r' (by omega) (by omega)
  · intro hall x hx hxj
    obtain ⟨k, hk1, hk2⟩ := bandLoop_mem_source (smoothed p H) H x H 0 hx
    obtain ⟨-, h2, h3, h4⟩ := bandScan_spec (smoothed p H) (0 + band_size * k)
      (min (0 + band_size * k + band_size) H - (0 + band_size * k))
    have hne : (bandScan (smoothed p H) (0 + band_size * k)
        (min (0 + band_size * k + band_size) H - (0 + band_size * k))).1 ≠ -1 := by
      rw [hk2]; omega
    obtain ⟨r0, e1, e2, e3, e4, e5⟩ := h4 hne
    have hx0 : r0 = x := by
      rw [hk2] at e1
      exact_mod_cast e1.symm
    subst hx0
    exact hall r0 hxj e5

/-- C13, amended, instance: band 0 of the 100-row spike profile holds row 0 with smoothed
density 0. -/
theorem band_minimum_is_candidate_witness :
    (∃ r, inBand 100 0 r ∧ smoothed (spikeProfile 50 1) 100 r < 1) ∧
      ∃ r, inBand 100 0 r ∧
        r ∈ candidates (spikeProfile 50 1) 100 50 12 CutMode.CUT_MODE_WHITESPACE 40 2
          (3 / 10) ∧
        ∀ r', inBand 100 0 r' →
          smoothed (spikeProfile 50 1) 100 r ≤ smoothed (spikeProfile 50 1) 100 r' :=
  have h : ∃ r, inBand 100 0 r ∧ smoothed (spikeProfile 50 1) 100 r < 1 :=
    ⟨0, by unfold inBand band_size; omega, by decide!⟩
  ⟨h, (band_minimum_is_candidate (spikeProfile 50 1) 100 50 12 CutMode.CUT_MODE_WHITESPACE 40 2
    (3 / 10) 0).1 h⟩

/-! ## The early termination of the predecessor scan -/

section Cutoff

variable (c : List Nat) (dp : List ℚ) (T : Nat) (mw : Int) (cur : Nat) (isLast : Bool) (ink : ℚ)

theorem edgeRule_eq_not_skips (dh : Int) :
    edgeRule T mw isLast dh = !skipsEdge T mw isLast dh := by
  cases isLast
  · simp only [edgeRule, skipsEdge, Bool.false_eq_true, if_false, gt_iff_lt]
    by_cases h : |dh - (T : Int)| ≤ mw
    · simp [h, not_lt.mpr h]
    · simp [h, not_le.mp h]
  · simp only [edgeRule, skipsEdge, if_true]
    by_cases h : (50 : Int) ≤ dh
    · simp [h, not_lt.mpr h]
    · simp [h, not_le.mp h]

theorem edgeRuleBounded_of_gt (dh : Int) (h : dh > (T : Int) + mw) :
    edgeRuleBounded T mw isLast dh = false := by
  unfold edgeRuleBounded
  rw [Bool.and_eq_false_iff]
  right
  simp only [decide_eq_false_iff_not, not_le]
  exact h

theorem edgeRuleBounded_of_le (dh : Int) (h : ¬ dh > (T : Int) + mw) :
    edgeRuleBounded T mw isLast dh = !skipsEdge T mw isLast dh := by
  unfold edgeRuleBounded
  rw [edgeRule_eq_not_skips]
  have : decide (dh ≤ (T : Int) + mw) = true := by
    simp only [decide_eq_true_eq]
    exact not_lt.mp h
  rw [this, Bool.and_true]

theorem edgeRuleBounded_non_terminal (dh : Int) :
    edgeRuleBounded T mw false dh = edgeRule T mw false dh := by
  unfold edgeRuleBounded edgeRule
  by_cases h : |dh - (T : Int)| ≤ mw
  · have h2 : dh ≤ (T : Int) + mw := by
      have := (abs_le.mp h).2
      omega
    simp [h, h2]
  · simp [h]

theorem scanPrevRule_none (rule : Bool → Int → Bool) (n : Nat) (st : ℚ × Int)
    (h : ∀ q : Nat, q < n → rule isLast ((cur : Int) - (c.getD q 0 : Int)) = false) :
    scanPrevRule rule c dp T cur isLast ink n st = st := by
  induction n with
  | zero => rfl
  | succ n ih =>
    simp only [scanPrevRule]
    rw [if_neg (by rw [h n (by omega)]; decide)]
    exact ih (fun q hq => h q (by omega))

theorem scanPrevRule_congr (r1 r2 : Bool → Int → Bool) (n : Nat) (st : ℚ × Int)
    (h : ∀ q : Nat, q < n →
      r1 isLast ((cur : Int) - (c.getD q 0 : Int)) = r2 isLast ((cur : Int) - (c.getD q 0 : Int))) :
    scanPrevRule r1 c dp T cur isLast ink n st = scanPrevRule r2 c dp T cur isLast ink n st := by
  induction n generalizing st with
  | zero => rfl
  | succ n ih =>
    simp only [scanPrevRule]
    rw [h n (by omega)]
    split_ifs
    · exact ih _ (fun q hq => h q (by omega))
    · exact ih _ (fun q hq => h q (by omega))
    · exact ih _ (fun q hq => h q (by omega))

theorem scanPrev_eq_rule (n : Nat) (st : ℚ × Int)
    (hmono : ∀ p q : Nat, p ≤ q → q < n → c.getD p 0 ≤ c.getD q 0) :
    scanPrev c dp T mw cur isLast ink n st
      = scanPrevRule (edgeRuleBounded T mw) c dp T cur isLast ink n st := by
  induction n generalizing st with
  | zero => rfl
  | succ n ih =>
    have hmono' : ∀ p q : Nat, p ≤ q → q < n → c.getD p 0 ≤ c.getD q 0 :=
      fun p q h1 h2 => hmono p q h1 (by omega)
    simp only [scanPrev, scanPrevRule]
    by_cases hbreak : (cur : Int) - (c.getD n 0 : Int) > (T : Int) + mw
    · rw [if_pos hbreak, edgeRuleBounded_of_gt T mw isLast _ hbreak]
      rw [if_neg (by decide)]
      refine (scanPrevRule_none c dp T cur isLast ink _ n st ?_).symm
      intro q hq
      refine edgeRuleBounded_of_gt T mw isLast _ ?_
      have := hmono q n (by omega) (by omega)
      omega
    · rw [if_neg hbreak, edgeRuleBounded_of_le T mw isLast _ hbreak]
      cases hs : skipsEdge T mw isLast ((cur : Int) - (c.getD n 0 : Int))
      · simp only [Bool.false_eq_true, if_false, Bool.not_false, if_true]
        split_ifs
        · exact ih _ hmono'
        · exact ih _ hmono'
      · simp only [if_true, Bool.not_true, Bool.false_eq_true, if_false]
        exact ih _ hmono'

end Cutoff

theorem sorted_getD_mono {c : List Nat} (hs : List.Sorted (· < ·) c) (n : Nat)
    (hn : n ≤ c.length) : ∀ p q : Nat, p ≤ q → q < n → c.getD p 0 ≤ c.getD q 0 := by
  intro p q h1 h2
  rcases Nat.eq_or_lt_of_le h1 with h | h
  · subst h; exact le_rfl
  · exact (sorted_getD_lt hs h (by omega)).le

theorem dpStep_eq_rule (sm : Nat → ℚ) (H : Nat) (c : List Nat) (T : Nat) (mw : Int)
    (hs : List.Sorted (· < ·) c) (dp : List ℚ) (k : Nat) (hk : k < c.length) :
    dpStep sm H c T mw dp k = dpStepRule (edgeRuleBounded T mw) sm H c T dp k := by
  unfold dpStep dpStepRule
  exact scanPrev_eq_rule c dp T mw _ _ _ k _ (sorted_getD_mono hs k (by omega))

theorem dpTable_eq_rule (sm : Nat → ℚ) (H : Nat) (c : List Nat) (T : Nat) (mw : Int)
    (hs : List.Sorted (· < ·) c) (k : Nat) (hk : k < c.length) :
    dpTable sm H c T mw k = dpTableRule (edgeRuleBounded T mw) sm H c T k := by
  induction k with
  | zero => rfl
  | succ k ih =>
    simp only [dpTable, dpTableRule]
    rw [ih (by omega), dpStep_eq_rule sm H c T mw hs _ (k + 1) hk]

/-- C11, the claim fails: all-ink profile of height 100, target height 30, max_window 0.  The
candidates are `[0, 100]`; on the terminal candidate the scan stops at the predecessor 0
because dh = 100 > 30, although the terminal rule dh >= 50 admits that edge.  The DP with the
cutoff leaves the terminal unreachable and returns the fallback grid, the DP without it
reaches the terminal at cost 0 and returns `[0, 100]`. -/
theorem cutoff_changes_result :
    candidates allInkProfile 100 30 12 CutMode.CUT_MODE_WHITESPACE 40 2 (3 / 10) = [0, 100] ∧
    edgeRule 30 (maxWindow 30 0) true ((100 : Int) - 0) = true ∧
    terminalCost allInkProfile 100 30 0 12 CutMode.CUT_MODE_WHITESPACE 40 2 (3 / 10) = DP_INF ∧
    dpTableRule (edgeRule 30 (maxWindow 30 0)) (smoothed allInkProfile 100) 100 [0, 100] 30 1
      = ([0, 0], [-1, 0]) ∧
    find_optimal_cuts_dp allInkProfile 100 30 0 12 CutMode.CUT_MODE_WHITESPACE 40 2 (3 / 10)
      = [0, 30, 60, 90, 100] ∧
    find_optimal_cuts_dp_rule edgeRule allInkProfile 100 30 0 12 CutMode.CUT_MODE_WHITESPACE
      40 2 (3 / 10) = [0, 100] := by
  have hc : candidates allInkProfile 100 30 12 CutMode.CUT_MODE_WHITESPACE 40 2 (3 / 10)
      = [0, 100] :=
    candidates_all_ink allInkProfile 100 30 12 40 2 (3 / 10) (by decide) (fun _ _ => rfl)
  refine ⟨hc, by decide!, ?_, by decide!, ?_, ?_⟩
  · unfold terminalCost
    simp only [hc]
    decide!
  · unfold find_optimal_cuts_dp
    simp only [hc]
    decide!
  · unfold find_optimal_cuts_dp_rule
    simp only [hc]
    decide!

/-- C11, amended. The early termination is lossless once the terminal rule carries the bound
of the cutoff: for every non-terminal candidate k the scan with the cutoff computes the same
`(dp[k], parent[k])` as the scan over all predecessors under the rule
`|dh - target| <= max_window`, for every candidate (terminal or not) it computes the same
pair as the scan over all predecessors under the rules (terminal edge: `dh >= 50` and
`dh <= target + max_window`; non-terminal edge: `|dh - target| <= max_window`), and the DP
with the cutoff and the DP without it under these rules have the same dp and parent arrays
and return the same result. -/
theorem cutoff_lossless_bounded (p : Nat → ℚ) (H T : Nat) (wf : ℚ) (m : Int)
    (mode : CutMode) (snap rad : Int) (thr : ℚ) :
    (∀ (dp : List ℚ) (k : Nat), k < (candidates p H T m mode snap rad thr).length →
        (candidates p H T m mode snap rad thr).getD k 0 ≠ H →
        dpStep (smoothed p H) H (candidates p H T m mode snap rad thr) T (maxWindow T wf) dp k
          = dpStepRule (edgeRule T (maxWindow T wf)) (smoothed p H) H
              (candidates p H T m mode snap rad thr) T dp k) ∧
      (∀ (dp : List ℚ) (k : Nat), k < (candidates p H T m mode snap rad thr).length →
        dpStep (smoothed p H) H (candidates p H T m mode snap rad thr) T (maxWindow T wf) dp k
          = dpStepRule (edgeRuleBounded T (maxWindow T wf)) (smoothed p H) H
              (candidates p H T m mode snap rad thr) T dp k) ∧
      dpTable (smoothed p H) H (candidates p H T m mode snap rad thr) T (maxWindow T wf)
          ((candidates p H T m mode snap rad thr).length - 1)
        = dpTableRule (edgeRuleBounded T (maxWindow T wf)) (smoothed p H) H
            (candidates p H T m mode snap rad thr) T
            ((candidates p H T m mode snap rad thr).length - 1) ∧
      find_optimal_cuts_dp p H T wf m mode snap rad thr
        = find_optimal_cuts_dp_rule edgeRuleBounded p H T wf m mode snap rad thr := by
  have hs := candidates_sorted p H T m mode snap rad thr
  have hpos : 0 < (candidates p H T m mode snap rad thr).length :=
    List.length_pos_of_mem (zero_mem_candidates p H T m mode snap rad thr)
  have htab := dpTable_eq_rule (smoothed p H) H _ T (maxWindow T wf) hs
    ((candidates p H T m mode snap rad thr).length - 1) (by omega)
  refine ⟨?_, ?_, htab, ?_⟩
  · intro dp k hk hne
    rw [dpStep_eq_rule _ H _ T _ hs dp k hk]
    unfold dpStepRule
    simp only [hne, decide_False]
    exact scanPrevRule_congr _ dp T _ false _ _ _ k _
      (fun q _ => edgeRuleBounded_non_terminal T (maxWindow T wf) _)
  · intro dp k hk
    exact dpStep_eq_rule _ H _ T _ hs dp k hk
  · unfold find_optimal_cuts_dp find_optimal_cuts_dp_rule
    simp only
    rw [htab]

/-! ## The snap step and the safety test -/

theorem minInk_gt_iff (p : Nat → ℚ) (s n : Nat) (thr : ℚ) :
    thr < minInk p s n ↔ thr < 1 ∧ ∀ i, s ≤ i → i < s + n → thr < p i := by
  induction n with
  | zero =>
    simp only [minInk]
    exact ⟨fun h => ⟨h, fun i h1 h2 => by omega⟩, fun h => h.1⟩
  | succ n ih =>
    simp only [minInk]
    split_ifs with hlt
    · constructor
      · intro h
        have h' : thr < minInk p s n := lt_trans h hlt
        obtain ⟨h1, h2⟩ := ih.mp h'
        refine ⟨h1, fun i hi1 hi2 => ?_⟩
        rcases Nat.lt_or_ge i (s + n) with hc | hc
        · exact h2 i hi1 hc
        · have : i = s + n := by omega
          rw [this]; exact h
      · rintro ⟨-, h2⟩
        exact h2 (s + n) (by omega) (by omega)
    · constructor
      · intro h
        obtain ⟨h1, h2⟩ := ih.mp h
        refine ⟨h1, fun i hi1 hi2 => ?_⟩
        rcases Nat.lt_or_ge i (s + n) with hc | hc
        · exact h2 i hi1 hc
        · have : i = s + n := by omega
          rw [this]; exact lt_of_lt_of_le h (not_lt.mp hlt)
      · rintro ⟨h1, h2⟩
        exact ih.mpr ⟨h1, fun i hi1 hi2 => h2 i hi1 (by omega)⟩

theorem is_unsafe_cut_fn_iff (p : Nat → ℚ) (H r : Nat) (rad : Int) (thr : ℚ) :
    is_unsafe_cut_fn p H r rad thr = true ↔
      0 < r ∧ r < H ∧ thr < 1 ∧ specSafe p H r rad thr := by
  unfold is_unsafe_cut_fn specSafe
  by_cases hr : r = 0 ∨ r ≥ H
  · rw [if_pos hr]
    constructor
    · intro h; exact absurd h (by decide)
    · rintro ⟨h1, h2, -, -⟩; omega
  · rw [if_neg hr]
    simp only [decide_eq_true_eq, gt_iff_lt]
    rw [minInk_gt_iff]
    constructor
    · rintro ⟨h1, h2⟩
      refine ⟨by omega, by omega, h1, fun i hi h3 h4 => h2 i (by omega) (by omega)⟩
    · rintro ⟨-, -, h1, h2⟩
      exact ⟨h1, fun i h3 h4 => h2 i (by omega) (by omega) (by omega)⟩

theorem snapLoop_mem_iff (p : Nat → ℚ) (H T : Nat) (snap rad : Int) (thr : ℚ) (hT : 1 ≤ T)
    (x : Nat) :
    ∀ fuel ideal : Nat, H - ideal ≤ fuel →
      (x ∈ snapLoop p H T snap rad thr fuel ideal ↔
        (∃ j : Nat, ideal + j * T < H ∧ inSnapWindow H snap (ideal + j * T) x) ∧
          is_unsafe_cut_fn p H x rad thr = false) := by
  intro fuel
  induction fuel with
  | zero =>
    intro ideal hf
    simp only [snapLoop, List.not_mem_nil, false_iff, not_and]
    rintro ⟨j, hj, -⟩
    have : 0 ≤ j * T := Nat.zero_le _
    omega
  | succ f ih =>
    intro ideal hf
    simp only [snapLoop]
    split_ifs with hlt
    · rw [List.mem_append, snapWindow_mem, ih (ideal + T) (by omega)]
      constructor
      · rintro (⟨h1, h2⟩ | ⟨⟨j, hj1, hj2⟩, h2⟩)
        · refine ⟨⟨0, by simpa using hlt, ?_⟩, h2⟩
          simp only [Nat.zero_mul, Nat.add_zero]
          unfold inSnapWindow
          omega
        · refine ⟨⟨j + 1, ?_, ?_⟩, h2⟩
          · have : ideal + (j + 1) * T = ideal + T + j * T := by ring
            rw [this]; exact hj1
          · have : ideal + (j + 1) * T = ideal + T + j * T := by ring
            rw [this]; exact hj2
      · rintro ⟨⟨j, hj1, hj2⟩, h2⟩
        cases j with
        | zero =>
          left
          simp only [Nat.zero_mul, Nat.add_zero] at hj2
          unfold inSnapWindow at hj2
          exact ⟨by omega, h2⟩
        | succ j =>
          right
          have : ideal + (j + 1) * T = ideal + T + j * T := by ring
          rw [this] at hj1 hj2
          exact ⟨⟨j, hj1, hj2⟩, h2⟩
    · simp only [List.not_mem_nil, false_iff, not_and]
      rintro ⟨j, hj, -⟩
      have : 0 ≤ j * T := Nat.zero_le _
      omega

/-- C12, the claim fails: in the 100-row profile that is clean except for density 1 at row
50, with target height 50, snap_px 40, radius 2 and threshold 0.3, row 50 lies in the snap
window of the ideal row 50 and is not safe in the wording of the specification (its
neighbour 49 has density 0, so the window minimum does not exceed 0.3), yet the snap step
adds it. -/
theorem snap_adds_row_not_spec_safe :
    inSnapWindow 100 40 50 50 ∧
    ¬ specSafe (spikeProfile 50 1) 100 50 2 (3 / 10) ∧
    50 ∈ snapCandidates (spikeProfile 50 1) 100 50 CutMode.CUT_MODE_FIXED_HEIGHT_SNAP 40 2
      (3 / 10) := by
  refine ⟨by unfold inSnapWindow; omega, ?_, by decide!⟩
  intro h
  have := h 49 (by decide) (by decide) (by decide)
  simp [spikeProfile] at this
  linarith

/-- C12, amended. In fixed_height_snap mode with target_height_px >= 1, a row r is added by
the snap step exactly when it lies in the snap window (within snap_px rows, inside the image)
of some ideal row (a positive multiple of target_height_px below height) and
`is_unsafe_cut_fn` returns false for it, that is, exactly when r = 0, or the threshold is at
least 1, or some raw density within unsafe_window_radius rows of r does not exceed
unsafe_ink_threshold; a row r > 0 all of whose window densities exceed a threshold below 1 is
not added. -/
theorem snap_candidate_iff (p : Nat → ℚ) (H T : Nat) (snap rad : Int) (thr : ℚ) (hT : 1 ≤ T)
    (r : Nat) :
    (r ∈ snapCandidates p H T CutMode.CUT_MODE_FIXED_HEIGHT_SNAP snap rad thr ↔
        (∃ k : Nat, 1 ≤ k ∧ k * T < H ∧ inSnapWindow H snap (k * T) r) ∧
          is_unsafe_cut_fn p H r rad thr = false) ∧
      (is_unsafe_cut_fn p H r rad thr = false ↔
        r = 0 ∨ H ≤ r ∨ 1 ≤ thr ∨ ¬ specSafe p H r rad thr) ∧
      (0 < r → thr < 1 → specSafe p H r rad thr →
        r ∉ snapCandidates p H T CutMode.CUT_MODE_FIXED_HEIGHT_SNAP snap rad thr) := by
  have hloop := snapLoop_mem_iff p H T snap rad thr hT r H T (by omega)
  have hmem : r ∈ snapCandidates p H T CutMode.CUT_MODE_FIXED_HEIGHT_SNAP snap rad thr ↔
      (∃ k : Nat, 1 ≤ k ∧ k * T < H ∧ inSnapWindow H snap (k * T) r) ∧
        is_unsafe_cut_fn p H r rad thr = false := by
    unfold snapCandidates
    rw [if_pos rfl, hloop]
    constructor
    · rintro ⟨⟨j, hj1, hj2⟩, h2⟩
      have : T + j * T = (j + 1) * T := by ring
      rw [this] at hj1 hj2
      exact ⟨⟨j + 1, by omega, hj1, hj2⟩, h2⟩
    · rintro ⟨⟨k, hk0, hk1, hk2⟩, h2⟩
      obtain ⟨j, rfl⟩ : ∃ j, k = j + 1 := ⟨k - 1, by omega⟩
      have : T + j * T = (j + 1) * T := by ring
      exact ⟨⟨j, by rw [this]; exact hk1, by rw [this]; exact hk2⟩, h2⟩
  have hsafe : is_unsafe_cut_fn p H r rad thr = false ↔
      r = 0 ∨ H ≤ r ∨ 1 ≤ thr ∨ ¬ specSafe p H r rad thr := by
    rw [← Bool.not_eq_true, is_unsafe_cut_fn_iff]
    constructor
    · intro h
      by_contra hcon
      push_neg at hcon
      exact h ⟨by omega, by omega, hcon.2.2.1, hcon.2.2.2⟩
    · rintro h ⟨h1, h2, h3, h4⟩
      rcases h with h | h | h | h
      · omega
      · omega
      · exact absurd h3 (not_lt.mpr h)
      · exact h h4
  refine ⟨hmem, hsafe, ?_⟩
  intro h0 h1 h2 hin
  obtain ⟨⟨k, -, -, hw⟩, hs⟩ := hmem.mp hin
  rcases hsafe.mp hs with h | h | h | h
  · omega
  · unfold inSnapWindow at hw; omega
  · exact absurd h1 (not_lt.mpr h)
  · exact h h2

/-- C12, amended, instance: row 50 of the 100-row spike profile. -/
theorem snap_candidate_iff_witness :
    1 ≤ 50 ∧
    ((50 ∈ snapCandidates (spikeProfile 50 1) 100 50 CutMode.CUT_MODE_FIXED_HEIGHT_SNAP 40 2
          (3 / 10) ↔
        (∃ k : Nat, 1 ≤ k ∧ k * 50 < 100 ∧ inSnapWindow 100 40 (k * 50) 50) ∧
          is_unsafe_cut_fn (spikeProfile 50 1) 100 50 2 (3 / 10) = false) ∧
      (is_unsafe_cut_fn (spikeProfile 50 1) 100 50 2 (3 / 10) = false ↔
        50 = 0 ∨ 100 ≤ 50 ∨ (1 : ℚ) ≤ 3 / 10 ∨ ¬ specSafe (spikeProfile 50 1) 100 50 2 (3 / 10)) ∧
      (0 < 50 → (3 / 10 : ℚ) < 1 → specSafe (spikeProfile 50 1) 100 50 2 (3 / 10) →
        50 ∉ snapCandidates (spikeProfile 50 1) 100 50 CutMode.CUT_MODE_FIXED_HEIGHT_SNAP 40 2
          (3 / 10))) :=
  ⟨by decide, snap_candidate_iff (spikeProfile 50 1) 100 50 40 2 (3 / 10) (by decide) 50⟩

/-! ## Whitespace gaps -/

theorem is_gap_iff (p : Nat → ℚ) (i : Nat) : is_gap p i = true ↔ p i ≤ gap_thresh := by
  simp [is_gap]

theorem gapRunEnd_all_gap (p : Nat → ℚ) (H : Nat) (fuel i : Nat) :
    ∀ k, i ≤ k → k < gapRunEnd p H fuel i → is_gap p k = true := by
  induction fuel generalizing i with
  | zero => intro k h1 h2; simp only [gapRunEnd] at h2; omega
  | succ f ih =>
    intro k h1 h2
    simp only [gapRunEnd] at h2
    split_ifs at h2 with h
    · rcases Nat.eq_or_lt_of_le h1 with he | hl
      · rw [← he]; exact h.2
      · exact ih (i + 1) k hl h2
    · omega

theorem maxRun_of_gapRunEnd (p : Nat → ℚ) (H i : Nat) (hi : i < H) (hg : is_gap p i = true)
    (hleft : i = 0 ∨ ¬ is_gap p (i - 1) = true) :
    MaxRun p H i (gapRunEnd p H (H - i) i) := by
  refine ⟨gapRunEnd_gt p H i hi hg, gapRunEnd_le p H (H - i) i hi.le, ?_, ?_, ?_⟩
  · intro k h1 h2
    exact (is_gap_iff p k).mp (gapRunEnd_all_gap p H (H - i) i k h1 h2)
  · rcases hleft with h | h
    · exact Or.inl h
    · exact Or.inr (fun hc => h ((is_gap_iff p _).mpr hc))
  · have hex := gapRunEnd_exit p H (H - i) i le_rfl
    have hle := gapRunEnd_le p H (H - i) i hi.le
    by_cases he : gapRunEnd p H (H - i) i = H
    · exact Or.inl he
    · right
      intro hc
      exact hex ⟨by omega, (is_gap_iff p _).mpr hc⟩

theorem maxRun_end_unique (p : Nat → ℚ) (H s e e' : Nat) (h : MaxRun p H s e)
    (h' : MaxRun p H s e') : e = e' := by
  obtain ⟨h1, h2, h3, -, h5⟩ := h
  obtain ⟨h1', h2', h3', -, h5'⟩ := h'
  rcases Nat.lt_trichotomy e e' with hlt | heq | hgt
  · rcases h5 with h | h
    · omega
    · exact absurd (h3' e (by omega) hlt) h
  · exact heq
  · rcases h5' with h | h
    · omega
    · exact absurd (h3 e' (by omega) hgt) h

theorem maxRun_eq_of_overlap (p : Nat → ℚ) (H s e s' e' x : Nat) (h : MaxRun p H s e)
    (h' : MaxRun p H s' e') (hx : s ≤ x ∧ x < e) (hx' : s' ≤ x ∧ x < e') :
    s = s' ∧ e = e' := by
  have hs : s = s' := by
    rcases Nat.lt_trichotomy s s' with hlt | heq | hgt
    · rcases h'.2.2.2.1 with h0 | h0
      · omega
      · exact absurd (h.2.2.1 (s' - 1) (by omega) (by omega)) h0
    · exact heq
    · rcases h.2.2.2.1 with h0 | h0
      · omega
      · exact absurd (h'.2.2.1 (s - 1) (by omega) (by omega)) h0
  subst hs
  exact ⟨rfl, maxRun_end_unique p H s e e' h h'⟩

theorem gapLoop_mem_iff (p : Nat → ℚ) (H : Nat) (m : Int) (x : Nat) :
    ∀ fuel i : Nat, H - i ≤ fuel →
      (i = 0 ∨ ¬ is_gap p (i - 1) = true ∨ H ≤ i ∨ ¬ is_gap p i = true) →
      (x ∈ gapLoop p H m fuel i ↔
        ∃ s e : Nat, MaxRun p H s e ∧ i ≤ s ∧ m ≤ ((e - s : Nat) : Int) ∧
          x = s + (e - s) / 2) := by
  intro fuel
  induction fuel with
  | zero =>
    intro i hf _
    simp only [gapLoop, List.not_mem_nil, false_iff]
    rintro ⟨s, e, hrun, hs, -, -⟩
    have := hrun.1
    have := hrun.2.1
    omega
  | succ f ih =>
    intro i hf hJ
    simp only [gapLoop]
    by_cases hi : i < H
    · rw [if_pos hi]
      by_cases hg : is_gap p i = true
      · rw [if_pos hg]
        have hleft : i = 0 ∨ ¬ is_gap p (i - 1) = true := by
          rcases hJ with h | h | h | h
          · exact Or.inl h
          · exact Or.inr h
          · omega
          · exact absurd hg h
        have hrun0 := maxRun_of_gapRunEnd p H i hi hg hleft
        have hgt := gapRunEnd_gt p H i hi hg
        have hle := gapRunEnd_le p H (H - i) i hi.le
        have hex := gapRunEnd_exit p H (H - i) i le_rfl
        have hJ' : gapRunEnd p H (H - i) i = 0 ∨
            ¬ is_gap p (gapRunEnd p H (H - i) i - 1) = true ∨
            H ≤ gapRunEnd p H (H - i) i ∨ ¬ is_gap p (gapRunEnd p H (H - i) i) = true := by
          by_cases he : gapRunEnd p H (H - i) i < H
          · exact Or.inr (Or.inr (Or.inr (fun hc => hex ⟨he, hc⟩)))
          · exact Or.inr (Or.inr (Or.inl (by omega)))
        have hrest := ih (gapRunEnd p H (H - i) i) (by omega) hJ'
        have key : (∃ s e : Nat, MaxRun p H s e ∧ i ≤ s ∧ m ≤ ((e - s : Nat) : Int) ∧
              x = s + (e - s) / 2) ↔
            ((m ≤ ((gapRunEnd p H (H - i) i - i : Nat) : Int) ∧
                x = i + (gapRunEnd p H (H - i) i - i) / 2) ∨
              x ∈ gapLoop p H m f (gapRunEnd p H (H - i) i)) := by
          rw [hrest]
          constructor
          · rintro ⟨s, e, hrun, hs, hm, hx⟩
            rcases Nat.eq_or_lt_of_le hs with h | h
            · subst h
              have := maxRun_end_unique p H i e _ hrun hrun0
              subst this
              exact Or.inl ⟨hm, hx⟩
            · right
              refine ⟨s, e, hrun, ?_, hm, hx⟩
              by_contra hcon
              rcases hrun.2.2.2.1 with h0 | h0
              · omega
              · exact h0 (hrun0.2.2.1 (s - 1) (by omega) (by omega))
          · rintro (⟨hm, hx⟩ | ⟨s, e, hrun, hs, hm, hx⟩)
            · exact ⟨i, _, hrun0, le_rfl, hm, hx⟩
            · exact ⟨s, e, hrun, by omega, hm, hx⟩
        rw [key]
        by_cases hm : ((gapRunEnd p H (H - i) i - i : Nat) : Int) ≥ m
        · rw [if_pos hm, List.mem_cons]
          constructor
          · rintro (h | h)
            · exact Or.inl ⟨hm, h⟩
            · exact Or.inr h
          · rintro (⟨-, h⟩ | h)
            · exact Or.inl h
            · exact Or.inr h
        · rw [if_neg hm]
          constructor
          · intro h; exact Or.inr h
          · rintro (⟨h, -⟩ | h)
            · exact absurd h hm
            · exact h
      · rw [if_neg hg]
        rw [ih (i + 1) (by omega) (Or.inr (Or.inl (by simpa using hg)))]
        constructor
        · rintro ⟨s, e, hrun, hs, hm, hx⟩
          exact ⟨s, e, hrun, by omega, hm, hx⟩
        · rintro ⟨s, e, hrun, hs, hm, hx⟩
          refine ⟨s, e, hrun, ?_, hm, hx⟩
          rcases Nat.eq_or_lt_of_le hs with h | h
          · subst h
            exact absurd ((is_gap_iff p i).mpr (hrun.2.2.1 i le_rfl hrun.1)) hg
          · exact h
    · rw [if_neg hi]
      simp only [List.not_mem_nil, false_iff]
      rintro ⟨s, e, hrun, hs, -, -⟩
      have := hrun.1
      have := hrun.2.1
      omega

theorem gapCandidates_mem_iff (p : Nat → ℚ) (H : Nat) (m : Int) (x : Nat) :
    x ∈ gapCandidates p H m ↔
      ∃ s e : Nat, MaxRun p H s e ∧ m ≤ ((e - s : Nat) : Int) ∧ x = s + (e - s) / 2 := by
  unfold gapCandidates
  rw [gapLoop_mem_iff p H m x H 0 (by omega) (Or.inl rfl)]
  constructor
  · rintro ⟨s, e, h1, -, h2, h3⟩; exact ⟨s, e, h1, h2, h3⟩
  · rintro ⟨s, e, h1, h2, h3⟩; exact ⟨s, e, h1, Nat.zero_le _, h2, h3⟩

/-- C14. For every profile, every maximal run of consecutive rows [s, e) of the image whose
raw density is at or below the gap threshold 0.01 and whose length e - s is at least
min_gap_rows contributes its midpoint s + floor((e - s)/2) to the gap candidates and hence to
the candidate set; a maximal run shorter than min_gap_rows contributes no gap candidate (no
gap candidate lies in it). -/
theorem gap_run_midpoint (p : Nat → ℚ) (H T : Nat) (m : Int) (mode : CutMode)
    (snap rad : Int) (thr : ℚ) (s e : Nat) (hrun : MaxRun p H s e) :
    (m ≤ ((e - s : Nat) : Int) →
        s + (e - s) / 2 ∈ gapCandidates p H m ∧
          s + (e - s) / 2 ∈ candidates p H T m mode snap rad thr) ∧
      (((e - s : Nat) : Int) < m → ∀ x ∈ gapCandidates p H m, ¬ (s ≤ x ∧ x < e)) := by
  constructor
  · intro hm
    have hmem : s + (e - s) / 2 ∈ gapCandidates p H m :=
      (gapCandidates_mem_iff p H m _).mpr ⟨s, e, hrun, hm, rfl⟩
    refine ⟨hmem, ?_⟩
    rw [candidates_mem]
    unfold rawCandidates
    exact List.mem_append_left _ (List.mem_append_left _ (List.mem_append_right _ hmem))
  · intro hm x hx hin
    obtain ⟨s', e', hrun', hm', hx'⟩ := (gapCandidates_mem_iff p H m x).mp hx
    have h1 := hrun'.1
    have hdiv : (e' - s') / 2 < e' - s' := Nat.div_lt_self (by omega) (by decide)
    obtain ⟨hs, he⟩ := maxRun_eq_of_overlap p H s e s' e' x hrun hrun' hin
      ⟨by omega, by omega⟩
    subst hs; subst he
    omega

/-- C14, instance: the zero run 490 .. 509 of the height-1000 profile, with
min_gap_rows = 12. -/
theorem gap_run_midpoint_witness :
    MaxRun whitespaceRunProfile 1000 490 510 ∧
    ((12 ≤ ((510 - 490 : Nat) : Int) →
        490 + (510 - 490) / 2 ∈ gapCandidates whitespaceRunProfile 1000 12 ∧
          490 + (510 - 490) / 2 ∈ candidates whitespaceRunProfile 1000 500 12
            CutMode.CUT_MODE_WHITESPACE 40 2 (3 / 10)) ∧
      (((510 - 490 : Nat) : Int) < 12 →
        ∀ x ∈ gapCandidates whitespaceRunProfile 1000 12, ¬ (490 ≤ x ∧ x < 510))) :=
  have hrun : MaxRun whitespaceRunProfile 1000 490 510 := by
    refine ⟨by decide, by decide, ?_, Or.inr (by decide!), Or.inr (by decide!)⟩
    intro i h1 h2
    have : 490 ≤ i ∧ i < 510 := ⟨h1, h2⟩
    simp only [whitespaceRunProfile, this, and_self, if_true, gap_thresh]
    norm_num
  ⟨hrun, gap_run_midpoint whitespaceRunProfile 1000 500 12 CutMode.CUT_MODE_WHITESPACE 40 2
    (3 / 10) 490 510 hrun⟩

/-! ## 32-bit wraparound -/

theorem wrap32_of_range (z : Int) (h1 : -2147483648 ≤ z) (h2 : z < 2147483648) :
    wrap32 z = z := by
  unfold wrap32; omega

theorem wrap32_add (a b : Int) : wrap32 (wrap32 a + wrap32 b) = wrap32 (a + b) := by
  unfold wrap32; omega

theorem wrap32_add_left (a b : Int) : wrap32 (wrap32 a + b) = wrap32 (a + b) := by
  unfold wrap32; omega

theorem wrap32_sub (a b : Int) : wrap32 (wrap32 a - wrap32 b) = wrap32 (a - b) := by
  unfold wrap32; omega

theorem wrap32_zero : wrap32 0 = 0 := by decide

theorem wrap32_rect (a b c d : Int) :
    wrap32 (wrap32 (wrap32 (wrap32 d - wrap32 b) - wrap32 c) + wrap32 a)
      = wrap32 (d - b - c + a) := by
  unfold wrap32; omega

theorem idx32_eq (y x : Nat) (width : Nat) (h : y * width + x < 2147483648) :
    idx32 (y : Int) width (x : Int) = y * width + x := by
  unfold idx32
  have h0 : (0 : Int) ≤ (y : Int) * (width : Int) := by positivity
  have h1 : ((y : Int) * (width : Int)) + (x : Int) < 2147483648 := by exact_mod_cast h
  have hx : (0 : Int) ≤ (x : Int) := Int.natCast_nonneg x
  rw [wrap32_of_range ((y : Int) * (width : Int)) (by omega) (by omega),
    wrap32_of_range _ (by omega) h1]
  have : (y : Int) * (width : Int) + (x : Int) = ((y * width + x : Nat) : Int) := by
    push_cast; ring
  rw [this, Int.toNat_ofNat]

theorem pixel_index_lt (width height y x : Nat) (hy : y < height) (hx : x < width) :
    y * width + x < width * height := by
  have h1 : (y + 1) * width ≤ height * width := Nat.mul_le_mul_right _ hy
  have h2 : (y + 1) * width = y * width + width := by ring
  have h3 : height * width = width * height := Nat.mul_comm _ _
  omega

theorem idx32_eq_int (yy xx : Int) (width : Nat) (hy : 0 ≤ yy) (hx : 0 ≤ xx)
    (h : yy * (width : Int) + xx < 2147483648) :
    idx32 yy width xx = (yy * (width : Int) + xx).toNat := by
  unfold idx32
  have h0 : (0 : Int) ≤ yy * (width : Int) := mul_nonneg hy (Int.natCast_nonneg _)
  rw [wrap32_of_range (yy * (width : Int)) (by omega) (by omega),
    wrap32_of_range _ (by omega) h]

theorem int_index_lt (yy xx : Int) (width height : Nat)
    (hy : yy ≤ (height : Int) - 1) (hx : xx ≤ (width : Int) - 1) :
    yy * (width : Int) + xx < (width : Int) * (height : Int) := by
  have h1 : yy * (width : Int) ≤ ((height : Int) - 1) * (width : Int) :=
    mul_le_mul_of_nonneg_right hy (Int.natCast_nonneg _)
  have h2 : ((height : Int) - 1) * (width : Int)
      = (width : Int) * (height : Int) - (width : Int) := by ring
  omega

theorem wraps_update {f32 f : Nat → Int} (h : Wraps f32 f) (k : Nat) (v32 v : Int)
    (hv : v32 = wrap32 v) : Wraps (Function.update f32 k v32) (Function.update f k v) := by
  intro i
  by_cases hi : i = k
  · subst hi; simp [hv]
  · rw [Function.update_noteq hi, Function.update_noteq hi]; exact h i

theorem integralRow32_wraps (gray : Nat → Nat) (width y : Nat) (tab32 tab : Nat → Int)
    (hw : Wraps tab32 tab) (hb : (y + 1) * width < 2147483648) (n : Nat) (hn : n ≤ width) :
    Wraps (integralRow32 gray width y tab32 n).1 (integralRow gray width y tab n).1 ∧
      (integralRow32 gray width y tab32 n).2 = wrap32 (integralRow gray width y tab n).2 := by
  induction n with
  | zero => exact ⟨hw, wrap32_zero.symm⟩
  | succ n ih =>
    obtain ⟨h1, h2⟩ := ih (by omega)
    have hexp : (y + 1) * width = y * width + width := by ring
    have hidx : idx32 (y : Int) width (n : Int) = y * width + n :=
      idx32_eq y n width (by omega)
    have hrs : wrap32 ((integralRow32 gray width y tab32 n).2 + (gray (y * width + n) : Int))
        = wrap32 ((integralRow gray width y tab n).2 + (gray (y * width + n) : Int)) := by
      rw [h2, wrap32_add_left]
    simp only [integralRow32, integralRow, hidx]
    refine ⟨wraps_update h1 _ _ _ ?_, hrs⟩
    by_cases hy : y = 0
    · rw [if_pos hy, if_pos hy]; exact hrs
    · rw [if_neg hy, if_neg hy]
      have hy1 : wrap32 ((y : Int) - 1) = ((y - 1 : Nat) : Int) := by
        rw [wrap32_of_range _ (by omega) (by nlinarith)]
        omega
      have hidx' : idx32 (((y - 1 : Nat) : Int)) width (n : Int) = (y - 1) * width + n := by
        refine idx32_eq (y - 1) n width ?_
        have : (y - 1) * width ≤ y * width := Nat.mul_le_mul_right _ (by omega)
        omega
      rw [hy1, hidx', h1 ((y - 1) * width + n), hrs, wrap32_add]

theorem compute_integral_image32_wraps (gray : Nat → Nat) (width height : Nat)
    (hb : width * height < 2147483648) :
    Wraps (compute_integral_image32 gray width height)
      (compute_integral_image gray width height) := by
  induction height with
  | zero => intro i; exact wrap32_zero.symm
  | succ h ih =>
    have hle : width * h ≤ width * (h + 1) := Nat.mul_le_mul_left _ (by omega)
    have hcomm : (h + 1) * width = width * (h + 1) := Nat.mul_comm _ _
    simp only [compute_integral_image32, compute_integral_image]
    exact (integralRow32_wraps gray width h _ _ (ih (by omega)) (by omega) width le_rfl).1

theorem get_rect_sum32_eq_wrap (tab32 tab : Nat → Int) (hw : Wraps tab32 tab)
    (width height : Nat) (hw1 : 1 ≤ width) (hh1 : 1 ≤ height)
    (hb : width * height < 2147483648) (x0 y0 x1 y1 : Int) :
    get_rect_sum32 tab32 width height x0 y0 x1 y1
      = wrap32 (get_rect_sum tab width height x0 y0 x1 y1) := by
  have hbI : (width : Int) * (height : Int) < 2147483648 := by exact_mod_cast hb
  have hwle : (width : Int) ≤ (width : Int) * (height : Int) := by
    have : (1 : Int) ≤ (height : Int) := by exact_mod_cast hh1
    nlinarith [Int.natCast_nonneg width]
  have hhle : (height : Int) ≤ (width : Int) * (height : Int) := by
    have : (1 : Int) ≤ (width : Int) := by exact_mod_cast hw1
    nlinarith [Int.natCast_nonneg height]
  have hww : wrap32 ((width : Int) - 1) = (width : Int) - 1 :=
    wrap32_of_range _ (by omega) (by omega)
  have hwh : wrap32 ((height : Int) - 1) = (height : Int) - 1 :=
    wrap32_of_range _ (by omega) (by omega)
  unfold get_rect_sum32 get_rect_sum
  simp only [hww, hwh]
  generalize hX0 : max 0 x0 = X0
  generalize hY0 : max 0 y0 = Y0
  generalize hX1 : min ((width : Int) - 1) x1 = X1
  generalize hY1 : min ((height : Int) - 1) y1 = Y1
  have hX0n : 0 ≤ X0 := by rw [← hX0]; exact le_max_left _ _
  have hY0n : 0 ≤ Y0 := by rw [← hY0]; exact le_max_left _ _
  have hX1le : X1 ≤ (width : Int) - 1 := by rw [← hX1]; exact min_le_left _ _
  have hY1le : Y1 ≤ (height : Int) - 1 := by rw [← hY1]; exact min_le_left _ _
  by_cases hempty : X0 > X1 ∨ Y0 > Y1
  · rw [if_pos hempty, if_pos hempty, wrap32_zero]
  · rw [if_neg hempty, if_neg hempty]
    have hXle : X0 ≤ X1 := by omega
    have hYle : Y0 ≤ Y1 := by omega
    have rd : ∀ yy xx : Int, 0 ≤ yy → yy ≤ Y1 → 0 ≤ xx → xx ≤ X1 →
        tab32 (idx32 yy width xx) = wrap32 (tab (yy * (width : Int) + xx).toNat) := by
      intro yy xx h1 h2 h3 h4
      have := int_index_lt yy xx width height (by omega) (by omega)
      rw [idx32_eq_int yy xx width h1 h3 (by omega)]
      exact hw _
    have hm1 : ∀ z : Int, 0 < z → z < 2147483648 → wrap32 (z - 1) = z - 1 :=
      fun z h1 h2 => wrap32_of_range _ (by omega) (by omega)
    have hA : (if X0 > 0 ∧ Y0 > 0 then tab32 (idx32 (wrap32 (Y0 - 1)) width (wrap32 (X0 - 1)))
          else 0)
        = wrap32 (if X0 > 0 ∧ Y0 > 0 then tab ((Y0 - 1) * (width : Int) + (X0 - 1)).toNat
          else 0) := by
      split_ifs with h
      · rw [hm1 Y0 h.2 (by omega), hm1 X0 h.1 (by omega)]
        exact rd _ _ (by omega) (by omega) (by omega) (by omega)
      · exact wrap32_zero.symm
    have hB : (if Y0 > 0 then tab32 (idx32 (wrap32 (Y0 - 1)) width X1) else 0)
        = wrap32 (if Y0 > 0 then tab ((Y0 - 1) * (width : Int) + X1).toNat else 0) := by
      split_ifs with h
      · rw [hm1 Y0 h (by omega)]
        exact rd _ _ (by omega) (by omega) (by omega) le_rfl
      · exact wrap32_zero.symm
    have hC : (if X0 > 0 then tab32 (idx32 Y1 width (wrap32 (X0 - 1))) else 0)
        = wrap32 (if X0 > 0 then tab (Y1 * (width : Int) + (X0 - 1)).toNat else 0) := by
      split_ifs with h
      · rw [hm1 X0 h (by omega)]
        exact rd _ _ (by omega) le_rfl (by omega) (by omega)
      · exact wrap32_zero.symm
    have hD : tab32 (idx32 Y1 width X1) = wrap32 (tab (Y1 * (width : Int) + X1).toNat) :=
      rd _ _ (by omega) le_rfl (by omega) le_rfl
    simp only [hA, hB, hC, hD]
    exact wrap32_rect _ _ _ _

theorem rectSumBrute_nonneg (gray : Nat → Nat) (width height : Nat) (x0 y0 x1 y1 : Int) :
    0 ≤ rectSumBrute gray width height x0 y0 x1 y1 := by
  unfold rectSumBrute
  refine Finset.sum_nonneg (fun y _ => Finset.sum_nonneg (fun x _ => ?_))
  split_ifs
  · exact Int.natCast_nonneg _
  · exact le_rfl

theorem rectSumBrute_le (gray : Nat → Nat) (width height : Nat) (hg : ∀ i, gray i ≤ 255)
    (x0 y0 x1 y1 : Int) :
    rectSumBrute gray width height x0 y0 x1 y1 ≤ 255 * rectCount width height x0 y0 x1 y1 := by
  unfold rectSumBrute rectCount
  rw [Finset.mul_sum]
  refine Finset.sum_le_sum (fun y _ => ?_)
  rw [Finset.mul_sum]
  refine Finset.sum_le_sum (fun x _ => ?_)
  split_ifs
  · have := hg (y * width + x)
    omega
  · exact le_rfl

theorem windowArea_le (width height x y : Nat) (hx : x < width) (hy : y < height) :
    windowArea width height x y ≤ 121 := by
  unfold windowArea
  simp only [half_block_eq]
  have h1 : min ((width : Int) - 1) ((x : Int) + 5) - max 0 ((x : Int) - 5) + 1 ≤ 11 := by omega
  have h2 : min ((height : Int) - 1) ((y : Int) + 5) - max 0 ((y : Int) - 5) + 1 ≤ 11 := by omega
  have h3 : 1 ≤ min ((width : Int) - 1) ((x : Int) + 5) - max 0 ((x : Int) - 5) + 1 := by omega
  have h4 : 1 ≤ min ((height : Int) - 1) ((y : Int) + 5) - max 0 ((y : Int) - 5) + 1 := by
    omega
  nlinarith

/-- C19, the claim fails: single-channel image of width 2^31 - 2 and height 1 whose pixels
are all 255 (so width * height < 2^31 and no index wraps).  At the last pixel x = 2^31 - 3
the `int` expression `x + 5` wraps to a negative number, the clipped window of
`get_rect_sum` is empty and the window sum used by `compute_ink_density` is 0, while the true
sum over the clipped 11 × 11 window (six pixels) is 1530. -/
theorem wrapped_window_sum_not_exact :
    (2147483646 * 1 < 2147483648 ∧ 2147483645 < 2147483646 ∧ 0 < 1 ∧
      ∀ i, whiteImage i ≤ 255) ∧
    wrap32 (((2147483645 : Nat) : Int) + 5) = -2147483646 ∧
    windowSum32 (compute_integral_image32 whiteImage 2147483646 1) 2147483646 1 2147483645 0
      = 0 ∧
    rectSumBrute whiteImage 2147483646 1 (((2147483645 : Nat) : Int) - 5)
      (((0 : Nat) : Int) - 5) (((2147483645 : Nat) : Int) + 5) (((0 : Nat) : Int) + 5) = 1530 := by
  refine ⟨⟨by norm_num, by norm_num, by norm_num, fun i => le_rfl⟩, by decide, ?_, ?_⟩
  · generalize compute_integral_image32 whiteImage 2147483646 1 = tab
    unfold windowSum32 get_rect_sum32
    simp only [half_block_eq]
    have h1 : wrap32 (((2147483645 : Nat) : Int) + 5) = -2147483646 := by decide
    have h2 : wrap32 (((2147483645 : Nat) : Int) - 5) = 2147483640 := by decide
    have h3 : wrap32 (((2147483646 : Nat) : Int) - 1) = 2147483645 := by decide
    rw [h1, h2, h3]
    rw [if_pos (Or.inl (by decide))]
  · rw [rectSumBrute_eq_Ico whiteImage 2147483646 1 _ _ _ _ 2147483640 2147483645 0 0
      (by decide) (by decide) (by decide) (by decide)]
    simp only [whiteImage, Finset.sum_const, Nat.card_Ico, smul_eq_mul, nsmul_eq_mul]
    norm_num

/-- C19, amended. Modelling C `int` as 32-bit two's-complement with wraparound, for every
image with width, height >= 1 and width * height < 2^31 (so that every index `y*width + x` is
computed without wrapping, while entries of the integral table may wrap) and every rectangle
whose true pixel sum is below 2^31, `get_rect_sum` on the wrapped table returns the exact
true sum; in particular, for gray values at most 255 and width + 4 < 2^31 and
height + 4 < 2^31 (so that `x + 5` and `y + 5` do not wrap), every 11 × 11 window sum used by
`compute_ink_density` is exact. -/
theorem wrapped_rect_sum_exact (gray : Nat → Nat) (width height : Nat) (hw1 : 1 ≤ width)
    (hh1 : 1 ≤ height) (hb : width * height < 2147483648) :
    (∀ x0 y0 x1 y1 : Int, rectSumBrute gray width height x0 y0 x1 y1 < 2147483648 →
        get_rect_sum32 (compute_integral_image32 gray width height) width height x0 y0 x1 y1
          = rectSumBrute gray width height x0 y0 x1 y1) ∧
      ((∀ i, gray i ≤ 255) → width + 4 < 2147483648 → height + 4 < 2147483648 →
        ∀ x y : Nat, x < width → y < height →
          windowSum32 (compute_integral_image32 gray width height) width height x y
            = rectSumBrute gray width height ((x : Int) - 5) ((y : Int) - 5) ((x : Int) + 5)
                ((y : Int) + 5)) := by
  have hrect : ∀ x0 y0 x1 y1 : Int, rectSumBrute gray width height x0 y0 x1 y1 < 2147483648 →
      get_rect_sum32 (compute_integral_image32 gray width height) width height x0 y0 x1 y1
        = rectSumBrute gray width height x0 y0 x1 y1 := by
    intro x0 y0 x1 y1 hlt
    rw [get_rect_sum32_eq_wrap _ _ (compute_integral_image32_wraps gray width height hb)
      width height hw1 hh1 hb, get_rect_sum_eq]
    have := rectSumBrute_nonneg gray width height x0 y0 x1 y1
    exact wrap32_of_range _ (by omega) hlt
  refine ⟨hrect, ?_⟩
  intro hg hw4 hh4 x y hx hy
  unfold windowSum32
  simp only [half_block_eq]
  rw [wrap32_of_range ((x : Int) - 5) (by omega) (by omega),
    wrap32_of_range ((y : Int) - 5) (by omega) (by omega),
    wrap32_of_range ((x : Int) + 5) (by omega) (by omega),
    wrap32_of_range ((y : Int) + 5) (by omega) (by omega)]
  refine hrect _ _ _ _ ?_
  have h1 := rectSumBrute_le gray width height hg ((x : Int) - 5) ((y : Int) - 5)
    ((x : Int) + 5) ((y : Int) + 5)
  have h2 := windowArea_le width height x y hx hy
  rw [windowArea_eq_rectCount width height x y hx hy] at h2
  omega

/-- C19, amended, instance: the 3 × 2 example image. -/
theorem wrapped_rect_sum_exact_witness :
    (1 ≤ 3 ∧ 1 ≤ 2 ∧ 3 * 2 < 2147483648) ∧
    ((∀ x0 y0 x1 y1 : Int, rectSumBrute sampleImage 3 2 x0 y0 x1 y1 < 2147483648 →
        get_rect_sum32 (compute_integral_image32 sampleImage 3 2) 3 2 x0 y0 x1 y1
          = rectSumBrute sampleImage 3 2 x0 y0 x1 y1) ∧
      ((∀ i, sampleImage i ≤ 255) → 3 + 4 < 2147483648 → 2 + 4 < 2147483648 →
        ∀ x y : Nat, x < 3 → y < 2 →
          windowSum32 (compute_integral_image32 sampleImage 3 2) 3 2 x y
            = rectSumBrute sampleImage 3 2 ((x : Int) - 5) ((y : Int) - 5) ((x : Int) + 5)
                ((y : Int) + 5))) :=
  ⟨⟨by decide, by decide, by decide⟩,
    wrapped_rect_sum_exact sampleImage 3 2 (by decide) (by decide) (by decide)⟩

/-! ## Uniform images -/

theorem rectSumBrute_uniform (gray : Nat → Nat) (width height : Nat) (v : Nat)
    (hu : ∀ i, i < width * height → gray i = v) (x0 y0 x1 y1 : Int) :
    rectSumBrute gray width height x0 y0 x1 y1
      = (v : Int) * rectCount width height x0 y0 x1 y1 := by
  unfold rectSumBrute rectCount
  rw [Finset.mul_sum]
  refine Finset.sum_congr rfl (fun y hy => ?_)
  rw [Finset.mul_sum]
  refine Finset.sum_congr rfl (fun x hx => ?_)
  rw [Finset.mem_range] at hx hy
  have hidx : y * width + x < width * height := by
    have h1 : (y + 1) * width ≤ height * width := Nat.mul_le_mul_right _ hy
    have h2 : (y + 1) * width = y * width + width := by ring
    have h3 : height * width = width * height := Nat.mul_comm _ _
    omega
  rw [hu _ hidx]
  split_ifs <;> simp

theorem isInk_uniform (gray : Nat → Nat) (width height : Nat) (v : Nat)
    (hu : ∀ i, i < width * height → gray i = v) (x y : Nat) (hx : x < width) (hy : y < height) :
    isInk gray (compute_integral_image gray width height) width height x y = false := by
  have hidx : y * width + x < width * height := by
    have h1 : (y + 1) * width ≤ height * width := Nat.mul_le_mul_right _ hy
    have h2 : (y + 1) * width = y * width + width := by ring
    have h3 : height * width = width * height := Nat.mul_comm _ _
    omega
  have hmean : localMean gray width height x y = (v : ℚ) := by
    unfold localMean
    rw [rectSumBrute_uniform gray width height v hu]
    have hpos := windowArea_pos width height x y hx hy
    rw [windowArea_eq_rectCount width height x y hx hy] at hpos
    have hne : (rectCount width height ((x : Int) - 5) ((y : Int) - 5) ((x : Int) + 5)
        ((y : Int) + 5) : ℚ) ≠ 0 := by
      have : (0 : Int) < rectCount width height ((x : Int) - 5) ((y : Int) - 5)
          ((x : Int) + 5) ((y : Int) + 5) := by omega
      exact_mod_cast this.ne'
    push_cast
    rw [mul_div_assoc, div_self hne, mul_one]
  rw [← Bool.not_eq_true]
  unfold isInk
  rw [decide_eq_true_iff, inkThresh_eq gray width height x y hx hy, lt_cTrunc_iff, hmean,
    hu _ hidx]
  intro h
  linarith

theorem rowInkPixels_uniform (gray : Nat → Nat) (width height : Nat) (v : Nat)
    (hu : ∀ i, i < width * height → gray i = v) (y : Nat) (hy : y < height) (n : Nat)
    (hn : n ≤ width) :
    rowInkPixels gray (compute_integral_image gray width height) width height y n = 0 := by
  induction n with
  | zero => rfl
  | succ n ih =>
    simp only [rowInkPixels]
    rw [isInk_uniform gray width height v hu n y (by omega) hy]
    simp only [Bool.false_eq_true, if_false]
    exact ih (by omega)

/-- C20. For every width and height and every image in which all pixels carry the same value
(the same gray value for 1 channel, the same RGB triple for 3 channels), `compute_ink_density`
returns the all-zero profile: every row, border rows included, has ink density 0. -/
theorem compute_ink_density_uniform (lum : Nat → Nat → Nat → Nat) (img : Nat → Nat)
    (width height channels : Nat) (hch : channels = 1 ∨ channels = 3)
    (hu : ∀ i k, i < width * height → k < channels → img (i * channels + k) = img k) :
    compute_ink_density lum img width height channels = List.replicate height 0 := by
  have hgray : ∀ i, i < width * height →
      rgb_to_gray lum img channels i = rgb_to_gray lum img channels 0 := by
    intro i hi
    unfold rgb_to_gray
    rcases hch with h | h
    · subst h
      have h1 := hu i 0 hi (by decide)
      simp only [Nat.mul_one, Nat.add_zero] at h1
      simp only [show ¬ ((1 : Nat) = 3) by decide, if_false, h1]
    · subst h
      have h0 := hu i 0 hi (by decide)
      have h1 := hu i 1 hi (by decide)
      have h2 := hu i 2 hi (by decide)
      simp only [if_true, h0, h1, h2, Nat.zero_mul, Nat.zero_add]
  unfold compute_ink_density
  simp only
  rw [List.eq_replicate_iff]
  refine ⟨by simp, ?_⟩
  intro q hq
  obtain ⟨y, hy, rfl⟩ := List.mem_map.mp hq
  rw [List.mem_range] at hy
  rw [rowInkPixels_uniform _ width height _ hgray y hy width le_rfl]
  simp

/-- C20, instance: a 3 × 2 three-channel image whose pixels all carry the triple
(200, 100, 50). -/
theorem compute_ink_density_uniform_witness :
    ((3 = 1 ∨ 3 = 3) ∧
      ∀ i k, i < 3 * 2 → k < 3 →
        uniformRgbImage (i * 3 + k)
          = uniformRgbImage k) ∧
    compute_ink_density luminance uniformRgbImage 3 2 3
      = List.replicate 2 0 :=
  have hu : ∀ i k, i < 3 * 2 → k < 3 →
      uniformRgbImage (i * 3 + k)
        = uniformRgbImage k := by
    intro i k _ _
    have : (i * 3 + k) % 3 = k % 3 := by omega
    simp only [uniformRgbImage, this]
  ⟨⟨Or.inr rfl, hu⟩,
    compute_ink_density_uniform luminance uniformRgbImage 3 2 3
      (Or.inr rfl) hu⟩

/-! ## The fallback loop: trip count and capacity -/

theorem fallbackFill_length (H T : Nat) (hT : 1 ≤ T) :
    (fallbackFill H T H 0).length = (H + T - 1) / T := by
  have := fallbackFill_eq H T hT H 0 (by nlinarith)
  rw [Nat.zero_mul] at this
  rw [this]
  simp

theorem ceilDiv_eq_ceil (H T : Nat) (hT : 1 ≤ T) :
    (H + T - 1) / T = ⌈(H : ℚ) / (T : ℚ)⌉₊ := by
  have hTq : (0 : ℚ) < (T : ℚ) := by exact_mod_cast hT
  refine eq_of_forall_ge_iff (fun k => ?_)
  rw [ceilDiv_le_iff H T k hT, Nat.ceil_le, div_le_iff₀ hTq]
  exact_mod_cast Iff.rfl

theorem ceilDiv_le_floor_succ (H T : Nat) (hT : 1 ≤ T) : (H + T - 1) / T ≤ H / T + 1 := by
  rw [ceilDiv_le_iff H T _ hT]
  have h1 := Nat.div_add_mod H T
  have h2 := Nat.mod_lt H (by omega : T > 0)
  have h3 : (H / T + 1) * T = T * (H / T) + T := by ring
  omega

/-- C21. In the fallback branch, for every height >= 1 and target_height_px >= 1, the loop
terminates (it runs ceil(height / target_height_px) times, within its fuel, stops because
`p < height` fails, and more fuel does not change what it writes), the number of cuts written
is ceil(height / target_height_px) + 1, which does not exceed the allocated capacity
floor(height / target_height_px) + 2; the element written before the final height is
strictly less than height, so the duplicate-merging branch (count--) is not taken and the
array is returned as written. -/
theorem fallback_count_within_capacity (H T : Nat) (hH : 1 ≤ H) (hT : 1 ≤ T) :
    (∀ fuel, H ≤ fuel → fallbackFill H T fuel 0 = fallbackFill H T H 0) ∧
      (fallbackFill H T H 0).length = ⌈(H : ℚ) / (T : ℚ)⌉₊ ∧
      (fallbackFill H T H 0).length ≤ H ∧
      ¬ ((fallbackFill H T H 0).length * T < H) ∧
      (fallbackWritten H T).length = ⌈(H : ℚ) / (T : ℚ)⌉₊ + 1 ∧
      (fallbackWritten H T).length ≤ fallback_alloc H T ∧
      (fallbackWritten H T).getD ((fallbackWritten H T).length - 2) 0 < H ∧
      (fallbackWritten H T).getD ((fallbackWritten H T).length - 1) 0 = H ∧
      fallbackCuts H T = fallbackWritten H T := by
  have hlen := fallbackFill_length H T hT
  have hceil := ceilDiv_eq_ceil H T hT
  have hm1 : 1 ≤ (H + T - 1) / T := by
    by_contra hcon
    have := (ceilDiv_le_iff H T 0 hT).mp (by omega)
    omega
  have hwl : (fallbackWritten H T).length = (H + T - 1) / T + 1 := by
    unfold fallbackWritten
    rw [List.length_append, hlen]
    rfl
  have hprev : (fallbackWritten H T).getD ((fallbackWritten H T).length - 2) 0 < H := by
    rw [hwl]
    unfold fallbackWritten
    rw [List.getD_append _ _ _ _ (by rw [hlen]; omega),
      List.getD_eq_getElem _ 0 (by rw [hlen]; omega)]
    exact fallbackFill_lt H T H 0 _ (List.getElem_mem _)
  have hlast : (fallbackWritten H T).getD ((fallbackWritten H T).length - 1) 0 = H := by
    rw [hwl]
    unfold fallbackWritten
    rw [List.getD_append_right _ _ _ _ (by rw [hlen]; omega), hlen]
    simp
  refine ⟨fun fuel hf => fallbackFill_fuel H T hT fuel H hf le_rfl, ?_, ?_, ?_, ?_, ?_, hprev,
    hlast, ?_⟩
  · rw [hlen, hceil]
  · rw [hlen, ceilDiv_le_iff H T H hT]
    nlinarith
  · rw [hlen, not_lt]
    exact (ceilDiv_le_iff H T _ hT).mp le_rfl
  · rw [hwl, hceil]
  · rw [hwl]
    unfold fallback_alloc
    have := ceilDiv_le_floor_succ H T hT
    omega
  · have hcuts : fallbackCuts H T
        = if (fallbackWritten H T).getD ((fallbackWritten H T).length - 1) 0
              = (fallbackWritten H T).getD ((fallbackWritten H T).length - 2) 0
          then (fallbackWritten H T).take ((fallbackWritten H T).length - 1)
          else if (fallbackWritten H T).getD ((fallbackWritten H T).length - 1) 0 > H
            then (fallbackWritten H T).set ((fallbackWritten H T).length - 1) H
            else fallbackWritten H T := rfl
    rw [hcuts, hlast, if_neg (by omega), if_neg (lt_irrefl H)]

/-- C21, instance: height 10, target height 3; the loop writes 0, 3, 6, 9, then 10 is
stored: 5 cuts for a capacity of 5. -/
theorem fallback_count_within_capacity_witness :
    (1 ≤ 10 ∧ 1 ≤ 3) ∧ fallbackWritten 10 3 = [0, 3, 6, 9, 10] ∧ fallback_alloc 10 3 = 5 ∧
    ((∀ fuel, 10 ≤ fuel → fallbackFill 10 3 fuel 0 = fallbackFill 10 3 10 0) ∧
      (fallbackFill 10 3 10 0).length = ⌈((10 : Nat) : ℚ) / ((3 : Nat) : ℚ)⌉₊ ∧
      (fallbackFill 10 3 10 0).length ≤ 10 ∧
      ¬ ((fallbackFill 10 3 10 0).length * 3 < 10) ∧
      (fallbackWritten 10 3).length = ⌈((10 : Nat) : ℚ) / ((3 : Nat) : ℚ)⌉₊ + 1 ∧
      (fallbackWritten 10 3).length ≤ fallback_alloc 10 3 ∧
      (fallbackWritten 10 3).getD ((fallbackWritten 10 3).length - 2) 0 < 10 ∧
      (fallbackWritten 10 3).getD ((fallbackWritten 10 3).length - 1) 0 = 10 ∧
      fallbackCuts 10 3 = fallbackWritten 10 3) :=
  ⟨⟨by decide, by decide⟩, by decide, by decide,
    fallback_count_within_capacity 10 3 (by decide) (by decide)⟩

end CAP
